import Mathlib

/-!
# DNS-filter: name parser and classification cache

A shallow embedding of `src/src/dns_parse.cpp` (the DNS wire-name parser), of
`src/src/RedisDNSCache.cpp` (the Redis-backed classification cache), of
`src/src/DomainReporter.cpp` (the submission of domains and statistics) and of
the task of `src/src/CacheProcessor.cpp`, followed by theorems about them.

Conventions of the embedding.
* A packet (`std::vector<uint8_t>`) is a `List Byte`, `Byte = Fin 256`.
* A decoded name (`std::string`) is the list of its bytes; the dot is byte 46.
* `size_t` positions are natural numbers (no overflow is reachable for
  positions bounded by a packet length).
* `std::optional<std::string>` together with the by-reference `pos` is
  `Option (List Byte × Nat)`: `none` is `std::nullopt` (and `pos` is left as it
  was), `some (name, p)` is a returned name with `pos` set to `p`.
-/

namespace DnsFilter

/-! ## Part 1: `dns_parse.cpp` -/

/-- One octet of a packet (`uint8_t`). -/
abbrev Byte := Fin 256

/-- The byte `'.'`. -/
def dot : Byte := 46

/-- The value `packet[i]` as an unsigned number. An index outside the vector is
undefined behaviour in the source; the embedding reads 0 there (the parser
never does so when `max_len` is at most the length of the packet). -/
def byteAt (packet : List Byte) (i : Nat) : Nat := (packet.getD i 0).val

/-- The string `std::string(&packet[start], len)`: the `len` bytes from index
`start` (bytes past the end of the vector, undefined behaviour in the source,
are left out). -/
def label_bytes (packet : List Byte) (start len : Nat) : List Byte :=
  (packet.drop start).take len

/-- The local variable `jumps` of `read_domain_name`: initialised to 0 and never
assigned again. -/
def jumps : Int := 0

/-- The code after the `while` loop of `read_domain_name` (lines 74-81): the
jump-limit test, then `pos = curr_pos; return domain`. -/
def after_loop (jump_limit : Int) (curr_pos : Nat) (domain : List Byte) :
    Option (List Byte × Nat) :=
  if jumps ≥ jump_limit then none else some (domain, curr_pos)

/-- The `while` loop of `read_domain_name` (lines 15-72) from the loop state
`(curr_pos, domain)`. `recurse offset` is the recursive call
`read_domain_name(packet, tmp_pos = offset, max_len, jump_limit - 1)`.
The first argument bounds the number of iterations; every iteration that
continues advances `curr_pos` by at least 2, so `max_len - curr_pos` iterations
always suffice (`read_loop_fuel`). -/
def read_loop (packet : List Byte) (max_len : Nat) (jump_limit : Int)
    (recurse : Nat → Option (List Byte × Nat)) :
    Nat → Nat → List Byte → Option (List Byte × Nat)
  | 0, curr_pos, domain => after_loop jump_limit curr_pos domain
  | fuel + 1, curr_pos, domain =>
    if curr_pos < max_len ∧ jumps < jump_limit then
      let len := byteAt packet curr_pos
      if len &&& 0xC0 = 0xC0 then
        if curr_pos + 1 ≥ max_len then none
        else
          let offset := ((len &&& 0x3F) <<< 8) ||| byteAt packet (curr_pos + 1)
          if offset ≥ max_len then none
          else
            match recurse offset with
            | none => none
            | some (pointed, _) =>
              after_loop jump_limit (curr_pos + 2)
                ((if !domain.isEmpty && !pointed.isEmpty then domain ++ [dot] else domain)
                  ++ pointed)
      else if len = 0 then after_loop jump_limit (curr_pos + 1) domain
      else if len > 63 then none
      else if curr_pos + len ≥ max_len then none
      else
        read_loop packet max_len jump_limit recurse fuel (curr_pos + len + 1)
          ((if !domain.isEmpty then domain ++ [dot] else domain)
            ++ label_bytes packet (curr_pos + 1) len)
    else after_loop jump_limit curr_pos domain

/-- The function `read_domain_name` with its recursion made structural: `depth`
bounds the nesting of recursive calls. A call recurses only from inside the
loop, hence only when `0 < jump_limit`, and then with `jump_limit - 1`; so
`depth = jump_limit.toNat` is exact (`read_domain_name_unfold`). -/
def read_domain_name_at (packet : List Byte) (max_len : Nat) :
    Nat → Int → Nat → Option (List Byte × Nat)
  | 0, jump_limit, pos =>
    read_loop packet max_len jump_limit (fun _ => none) (max_len - pos) pos []
  | depth + 1, jump_limit, pos =>
    read_loop packet max_len jump_limit
      (read_domain_name_at packet max_len depth (jump_limit - 1)) (max_len - pos) pos []

/-- The function `read_domain_name(packet, pos, max_len, jump_limit)` of
`dns_parse.cpp`. -/
def read_domain_name (packet : List Byte) (pos max_len : Nat) (jump_limit : Int) :
    Option (List Byte × Nat) :=
  read_domain_name_at packet max_len jump_limit.toNat jump_limit pos

/-- The `for` loop of `extract_dns_queries` (lines 103-120) with `n` iterations
left, from the state `(pos, domains)`. The call passes no `jump_limit`, so the
default 5 of `dns_parse.h` applies. -/
def extract_loop (packet : List Byte) :
    Nat → Nat → List (List Byte) → List (List Byte)
  | 0, _, domains => domains
  | n + 1, pos, domains =>
    match read_domain_name packet pos packet.length 5 with
    | none => domains
    | some (domain, pos1) =>
      if pos1 + 4 > packet.length then domains ++ [domain]
      else extract_loop packet n (pos1 + 4) (domains ++ [domain])

/-- The 16-bit value `qdcount = (packet[4] << 8) | packet[5]`. -/
def qdcount (packet : List Byte) : Nat :=
  ((byteAt packet 4 <<< 8) ||| byteAt packet 5) % 65536

/-- The function `extract_dns_queries(packet)` of `dns_parse.cpp`. -/
def extract_dns_queries (packet : List Byte) : List (List Byte) :=
  if packet.length < 12 then []
  else if qdcount packet = 0 then []
  else extract_loop packet (qdcount packet) 12 []

/-! ### Instrumented execution of the parser

The same code once more, now recording what an execution does: which indices of
`packet` are read and how deep the recursion goes. Every loop iteration (and the
final loop test) consumes one unit of `fuel`, so the fuel bounds the number of
steps; `none` means that the fuel ran out before the function returned. -/

/-- What one execution of `read_domain_name` did: its return value, the indices
of `packet` it read (in order, all recursion levels included) and the number of
nested activations of `read_domain_name` it needed (1 when it does not recurse). -/
structure Exec where
  result : Option (List Byte × Nat)
  reads : List Nat
  depth : Nat

/-- Step-indexed, instrumented execution of the body of `read_domain_name` from
the loop state `(curr_pos, domain)` with the given `jump_limit`. The recursive
call of line 34 is the same execution started at `(offset, "")` with
`jump_limit - 1`. -/
def read_exec (packet : List Byte) (max_len : Nat) :
    Nat → Int → Nat → List Byte → Option Exec
  | 0, _, _, _ => none
  | fuel + 1, jump_limit, curr_pos, domain =>
    if curr_pos < max_len ∧ jumps < jump_limit then
      let len := byteAt packet curr_pos
      if len &&& 0xC0 = 0xC0 then
        if curr_pos + 1 ≥ max_len then some ⟨none, [curr_pos], 1⟩
        else
          let offset := ((len &&& 0x3F) <<< 8) ||| byteAt packet (curr_pos + 1)
          if offset ≥ max_len then some ⟨none, [curr_pos, curr_pos + 1], 1⟩
          else
            match read_exec packet max_len fuel (jump_limit - 1) offset [] with
            | none => none
            | some e =>
              some ⟨match e.result with
                    | none => none
                    | some (pointed, _) =>
                      after_loop jump_limit (curr_pos + 2)
                        ((if !domain.isEmpty && !pointed.isEmpty then domain ++ [dot]
                          else domain) ++ pointed),
                curr_pos :: (curr_pos + 1) :: e.reads, e.depth + 1⟩
      else if len = 0 then some ⟨after_loop jump_limit (curr_pos + 1) domain, [curr_pos], 1⟩
      else if len > 63 then some ⟨none, [curr_pos], 1⟩
      else if curr_pos + len ≥ max_len then some ⟨none, [curr_pos], 1⟩
      else
        match read_exec packet max_len fuel jump_limit (curr_pos + len + 1)
            ((if !domain.isEmpty then domain ++ [dot] else domain)
              ++ label_bytes packet (curr_pos + 1) len) with
        | none => none
        | some e =>
          some ⟨e.result,
            curr_pos :: ((List.range len).map (fun i => curr_pos + 1 + i) ++ e.reads),
            e.depth⟩
    else some ⟨after_loop jump_limit curr_pos domain, [], 1⟩

/-- Fuel that always suffices for `read_exec` started at `curr_pos`: each level
of recursion runs at most `max_len + 1` loop tests. -/
def read_fuel (max_len : Nat) (jump_limit : Int) (curr_pos : Nat) : Nat :=
  (max_len - curr_pos + 1) + jump_limit.toNat * (max_len + 1)

/-- Step-indexed, instrumented execution of the `for` loop of
`extract_dns_queries`: returns the final `domains` and the indices read. -/
def extract_exec (packet : List Byte) :
    Nat → Nat → Nat → List (List Byte) → Option (List (List Byte) × List Nat)
  | 0, _, _, _ => none
  | _ + 1, 0, _, domains => some (domains, [])
  | fuel + 1, n + 1, pos, domains =>
    match read_exec packet packet.length fuel 5 pos [] with
    | none => none
    | some e =>
      match e.result with
      | none => some (domains, e.reads)
      | some (domain, pos1) =>
        if pos1 + 4 > packet.length then some (domains ++ [domain], e.reads)
        else
          match extract_exec packet fuel n (pos1 + 4) (domains ++ [domain]) with
          | none => none
          | some (ds, rs) => some (ds, e.reads ++ rs)

/-- Step-indexed, instrumented execution of `extract_dns_queries`: the header
test reads nothing (`packet.size()`), `qdcount` reads indices 4 and 5. -/
def extract_dns_queries_exec (packet : List Byte) (fuel : Nat) :
    Option (List (List Byte) × List Nat) :=
  if packet.length < 12 then some ([], [])
  else if qdcount packet = 0 then some ([], [4, 5])
  else
    match extract_exec packet fuel (qdcount packet) 12 [] with
    | none => none
    | some (ds, rs) => some (ds, 4 :: 5 :: rs)

/-- Fuel that always suffices for `extract_dns_queries_exec`. -/
def extract_fuel (packet : List Byte) : Nat :=
  qdcount packet + 1 + read_fuel packet.length 5 0

/-! ### Vocabulary of the specification (wire format) -/

/-- Wire encoding of a sequence of labels, without terminator: for each label
a length byte followed by the label bytes. -/
def wire_labels : List (List Byte) → List Byte
  | [] => []
  | l :: ls => (Fin.ofNat l.length :: l) ++ wire_labels ls

/-- Wire encoding of an uncompressed name: the labels, then one zero byte. -/
def wire_name (labels : List (List Byte)) : List Byte := wire_labels labels ++ [0]

/-- The statement `if (!domain.empty()) domain += "."; domain += label` of
lines 68-69, as a function of the old `domain`. -/
def push_label (domain l : List Byte) : List Byte :=
  (if !domain.isEmpty then domain ++ [dot] else domain) ++ l

/-- The name at `pos` consists of ordinary labels (each 1..63 bytes) followed by
a compression pointer whose two bytes lie below `max_len` and whose 14-bit
target is `target < max_len`. -/
def pointer_at (packet : List Byte) (max_len pos target : Nat) : Prop :=
  ∃ labels : List (List Byte),
    (∀ l ∈ labels, 1 ≤ l.length ∧ l.length ≤ 63) ∧
    wire_labels labels <+: packet.drop pos ∧
    byteAt packet (pos + (wire_labels labels).length) &&& 0xC0 = 0xC0 ∧
    pos + (wire_labels labels).length + 1 < max_len ∧
    target = (((byteAt packet (pos + (wire_labels labels).length) &&& 0x3F) <<< 8) |||
      byteAt packet (pos + (wire_labels labels).length + 1)) ∧
    target < max_len

/-- Decoding the name at `pos` without any jump limit would follow at least `n`
compression pointers, one after the other. -/
def follows_pointers (packet : List Byte) (max_len : Nat) : Nat → Nat → Prop
  | 0, _ => True
  | n + 1, pos => ∃ target, pointer_at packet max_len pos target ∧
      follows_pointers packet max_len n target

/-- QDCOUNT as the specification words it: bytes 4 and 5, big-endian. -/
def qdcount_be (packet : List Byte) : Nat := 256 * byteAt packet 4 + byteAt packet 5

/-- Offset at which question `i` (counted from 0) starts, in the words of the
specification: the first at 12, each next one 4 bytes after the end of the
previous name; `none` once a previous name failed to decode or its
QTYPE/QCLASS would run past the payload. -/
def question_start (packet : List Byte) : Nat → Option Nat
  | 0 => some 12
  | i + 1 =>
    match question_start packet i with
    | none => none
    | some s =>
      match read_domain_name packet s packet.length 5 with
      | none => none
      | some (_, e) => if e + 4 > packet.length then none else some (e + 4)

/-- The name decoded for question `i`, if extraction gets that far and the name
decodes. -/
def question_name (packet : List Byte) (i : Nat) : Option (List Byte) :=
  match question_start packet i with
  | none => none
  | some s => (read_domain_name packet s packet.length 5).map Prod.fst

/-- The names of the leading questions among `i, i+1, ..., i+n-1`: those before
the first one that has no name. -/
def leading_names (packet : List Byte) (i n : Nat) : List (List Byte) :=
  (((List.range' i n).map (question_name packet)).takeWhile Option.isSome).reduceOption

/-- The reference definition of `extract_dns_queries` in the words of the
specification. -/
def extract_reference (packet : List Byte) : List (List Byte) :=
  if packet.length < 12 ∨ qdcount_be packet = 0 then []
  else leading_names packet 0 (qdcount_be packet)

/-- The indices read while walking over ordinary labels encoded from `pos`: per
label its length byte and its bytes. -/
def label_reads (pos : Nat) : List (List Byte) → List Nat
  | [] => []
  | l :: ls =>
    pos :: ((List.range l.length).map (fun i => pos + 1 + i) ++
      label_reads (pos + l.length + 1) ls)

/-! ## Part 2: `RedisDNSCache.cpp`

The Redis backend is modelled by its contents: the hashes `dns:entries:<domain>`,
the sorted set `dns:lru` and the set `pending_report_domains`. Backend commands
are taken to succeed (no connection error, hence no exception). Numeric hash
members hold the number their text denotes. The wall clock `now` (seconds) is a
parameter of every operation that reads it; one operation reads one value.

A domain name reaches the backend as `domain.c_str()` under the format `%s` of
hiredis, which reads a C string: the name is cut at its first NUL byte
(`c_str`). For each method that sends a name, `..._key` is the method on the C
string that arrives, and the method itself applies `c_str` where the source
does. -/

/-- The enumeration `DomainStatus`. -/
inductive DomainStatus where
  | FAKE
  | PEND
  | FULL
deriving DecidableEq, Repr

/-- The enumeration `DomainAction`. -/
inductive DomainAction where
  | DROP
  | PERMIT
deriving DecidableEq, Repr

/-- The struct `TTLConfig` (seconds). -/
structure TTLConfig where
  fake : Int
  pend : Int
  full_permit : Int
  full_drop : Int
deriving DecidableEq, Repr

/-- The default member initialisers of `TTLConfig`. -/
def default_ttl_config : TTLConfig :=
  { fake := 300, pend := 600, full_permit := 86400, full_drop := 3600 }

/-- The struct `RedisDNSCache::DomainEntry`, as `find` returns it; `query_count`
is a `uint32_t`. -/
structure DomainEntry where
  domain : String
  status : DomainStatus
  action : DomainAction
  query_count : Nat
  last_updated : Int
  last_accessed : Int
deriving DecidableEq, Repr

/-- A Redis hash `dns:entries:<domain>`: each member is present (`some`) or
absent (`none`). `HMSET` of `insert` and `update` writes all seven members;
`HSET ... query_count 0` writes one. The member `query_count` holds the
`uint32_t` that its text denotes: `%d` prints the counter as a signed number and
`std::stoul` into a `uint32_t` reads it back modulo 2^32. -/
structure EntryHash where
  domain : Option String
  status : Option DomainStatus
  action : Option DomainAction
  last_updated : Option Int
  last_accessed : Option Int
  query_count : Option Nat
  ttl : Option Int
deriving DecidableEq, Repr

/-- The cache object together with the backend contents it operates on. -/
structure RedisDNSCache where
  max_size : Nat
  ttl_config : TTLConfig
  entries : String → Option EntryHash
  lru : List (String × Int)
  pending : List String

/-- The method `getTTL(status, action)`. -/
def getTTL (cfg : TTLConfig) (status : DomainStatus) (action : DomainAction) : Int :=
  match status with
  | DomainStatus.FAKE => cfg.fake
  | DomainStatus.PEND => cfg.pend
  | DomainStatus.FULL =>
    if action = DomainAction.PERMIT then cfg.full_permit else cfg.full_drop

/-- The C string `domain.c_str()` as the format `%s` of hiredis reads it: the
characters of `domain` before its first NUL. -/
def c_str (domain : String) : String :=
  String.mk (domain.toList.takeWhile (fun ch => decide (ch ≠ Char.ofNat 0)))

/-- Order of a Redis sorted set: by score, ties by member, members compared
character by character (lexicographically). -/
def lru_le (a b : String × Int) : Prop :=
  a.2 < b.2 ∨ (a.2 = b.2 ∧ a.1.toList ≤ b.1.toList)

/-- Decision procedure for `lru_le`. -/
instance lru_le_decidable : DecidableRel lru_le :=
  fun a b => inferInstanceAs (Decidable (a.2 < b.2 ∨ (a.2 = b.2 ∧ a.1.toList ≤ b.1.toList)))

/-- The reply of `ZRANGE dns:lru 0 -1`: all members in sorted-set order. -/
def zrange_all (lru : List (String × Int)) : List String :=
  (lru.insertionSort lru_le).map Prod.fst

/-- The command `ZADD dns:lru score member`. -/
def zadd (lru : List (String × Int)) (score : Int) (member : String) : List (String × Int) :=
  lru.filter (fun p => p.1 ≠ member) ++ [(member, score)]

/-- The command `ZREM dns:lru member`. -/
def zrem (lru : List (String × Int)) (member : String) : List (String × Int) :=
  lru.filter (fun p => p.1 ≠ member)

/-- The command `SADD pending_report_domains member`. -/
def sadd (set : List String) (member : String) : List String :=
  if member ∈ set then set else set ++ [member]

/-- The two commands `DEL dns:entries:<key>` and `ZREM dns:lru <key>` that both
Lua scripts and `remove` issue for a key. -/
def del_key (c : RedisDNSCache) (key : String) : RedisDNSCache :=
  { c with entries := Function.update c.entries key none, lru := zrem c.lru key }

/-- The method `size()`: `ZCARD dns:lru`. -/
def size (c : RedisDNSCache) : Nat := c.lru.length

/-- The method `makeRoom()`. `static_cast<int>(max_size * 0.1)` is
`max_size / 10` rounded down; `ZRANGE dns:lru 0 (remove_count - 1)` yields the
first `remove_count` members. -/
def makeRoom (c : RedisDNSCache) : RedisDNSCache :=
  let current_size := c.lru.length
  if current_size ≥ c.max_size then
    let remove_count := max 2 (c.max_size / 10)
    let keys := (zrange_all c.lru).take remove_count
    keys.foldl del_key c
  else c

/-- The test of the Lua script of `cleanupExpired` for one hash:
`ttl and updated and tonumber(updated) + tonumber(ttl) < tonumber(ARGV[1])`. -/
def expired (h : EntryHash) (now : Int) : Bool :=
  match h.ttl, h.last_updated with
  | some ttl, some updated => decide (updated + ttl < now)
  | _, _ => false

/-- One iteration of the Lua loop of `cleanupExpired`. -/
def cleanup_key (now : Int) (c : RedisDNSCache) (key : String) : RedisDNSCache :=
  match c.entries key with
  | some h => if expired h now then del_key c key else c
  | none => c

/-- The method `cleanupExpired()` run when the clock reads `now`. -/
def cleanupExpired (c : RedisDNSCache) (now : Int) : RedisDNSCache :=
  (zrange_all c.lru).foldl (cleanup_key now) c

/-- The reply of `HGETALL dns:entries:<key>` decoded as `find` does (lines
447-471): `none` is `nullptr`. A hash without members is the empty reply.
`fields[...]` of an absent member is the empty string, on which `std::stoi`,
`std::stoul` and `std::stoll` throw; the handler returns `nullptr`.
`std::stoul` into a `uint32_t` keeps the low 32 bits. -/
def find_key (c : RedisDNSCache) (key : String) : Option DomainEntry :=
  match c.entries key with
  | none => none
  | some h =>
    match h.status, h.action, h.query_count, h.last_updated, h.last_accessed with
    | some status, some action, some query_count, some last_updated, some last_accessed =>
      some { domain := h.domain.getD "", status := status, action := action,
             query_count := query_count % 2 ^ 32, last_updated := last_updated,
             last_accessed := last_accessed }
    | _, _, _, _, _ => none

/-- The method `find(domain)`: `HGETALL dns:entries:%s` with `domain.c_str()`,
then the decoding of the reply. The entry carries the stored member `domain`,
not the argument. -/
def find (c : RedisDNSCache) (domain : String) : Option DomainEntry :=
  find_key c (c_str domain)

/-- The seven members that the `HMSET` of `insert` and `update` writes:
`domain`, `status`, `action`, `last_updated = last_accessed = now`,
`query_count` and `ttl`. -/
def full_hash (domain : String) (status : DomainStatus) (action : DomainAction) (now : Int)
    (query_count : Nat) (ttl : Int) : EntryHash :=
  { domain := some domain, status := some status, action := some action,
    last_updated := some now, last_accessed := some now,
    query_count := some query_count, ttl := some ttl }

/-- The command `HMSET dns:entries:<key> domain <key> status .. action ..
last_updated .. last_accessed .. query_count .. ttl ..` followed by
`ZADD dns:lru now <key>`, as both `insert` and `update` issue them; `key` is the
C string that `%s` reads from `domain.c_str()`, in all three places. -/
def write_entry (c : RedisDNSCache) (key : String) (status : DomainStatus)
    (action : DomainAction) (now : Int) (query_count : Nat) (ttl : Int) : RedisDNSCache :=
  { c with
    entries := Function.update c.entries key
      (some (full_hash key status action now query_count ttl)),
    lru := zadd c.lru now key }

/-- The command `SADD pending_report_domains <key>` of `addToPendingReportSet`. -/
def addToPendingReportSet_key (c : RedisDNSCache) (key : String) : RedisDNSCache :=
  { c with pending := sadd c.pending key }

/-- The method `addToPendingReportSet(domain)`: `SADD %s %s` with
`domain.c_str()`. -/
def addToPendingReportSet (c : RedisDNSCache) (domain : String) : RedisDNSCache :=
  { c with pending := sadd c.pending (c_str domain) }

/-- The method `insert` on the C string `key` that its commands receive. -/
def insert_key (c : RedisDNSCache) (key : String) (status : DomainStatus)
    (action : DomainAction) (now : Int) : RedisDNSCache × Bool :=
  let c1 := makeRoom c
  let ttl := getTTL c.ttl_config status action
  let c2 := write_entry c1 key status action now 1 ttl
  (addToPendingReportSet_key c2 key, true)

/-- The method `insert(domain, status, action)` run when the clock reads `now`:
the new backend contents and the returned flag. `HMSET` and `ZADD` receive
`domain.c_str()`, and so does the `SADD` of `addToPendingReportSet`. -/
def insert (c : RedisDNSCache) (domain : String) (status : DomainStatus)
    (action : DomainAction) (now : Int) : RedisDNSCache × Bool :=
  let c1 := makeRoom c
  let ttl := getTTL c.ttl_config status action
  let c2 := write_entry c1 (c_str domain) status action now 1 ttl
  (addToPendingReportSet c2 domain, true)

/-- The method `update` on the C string `key` that its commands receive. -/
def update_key (c : RedisDNSCache) (existing_entry : DomainEntry) (key : String)
    (status : DomainStatus) (action : DomainAction) (now : Int) : RedisDNSCache × Bool :=
  let ttl := getTTL c.ttl_config status action
  let new_query_count :=
    (if existing_entry.status = status then existing_entry.query_count + 1
     else existing_entry.query_count) % 2 ^ 32
  (write_entry c key status action now new_query_count ttl, true)

/-- The method `update(existing_entry, domain, status, action)` run when the
clock reads `now`; `new_query_count` is a `uint32_t`; `HMSET` and `ZADD` receive
`domain.c_str()`. -/
def update (c : RedisDNSCache) (existing_entry : DomainEntry) (domain : String)
    (status : DomainStatus) (action : DomainAction) (now : Int) : RedisDNSCache × Bool :=
  let ttl := getTTL c.ttl_config status action
  let new_query_count :=
    (if existing_entry.status = status then existing_entry.query_count + 1
     else existing_entry.query_count) % 2 ^ 32
  (write_entry c (c_str domain) status action now new_query_count ttl, true)

/-- The method `insertOrUpdate` on the C string `key` that its commands
receive. -/
def insertOrUpdate_key (c : RedisDNSCache) (key : String) (status : DomainStatus)
    (action : DomainAction) (now : Int) : RedisDNSCache × Bool :=
  let c1 := cleanupExpired c now
  match find_key c1 key with
  | none => insert_key c1 key status action now
  | some existing_entry => update_key c1 existing_entry key status action now

/-- The method `insertOrUpdate(domain, status, action)` run when the clock
reads `now`. -/
def insertOrUpdate (c : RedisDNSCache) (domain : String) (status : DomainStatus)
    (action : DomainAction) (now : Int) : RedisDNSCache × Bool :=
  let c1 := cleanupExpired c now
  match find c1 domain with
  | none => insert c1 domain status action now
  | some existing_entry => update c1 existing_entry domain status action now

/-- The method `remove` on the C string `key` that its commands receive. -/
def remove_key (c : RedisDNSCache) (key : String) : RedisDNSCache × Bool :=
  (del_key c key, true)

/-- The method `remove(domain)`: `DEL dns:entries:%s`, then `ZREM dns:lru %s`,
both with `domain.c_str()`. -/
def remove (c : RedisDNSCache) (domain : String) : RedisDNSCache × Bool :=
  (del_key c (c_str domain), true)

/-- The hash that `HSET <key> query_count 0` leaves: the old members with
`query_count` set to 0; on a key that did not exist, a new hash with that single
member. -/
def hset_query_count_zero (old : Option EntryHash) : EntryHash :=
  match old with
  | some h => { h with query_count := some 0 }
  | none =>
    { domain := none, status := none, action := none, last_updated := none,
      last_accessed := none, query_count := some 0, ttl := none }

/-- The command `HSET dns:entries:<key> query_count 0` of `resetQueryCount`. -/
def resetQueryCount_key (c : RedisDNSCache) (key : String) : RedisDNSCache :=
  { c with
    entries := Function.update c.entries key
      (some (hset_query_count_zero (c.entries key))) }

/-- The method `resetQueryCount(domain)`: `HSET %s query_count 0` with
`hash_key.c_str()`, where `hash_key` is `"dns:entries:" + domain`. -/
def resetQueryCount (c : RedisDNSCache) (domain : String) : RedisDNSCache :=
  { c with
    entries := Function.update c.entries (c_str domain)
      (some (hset_query_count_zero (c.entries (c_str domain)))) }

/-- The method `getPendingReportDomains()`: `SMEMBERS pending_report_domains`. -/
def getPendingReportDomains (c : RedisDNSCache) : List String := c.pending

/-- The method `getPendingReportCount()`: `SCARD pending_report_domains`. -/
def getPendingReportCount (c : RedisDNSCache) : Nat := c.pending.length

/-- The method `clearPendingReportDomains()`: `DEL pending_report_domains`. -/
def clearPendingReportDomains (c : RedisDNSCache) : RedisDNSCache :=
  { c with pending := [] }

/-- The TTL table of the specification (seconds). -/
def ttl_table (status : DomainStatus) (action : DomainAction) : Int :=
  match status, action with
  | DomainStatus.FAKE, _ => 300
  | DomainStatus.PEND, _ => 600
  | DomainStatus.FULL, DomainAction.PERMIT => 86400
  | DomainStatus.FULL, DomainAction.DROP => 3600

/-- The store right after construction with capacity `max_size` on an empty
backend. -/
def empty_cache (max_size : Nat) : RedisDNSCache :=
  { max_size := max_size, ttl_config := default_ttl_config, entries := fun _ => none,
    lru := [], pending := [] }

/-- One call `insertOrUpdate(domain, status, action)` made when the clock reads
`now`. -/
structure Upsert where
  domain : String
  status : DomainStatus
  action : DomainAction
  now : Int

/-- The call with its name cut to the C string that the backend receives. -/
def cut_op (op : Upsert) : Upsert := { op with domain := c_str op.domain }

/-- A sequence of `insertOrUpdate_key` steps, one after the other. -/
def run_upserts_key (c : RedisDNSCache) (ops : List Upsert) : RedisDNSCache :=
  ops.foldl (fun c op => (insertOrUpdate_key c op.domain op.status op.action op.now).1) c

/-- A sequence of `insertOrUpdate` calls, one after the other. -/
def run_upserts (c : RedisDNSCache) (ops : List Upsert) : RedisDNSCache :=
  ops.foldl (fun c op => (insertOrUpdate c op.domain op.status op.action op.now).1) c

/-- The domains that `makeRoom` evicts when the index is full: the first
`max(2, max_size / 10)` members of `ZRANGE dns:lru`. -/
def victims (c : RedisDNSCache) : List String :=
  (zrange_all c.lru).take (max 2 (c.max_size / 10))

/-- The domain has a hash that passes the expiry test of the sweep at `now`. -/
def hash_expired (c : RedisDNSCache) (now : Int) (domain : String) : Bool :=
  match c.entries domain with
  | some h => expired h now
  | none => false

/-- The domain is one that the Lua script of `cleanupExpired` deletes at `now`:
it is a member of `dns:lru` and its hash passes the expiry test. -/
def swept (c : RedisDNSCache) (now : Int) (domain : String) : Bool :=
  decide (domain ∈ c.lru.map Prod.fst) && hash_expired c now domain

/-! ## Part 3: `DomainReporter.cpp`

The HTTP exchange is an input of the model: what `curl_easy_perform`, the
response code and `nlohmann::json::parse` yield. All cache calls that one
`reportDomains` makes read the clock as `now`. -/

/-- An element of a JSON array of the reply: a string, or a value on which
`get<std::string>()` throws. -/
inductive JsonItem where
  | str (s : String)
  | other
deriving DecidableEq, Repr

/-- The parsed reply as `reportDomains` looks at it: the elements of
`"permitted"` and of `"dropped"`; a key that is absent or not an array has no
elements (`handleArray` skips it). -/
structure ReplyJson where
  permitted : List JsonItem
  dropped : List JsonItem
deriving DecidableEq, Repr

/-- The outcome of the POST: `curl_easy_init` or `curl_easy_perform` fails, or a
response arrives with its code and its body, `none` when the body is not
parseable JSON. -/
inductive PostOutcome where
  | transport_error
  | response (code : Int) (body : Option ReplyJson)
deriving DecidableEq, Repr

/-- The marking step of `reportDomains` on the C string `key` that the cache
methods make of the domain. -/
def mark_pending_key (now : Int) (c : RedisDNSCache) (key : String) : RedisDNSCache :=
  match find_key c key with
  | some info =>
    if info.status = DomainStatus.FAKE then
      (insertOrUpdate_key c key DomainStatus.PEND info.action now).1
    else c
  | none => c

/-- One iteration of the marking loop of `reportDomains` (lines 106-112):
a domain that `find` reports as `FAKE` is upserted as `PEND` with its action. -/
def mark_pending (now : Int) (c : RedisDNSCache) (domain : String) : RedisDNSCache :=
  match find c domain with
  | some info =>
    if info.status = DomainStatus.FAKE then
      (insertOrUpdate c domain DomainStatus.PEND info.action now).1
    else c
  | none => c

/-- The verdict loop of `reportDomains` on C strings. -/
def handleArray_key (now : Int) (action : DomainAction) :
    RedisDNSCache → List JsonItem → RedisDNSCache × Bool
  | c, [] => (c, true)
  | c, JsonItem.str d :: rest =>
    handleArray_key now action (insertOrUpdate_key c d DomainStatus.FULL action now).1 rest
  | c, JsonItem.other :: _ => (c, false)

/-- The lambda `handleArray(key, action)` of `reportDomains` on the elements of
the array: every string is upserted as `(FULL, action)`; the flag is `false`
when `get<std::string>()` throws on an element, which ends the processing. -/
def handleArray (now : Int) (action : DomainAction) :
    RedisDNSCache → List JsonItem → RedisDNSCache × Bool
  | c, [] => (c, true)
  | c, JsonItem.str d :: rest =>
    handleArray now action (insertOrUpdate c d DomainStatus.FULL action now).1 rest
  | c, JsonItem.other :: _ => (c, false)

/-- The method `reportDomains` on C strings: `domains` and the strings of the
reply are the names as the cache methods cut them. -/
def reportDomains_key (c : RedisDNSCache) (domains : List String) (outcome : PostOutcome)
    (now : Int) : RedisDNSCache × Bool :=
  if domains.isEmpty then (c, true)
  else
    match outcome with
    | PostOutcome.transport_error => (c, false)
    | PostOutcome.response code body =>
      if code < 200 ∨ code ≥ 300 then (c, false)
      else
        let c1 := domains.foldl (mark_pending_key now) c
        match body with
        | none => (c1, false)
        | some reply =>
          match handleArray_key now DomainAction.PERMIT c1 reply.permitted with
          | (c2, false) => (c2, false)
          | (c2, true) => handleArray_key now DomainAction.DROP c2 reply.dropped

/-- The method `reportDomains(cache, domains)` given the outcome of its POST:
the cache afterwards and the returned flag. No POST is made for an empty
`domains`. -/
def reportDomains (c : RedisDNSCache) (domains : List String) (outcome : PostOutcome)
    (now : Int) : RedisDNSCache × Bool :=
  if domains.isEmpty then (c, true)
  else
    match outcome with
    | PostOutcome.transport_error => (c, false)
    | PostOutcome.response code body =>
      if code < 200 ∨ code ≥ 300 then (c, false)
      else
        let c1 := domains.foldl (mark_pending now) c
        match body with
        | none => (c1, false)
        | some reply =>
          match handleArray now DomainAction.PERMIT c1 reply.permitted with
          | (c2, false) => (c2, false)
          | (c2, true) => handleArray now DomainAction.DROP c2 reply.dropped

/-- An element of a reply array with its string cut to the C string that the
cache methods make of it. -/
def cut_item (item : JsonItem) : JsonItem :=
  match item with
  | JsonItem.str d => JsonItem.str (c_str d)
  | JsonItem.other => JsonItem.other

/-- The outcome of a POST with the strings of the reply cut to C strings. -/
def cut_outcome (outcome : PostOutcome) : PostOutcome :=
  match outcome with
  | PostOutcome.transport_error => PostOutcome.transport_error
  | PostOutcome.response code none => PostOutcome.response code none
  | PostOutcome.response code (some reply) =>
    PostOutcome.response code
      (some ⟨reply.permitted.map cut_item, reply.dropped.map cut_item⟩)

/-- What the reporter does that can be observed from outside: a POST attempt
carrying the member `"domains"` of its body, and a `sleep_for(retry_delay)`
(seconds). -/
inductive ReporterEvent where
  | post (domains : List String)
  | sleep (seconds : Nat)
deriving DecidableEq, Repr

/-- The state of the retry loop of `try_report_domains`: the cache, the locals
`attempt` and `success`, and the events so far. -/
structure RetryState where
  cache : RedisDNSCache
  attempt : Nat
  success : Bool
  trace : List ReporterEvent

/-- The `while` loop of `try_report_domains` (lines 172-183). `server i` is the
outcome of the POST of the call made with `attempt = i`, `clock i` the time that
this call reads. `reportDomains` makes a POST attempt unless its list is empty.
The first argument bounds the number of iterations; `max_retries` of them always
suffice (`retry_loop_exits`). -/
def retry_loop (filtered_domains : List String) (max_retries retry_delay : Nat)
    (server : Nat → PostOutcome) (clock : Nat → Int) : Nat → RetryState → RetryState
  | 0, s => s
  | fuel + 1, s =>
    if s.attempt < max_retries ∧ s.success = false then
      let r := reportDomains s.cache filtered_domains (server s.attempt) (clock s.attempt)
      let posted :=
        if filtered_domains.isEmpty then s.trace
        else s.trace ++ [ReporterEvent.post filtered_domains]
      if r.2 = true then
        retry_loop filtered_domains max_retries retry_delay server clock fuel
          { cache := r.1, attempt := s.attempt, success := true, trace := posted }
      else
        retry_loop filtered_domains max_retries retry_delay server clock fuel
          { cache := r.1, attempt := s.attempt + 1, success := false,
            trace :=
              if s.attempt + 1 < max_retries then posted ++ [ReporterEvent.sleep retry_delay]
              else posted }
    else s

/-- The cache after a run of `try_report_domains` and the events of the run. -/
structure ReportRun where
  cache : RedisDNSCache
  trace : List ReporterEvent

/-- The list `filtered_domains` of `try_report_domains` (lines 155-164): the
members of the pending set for which `find` returns an entry. -/
def filtered_domains (c : RedisDNSCache) : List String :=
  (getPendingReportDomains c).filter (fun domain => (find c domain).isSome)

/-- The method `try_report_domains(cache, max_retries, retry_delay)`. -/
def try_report_domains (c : RedisDNSCache) (max_retries retry_delay : Nat)
    (server : Nat → PostOutcome) (clock : Nat → Int) : ReportRun :=
  let filtered := filtered_domains c
  let c1 := if filtered.isEmpty then clearPendingReportDomains c else c
  let s := retry_loop filtered max_retries retry_delay server clock max_retries
    { cache := c1, attempt := 0, success := false, trace := [] }
  if s.success = true then { cache := clearPendingReportDomains s.cache, trace := s.trace }
  else { cache := s.cache, trace := s.trace }

/-- The struct `RedisDNSCache::DomainMeta` as `getAllDomainData` fills it: a
member of the hash that `HMGET` reports as nil leaves `status` or `action`
unassigned (`none`) and makes `query_count` 0; `query_count` is a `uint32_t`. -/
structure DomainMeta where
  status : Option DomainStatus
  action : Option DomainAction
  query_count : Nat
deriving DecidableEq, Repr

/-- The reply of `HMGET %s status action query_count`, sent with
`hash_key.c_str()` for `hash_key = "dns:entries:" + domain`, turned into a
`DomainMeta` (lines 326-344). -/
def domain_meta (c : RedisDNSCache) (domain : String) : DomainMeta :=
  match c.entries (c_str domain) with
  | none => { status := none, action := none, query_count := 0 }
  | some h =>
    { status := h.status, action := h.action, query_count := h.query_count.getD 0 % 2 ^ 32 }

/-- The method `getAllDomainData()`: one pair per member of `dns:lru`, the member
read as a C string (`std::string domain = reply->element[i]->str`, line 325).
The `unordered_map` holds each key once; its iteration order is unspecified,
here it is the order of `ZRANGE`. -/
def getAllDomainData (c : RedisDNSCache) : List (String × DomainMeta) :=
  ((zrange_all c.lru).map c_str).dedup.map (fun domain => (domain, domain_meta c domain))

/-- An element of the array `"stats"`: `domain`, `action` (`none` when the
source compares an unassigned `meta.action`) and `queries`. -/
structure StatItem where
  domain : String
  action : Option String
  queries : Nat
deriving DecidableEq, Repr

/-- The expression `meta.action == DomainAction::DROP ? "DROP" : "PERMIT"`. -/
def action_text (action : DomainAction) : String :=
  if action = DomainAction.DROP then "DROP" else "PERMIT"

/-- The vector `report_data` of `reportStats` (lines 196-206). -/
def report_data (c : RedisDNSCache) : List StatItem :=
  (getAllDomainData c).filterMap (fun p =>
    if p.2.query_count > 0 then
      some { domain := p.1, action := p.2.action.map action_text, queries := p.2.query_count }
    else none)

/-- The method `reportStats(cache, interval_seconds)` given the outcome of its
POST: the cache afterwards. The body of the reply is not looked at. -/
def reportStats (c : RedisDNSCache) (_interval_seconds : Int) (outcome : PostOutcome) :
    RedisDNSCache :=
  match outcome with
  | PostOutcome.transport_error => c
  | PostOutcome.response code _ =>
    if code ≥ 200 ∧ code < 300 then
      (report_data c).foldl (fun c entry => resetQueryCount c entry.domain) c
    else c

/-! ## Part 4: `CacheProcessor.cpp`

A task that the pool runs is modelled at the point where it holds
`cache_mutex`: tasks run one after the other. -/

/-- The constant `kReportThreshold` of `CacheProcessor.h`. -/
def kReportThreshold : Nat := 5

/-- The constant `kMaxRetryCount` of `CacheProcessor.h`. -/
def kMaxRetryCount : Nat := 3

/-- The constant `kRetryDelay` of `CacheProcessor.h` (seconds). -/
def kRetryDelay : Nat := 5

/-- The cache update of the task `process_domain` (lines 34-41), made when the
clock reads `now`. -/
def observe_domain (c : RedisDNSCache) (domain : String) (now : Int) : RedisDNSCache :=
  match find c domain with
  | none => (insertOrUpdate c domain DomainStatus.FAKE DomainAction.DROP now).1
  | some entry => (insertOrUpdate c domain entry.status entry.action now).1

/-- What one iteration of the main loop of `cache_processor` does: whether a task
was enqueued, the cache afterwards, the arguments `(max_retries, retry_delay)`
of every `try_report_domains` call, and the reporter's events. -/
structure TaskRun where
  cache : RedisDNSCache
  enqueued : Bool
  calls : List (Nat × Nat)
  trace : List ReporterEvent

/-- The task `process_domain(domain)` (lines 29-50). -/
def process_domain (c : RedisDNSCache) (domain : String) (now : Int)
    (server : Nat → PostOutcome) (clock : Nat → Int) : TaskRun :=
  let c1 := observe_domain c domain now
  if getPendingReportCount c1 ≥ kReportThreshold then
    let run := try_report_domains c1 kMaxRetryCount kRetryDelay server clock
    { cache := run.cache, enqueued := true, calls := [(kMaxRetryCount, kRetryDelay)],
      trace := run.trace }
  else { cache := c1, enqueued := true, calls := [], trace := [] }

/-- One iteration of the main loop of `cache_processor` (lines 54-58) on the
string popped from the queue. -/
def cache_processor_step (c : RedisDNSCache) (domain : String) (now : Int)
    (server : Nat → PostOutcome) (clock : Nat → Int) : TaskRun :=
  if domain.isEmpty then { cache := c, enqueued := false, calls := [], trace := [] }
  else process_domain c domain now server clock

/-- Whether the call `insertOrUpdate(domain, ..)` made at `now` evicts: it takes
the insert path and `makeRoom` finds `current_size >= max_size`. -/
def insertOrUpdate_evicts (c : RedisDNSCache) (domain : String) (now : Int) : Bool :=
  match find (cleanupExpired c now) domain with
  | none => decide ((cleanupExpired c now).lru.length ≥ (cleanupExpired c now).max_size)
  | some _ => false

/-- Whether some upsert of the verdict loop `handleArray` evicts. -/
def handleArray_evicts (now : Int) (action : DomainAction) :
    RedisDNSCache → List JsonItem → Bool
  | _, [] => false
  | c, JsonItem.str d :: rest =>
    insertOrUpdate_evicts c d now ||
      handleArray_evicts now action (insertOrUpdate c d DomainStatus.FULL action now).1 rest
  | _, JsonItem.other :: _ => false

/-- Whether some upsert of the two verdict loops of `reportDomains` evicts, for a
call that is answered 2xx with the parsed reply `reply`. -/
def verdicts_evict (c : RedisDNSCache) (domains : List String) (reply : ReplyJson)
    (now : Int) : Bool :=
  handleArray_evicts now DomainAction.PERMIT (domains.foldl (mark_pending now) c)
      reply.permitted ||
    handleArray_evicts now DomainAction.DROP
      (handleArray now DomainAction.PERMIT (domains.foldl (mark_pending now) c)
        reply.permitted).1 reply.dropped

/-! ## Concrete inputs used in witnesses and counterexamples -/

/-- The query of scenario 5: header with QDCOUNT = 1, then `01 'a' C0 0C`. -/
def self_loop_query : List Byte := [0, 0, 1, 0, 0, 1, 0, 0, 0, 0, 0, 0, 1, 97, 0xC0, 0x0C]

/-- A store in which `d` is a fresh `FAKE`/`DROP` entry whose counter is one
below the largest `uint32_t`. -/
def wrap_store : RedisDNSCache :=
  { max_size := 10, ttl_config := default_ttl_config,
    entries := fun k =>
      if k = "d" then some (full_hash "d" DomainStatus.FAKE DomainAction.DROP 0 4294967294 300)
      else none,
    lru := [("d", 0)], pending := [] }

/-- A query whose only question is cut off after the label `a`: header with
QDCOUNT = 1, then `01 'a'` and the end of the payload. -/
def truncated_query : List Byte := [0, 0, 1, 0, 0, 1, 0, 0, 0, 0, 0, 0, 1, 97]

/-- A query that ends where its only question should begin: a bare header with
QDCOUNT = 1. -/
def header_only_query : List Byte := [0, 0, 1, 0, 0, 1, 0, 0, 0, 0, 0, 0]

/-- A query with two questions: the root name (a lone zero byte), then `a`. -/
def root_then_a_query : List Byte :=
  [0, 0, 1, 0, 0, 2, 0, 0, 0, 0, 0, 0, 0, 0, 1, 0, 1, 1, 97, 0, 0, 1, 0, 1]

/-- A query with two questions: `a`, then a name that starts with the reserved
byte `0x40`. -/
def a_then_reserved_query : List Byte :=
  [0, 0, 1, 0, 0, 2, 0, 0, 0, 0, 0, 0, 1, 97, 0, 0, 1, 0, 1, 0x40, 0, 0, 1, 0, 1]

/-- A store in which `d` is a verdict entry `(FULL, PERMIT)` that was queried 7
times. -/
def known_store : RedisDNSCache :=
  { max_size := 10, ttl_config := default_ttl_config,
    entries := fun k =>
      if k = "d" then some (full_hash "d" DomainStatus.FULL DomainAction.PERMIT 40 7 86400)
      else none,
    lru := [("d", 40)], pending := [] }

/-- Every domain that has a hash is a member of the LRU index. -/
def indexed (c : RedisDNSCache) : Prop :=
  ∀ d, (c.entries d).isSome = true → d ∈ c.lru.map Prod.fst

/-- No hash of the store passes the expiry test at `now`. -/
def fresh (c : RedisDNSCache) (now : Int) : Prop :=
  ∀ d h, c.entries d = some h → expired h now = false

/-- The hash under the key `x` after the marking loop of `reportDomains` over the
names `keys`, in the words of the specification: a submitted name that is
reported as `FAKE` becomes `PEND` with its action and its `query_count`; any
other hash is as it was. -/
def mark_result (c : RedisDNSCache) (now : Int) (keys : List String) (x : String) :
    Option EntryHash :=
  match find_key c x with
  | some e =>
    if x ∈ keys ∧ e.status = DomainStatus.FAKE then
      some (full_hash x DomainStatus.PEND e.action now e.query_count
        (getTTL c.ttl_config DomainStatus.PEND e.action))
    else c.entries x
  | none => c.entries x

/-- A store of capacity 2 that holds the single `(FAKE, DROP)` domain `x`. -/
def small_store : RedisDNSCache :=
  { max_size := 2, ttl_config := default_ttl_config,
    entries := fun k =>
      if k = "x" then some (full_hash "x" DomainStatus.FAKE DomainAction.DROP 1 1 300)
      else none,
    lru := [("x", 1)], pending := ["x"] }

/-- The name at `pos` is reached through exactly `n` compression pointers, each
the first element at its offset (both bytes below `max_len`, target below
`max_len`), the last of which leads to a well-formed uncompressed name: labels
of 1..63 bytes and a zero byte, all below `max_len`. -/
def pointer_chain (packet : List Byte) (max_len : Nat) : Nat → Nat → Prop
  | 0, pos => ∃ labels : List (List Byte),
      (∀ l ∈ labels, 1 ≤ l.length ∧ l.length ≤ 63) ∧
      wire_name labels <+: packet.drop pos ∧
      pos + (wire_name labels).length ≤ max_len
  | n + 1, pos => ∃ target : Nat,
      byteAt packet pos &&& 0xC0 = 0xC0 ∧ pos + 1 < max_len ∧
      target = (((byteAt packet pos &&& 0x3F) <<< 8) ||| byteAt packet (pos + 1)) ∧
      target < max_len ∧ pointer_chain packet max_len n target

/-- A message in which offset 12 holds a pointer to 14, offset 14 a pointer to
16, and offset 16 the name `a`. -/
def two_pointer_query : List Byte :=
  [0, 0, 1, 0, 0, 1, 0, 0, 0, 0, 0, 0, 0xC0, 14, 0xC0, 16, 1, 97, 0]

/-- A query of 337 bytes with one question whose name has five labels of 63
bytes `a` each. -/
def long_name_query : List Byte :=
  [0, 0, 1, 0, 0, 1, 0, 0, 0, 0, 0, 0] ++
    (63 :: List.replicate 63 97) ++ (63 :: List.replicate 63 97) ++
    (63 :: List.replicate 63 97) ++ (63 :: List.replicate 63 97) ++
    (63 :: List.replicate 63 97) ++ [0, 0, 1, 0, 1]

/-- The store of scenario 2 before the report: `d1 .. d5` observed at times
1 .. 5, all `(FAKE, DROP)` and all pending. -/
def five_store : RedisDNSCache :=
  run_upserts (empty_cache 10)
    [⟨"d1", DomainStatus.FAKE, DomainAction.DROP, 1⟩,
     ⟨"d2", DomainStatus.FAKE, DomainAction.DROP, 2⟩,
     ⟨"d3", DomainStatus.FAKE, DomainAction.DROP, 3⟩,
     ⟨"d4", DomainStatus.FAKE, DomainAction.DROP, 4⟩,
     ⟨"d5", DomainStatus.FAKE, DomainAction.DROP, 5⟩]

/-- The store is consistent: the configuration is the default one, the LRU index
holds each member once, every index member has a hash, every hash is the
full record that `insert` and `update` write, with the ttl of its
`(status, action)`, indexed under its timestamp, and every index member is a C
string (it was written through `%s`). -/
def consistent (c : RedisDNSCache) : Prop :=
  c.ttl_config = default_ttl_config ∧
  (c.lru.map Prod.fst).Nodup ∧
  (∀ d, d ∈ c.lru.map Prod.fst → (c.entries d).isSome = true) ∧
  (∀ d h, c.entries d = some h →
    ∃ s a t q, h = full_hash d s a t q (ttl_table s a) ∧ (d, t) ∈ c.lru) ∧
  (∀ d, d ∈ c.lru.map Prod.fst → c_str d = d)

/-- The store states that can be reached from the empty store by
`insertOrUpdate`, `remove`, `try_report_domains` and `reportStats`, each with
any arguments, clock readings and HTTP outcomes. -/
inductive reachable : RedisDNSCache → Prop
  | empty (max_size : Nat) : reachable (empty_cache max_size)
  | upsert (c : RedisDNSCache) (d : String) (s : DomainStatus) (a : DomainAction)
      (now : Int) : reachable c → reachable (insertOrUpdate c d s a now).1
  | removed (c : RedisDNSCache) (d : String) : reachable c → reachable (remove c d).1
  | reported (c : RedisDNSCache) (max_retries retry_delay : Nat)
      (server : Nat → PostOutcome) (clock : Nat → Int) :
      reachable c → reachable (try_report_domains c max_retries retry_delay server clock).cache
  | flushed (c : RedisDNSCache) (interval : Int) (outcome : PostOutcome) :
      reachable c → reachable (reportStats c interval outcome)

/-- A store whose pending set holds `x`, which has an entry, and `gone`, which
has none (its entry was swept or evicted after it was queued). -/
def stale_store : RedisDNSCache :=
  { max_size := 10, ttl_config := default_ttl_config,
    entries := fun k =>
      if k = "x" then some (full_hash "x" DomainStatus.FAKE DomainAction.DROP 1 1 300)
      else none,
    lru := [("x", 1)], pending := ["x", "gone"] }

/-- A store whose only pending member, `gone`, has no entry; `x` has an entry
and is not pending. -/
def orphan_store : RedisDNSCache :=
  { max_size := 10, ttl_config := default_ttl_config,
    entries := fun k =>
      if k = "x" then some (full_hash "x" DomainStatus.FULL DomainAction.DROP 1 1 3600)
      else none,
    lru := [("x", 1)], pending := ["gone"] }

/-- The store after the first four distinct domains `d1 .. d4` were observed at
times 1 .. 4: four `(FAKE, DROP)` entries, four pending domains. -/
def four_store : RedisDNSCache :=
  run_upserts (empty_cache 10)
    [⟨"d1", DomainStatus.FAKE, DomainAction.DROP, 1⟩,
     ⟨"d2", DomainStatus.FAKE, DomainAction.DROP, 2⟩,
     ⟨"d3", DomainStatus.FAKE, DomainAction.DROP, 3⟩,
     ⟨"d4", DomainStatus.FAKE, DomainAction.DROP, 4⟩]

/-- A name with a NUL byte after its first character, as the parser returns it
for the label `03 'a' 00 'b'`. -/
def nul_name : String := String.mk ['a', Char.ofNat 0, 'b']

/-! ## Theorems about the parser -/

theorem byteAt_lt (packet : List Byte) (i : Nat) : byteAt packet i < 256 :=
  (packet.getD i 0).isLt

set_option maxRecDepth 100000 in
/-- The test `(len & 0xC0) == 0xC0` on a byte: both high bits are set exactly
when the byte is at least 192. -/
theorem pointer_bits_iff (len : Nat) (h : len < 256) : (len &&& 0xC0 = 0xC0) ↔ 192 ≤ len := by
  have key : ∀ x : Fin 256, (x.val &&& 0xC0 = 0xC0) ↔ 192 ≤ x.val := by decide
  exact key ⟨len, h⟩

/-- The pointer target `((len & 0x3F) << 8) | b` is the 14-bit number with high
part `len % 64` and low byte `b`. -/
theorem pointer_offset_eq (len b : Nat) (hb : b < 256) :
    ((len &&& 0x3F) <<< 8) ||| b = (len % 64) * 256 + b := by
  have h1 : len &&& 0x3F = len % 64 := Nat.and_pow_two_sub_one_eq_mod len 6
  have h2 : (len % 64) <<< 8 = 2 ^ 8 * (len % 64) := by
    rw [Nat.shiftLeft_eq, Nat.mul_comm]
  have h3 := Nat.mul_add_lt_is_or (i := 8) (b := b) (by simpa using hb) (len % 64)
  rw [h1, h2, ← h3]
  norm_num
  ring

/-- The expression `(packet[4] << 8) | packet[5]` is the big-endian value of
bytes 4 and 5. -/
theorem qdcount_eq_be (packet : List Byte) : qdcount packet = qdcount_be packet := by
  unfold qdcount qdcount_be
  have h4 := byteAt_lt packet 4
  have h5 := byteAt_lt packet 5
  have h2 : byteAt packet 4 <<< 8 = 2 ^ 8 * byteAt packet 4 := by
    rw [Nat.shiftLeft_eq, Nat.mul_comm]
  have h3 := Nat.mul_add_lt_is_or (i := 8) (b := byteAt packet 5) (by simpa using h5)
    (byteAt packet 4)
  rw [h2, ← h3]
  omega

/-- The loop does not depend on its iteration bound once the bound is at least
`max_len - curr_pos`: the bound is never what ends the loop. -/
theorem read_loop_fuel (packet : List Byte) (max_len : Nat) (jump_limit : Int)
    (recurse : Nat → Option (List Byte × Nat)) :
    ∀ (f1 f2 curr_pos : Nat) (domain : List Byte),
      max_len - curr_pos ≤ f1 → max_len - curr_pos ≤ f2 →
      read_loop packet max_len jump_limit recurse f1 curr_pos domain =
        read_loop packet max_len jump_limit recurse f2 curr_pos domain := by
  intro f1
  induction f1 with
  | zero =>
    intro f2 curr_pos domain h1 _
    have hge : ¬ curr_pos < max_len := by omega
    cases f2 with
    | zero => rfl
    | succ m => simp [read_loop, hge]
  | succ n ih =>
    intro f2 curr_pos domain h1 h2
    cases f2 with
    | zero =>
      have hge : ¬ curr_pos < max_len := by omega
      simp [read_loop, hge]
    | succ m =>
      simp only [read_loop]
      split_ifs with hc hp h1' h2' hz hbig hfit
      all_goals first
        | rfl
        | (apply ih <;> omega)


/-- If the bytes `b :: rest` are held at offset `cp`, then `packet[cp] = b`. -/
theorem getD_of_prefix_drop {packet : List Byte} {cp : Nat} {b : Byte} {rest : List Byte}
    (h : b :: rest <+: packet.drop cp) : packet.getD cp 0 = b := by
  obtain ⟨t, ht⟩ := h
  have h0 : (packet.drop cp)[0]? = some b := by rw [← ht]; simp
  rw [List.getElem?_drop, Nat.add_zero] at h0
  simp [List.getD_eq_getElem?_getD, h0]

/-- If `xs ++ ys` is held at offset `cp`, then `xs` is read there and `ys` is
held right after it. -/
theorem prefix_drop_append {packet : List Byte} {cp : Nat} {xs ys : List Byte}
    (h : xs ++ ys <+: packet.drop cp) :
    (packet.drop cp).take xs.length = xs ∧ ys <+: packet.drop (cp + xs.length) := by
  obtain ⟨t, ht⟩ := h
  constructor
  · rw [← ht]; simp
  · refine ⟨t, ?_⟩
    have : packet.drop (cp + xs.length) = (packet.drop cp).drop xs.length := by
      rw [List.drop_drop, Nat.add_comm]
    rw [this, ← ht]; simp


/-- Joining at least two lists puts the separator after the first one. -/
theorem intercalate_cons_cons (sep a b : List Byte) (ls : List (List Byte)) :
    List.intercalate sep (a :: b :: ls) = a ++ sep ++ List.intercalate sep (b :: ls) := by
  simp [List.intercalate, List.intersperse]

/-- Pushing non-empty labels one by one onto `d` joins them with dots (after `d`
and a dot when `d` is not empty). -/
theorem foldl_push_label (labels : List (List Byte)) (hne : ∀ l ∈ labels, l ≠ []) :
    ∀ d : List Byte, List.foldl push_label d labels =
      if d = [] then List.intercalate [dot] labels
      else if labels = [] then d else d ++ [dot] ++ List.intercalate [dot] labels := by
  induction labels with
  | nil => intro d; by_cases h : d = [] <;> simp [h, List.intercalate]
  | cons l ls ih =>
    intro d
    have hl : l ≠ [] := hne l (by simp)
    have hls : ∀ x ∈ ls, x ≠ [] := fun x hx => hne x (by simp [hx])
    rw [List.foldl_cons, ih hls]
    have hp : push_label d l ≠ [] := by
      unfold push_label; simp [hl]
    rw [if_neg hp]
    cases ls with
    | nil =>
      by_cases h : d = [] <;> simp [h, push_label, List.intercalate]
    | cons b bs =>
      rw [intercalate_cons_cons]
      by_cases h : d = [] <;> simp [h, push_label]


/-- When the loop condition fails, the loop is left at once. -/
theorem read_loop_exit (packet : List Byte) (max_len : Nat) (jump_limit : Int)
    (recurse : Nat → Option (List Byte × Nat)) (fuel curr_pos : Nat) (domain : List Byte)
    (h : ¬ (curr_pos < max_len ∧ jumps < jump_limit)) :
    read_loop packet max_len jump_limit recurse fuel curr_pos domain =
      after_loop jump_limit curr_pos domain := by
  cases fuel with
  | zero => rfl
  | succ n => simp only [read_loop, if_neg h]

/-- One iteration on an ordinary label that fits: the label is pushed and the
loop continues behind it. -/
theorem read_loop_label (packet : List Byte) (max_len : Nat) (jump_limit : Int)
    (recurse : Nat → Option (List Byte × Nat)) (fuel curr_pos : Nat) (domain : List Byte)
    (hfuel : max_len - curr_pos ≤ fuel) (hj : jumps < jump_limit)
    (h1 : 1 ≤ byteAt packet curr_pos) (h63 : byteAt packet curr_pos ≤ 63)
    (hfit : curr_pos + byteAt packet curr_pos < max_len) :
    read_loop packet max_len jump_limit recurse fuel curr_pos domain =
      read_loop packet max_len jump_limit recurse
        (max_len - (curr_pos + byteAt packet curr_pos + 1))
        (curr_pos + byteAt packet curr_pos + 1)
        (push_label domain (label_bytes packet (curr_pos + 1) (byteAt packet curr_pos))) := by
  have hlt : curr_pos < max_len := by omega
  have hnp : ¬ (byteAt packet curr_pos &&& 0xC0 = 0xC0) := by
    rw [pointer_bits_iff _ (byteAt_lt _ _)]; omega
  cases fuel with
  | zero => omega
  | succ n =>
    simp only [read_loop]
    rw [if_pos ⟨hlt, hj⟩, if_neg hnp, if_neg (by omega), if_neg (by omega), if_neg (by omega)]
    exact read_loop_fuel packet max_len jump_limit recurse _ _ _ _ (by omega) (by omega)

/-- Length of the wire encoding: one length byte plus the label, per label. -/
theorem wire_labels_length_cons (l : List Byte) (ls : List (List Byte)) :
    (wire_labels (l :: ls)).length = l.length + 1 + (wire_labels ls).length := by
  simp [wire_labels]; omega

/-- Loop invariant for a run of ordinary labels held at `curr_pos` and ending at
or below `max_len`: the loop pushes all of them and continues behind them. -/
theorem read_loop_labels (packet : List Byte) (max_len : Nat) (jump_limit : Int)
    (recurse : Nat → Option (List Byte × Nat)) (hj : jumps < jump_limit) :
    ∀ (labels : List (List Byte)) (curr_pos fuel : Nat) (domain : List Byte),
      (∀ l ∈ labels, 1 ≤ l.length ∧ l.length ≤ 63) →
      wire_labels labels <+: packet.drop curr_pos →
      curr_pos + (wire_labels labels).length ≤ max_len →
      max_len - curr_pos ≤ fuel →
      read_loop packet max_len jump_limit recurse fuel curr_pos domain =
        read_loop packet max_len jump_limit recurse
          (max_len - (curr_pos + (wire_labels labels).length))
          (curr_pos + (wire_labels labels).length)
          (List.foldl push_label domain labels) := by
  intro labels
  induction labels with
  | nil =>
    intro curr_pos fuel domain _ _ _ hfuel
    simp only [wire_labels, List.length_nil, Nat.add_zero, List.foldl_nil]
    exact read_loop_fuel packet max_len jump_limit recurse _ _ _ _ hfuel (le_refl _)
  | cons l ls ih =>
    intro curr_pos fuel domain hlen hpre hend hfuel
    have hl := hlen l (by simp)
    have hls : ∀ x ∈ ls, 1 ≤ x.length ∧ x.length ≤ 63 := fun x hx => hlen x (by simp [hx])
    have hwl := wire_labels_length_cons l ls
    -- the length byte
    have hpre1 : Fin.ofNat l.length :: (l ++ wire_labels ls) <+: packet.drop curr_pos := by
      simpa [wire_labels] using hpre
    have hb : byteAt packet curr_pos = l.length := by
      unfold byteAt
      rw [getD_of_prefix_drop hpre1]
      simp [Fin.ofNat]; omega
    -- the label bytes
    have hpre2 : l ++ wire_labels ls <+: packet.drop (curr_pos + 1) := by
      have := (@prefix_drop_append packet curr_pos [Fin.ofNat l.length] (l ++ wire_labels ls)
        (by simpa using hpre1)).2
      simpa using this
    have hsplit := prefix_drop_append hpre2
    have hlab : label_bytes packet (curr_pos + 1) (byteAt packet curr_pos) = l := by
      rw [hb]; exact hsplit.1
    rw [read_loop_label packet max_len jump_limit recurse fuel curr_pos domain hfuel hj
      (by omega) (by omega) (by omega)]
    rw [hlab, hb]
    have hnext := ih (curr_pos + l.length + 1) (max_len - (curr_pos + l.length + 1))
      (push_label domain l) hls
      (by
        have := hsplit.2
        rwa [show curr_pos + 1 + l.length = curr_pos + l.length + 1 by omega] at this)
      (by omega) (le_refl _)
    rw [hnext, List.foldl_cons, hwl]
    congr 1 <;> omega


/-- With a positive jump limit the code after the loop returns the name and the
position. -/
theorem after_loop_pos (jump_limit : Int) (hj : jumps < jump_limit) (curr_pos : Nat)
    (domain : List Byte) : after_loop jump_limit curr_pos domain = some (domain, curr_pos) := by
  unfold after_loop
  rw [if_neg (by omega)]

/-- The recursive equation of `read_domain_name` in the source: the loop from
`(pos, "")`, where the recursive call is `read_domain_name` itself with
`jump_limit - 1`. -/
theorem read_domain_name_unfold (packet : List Byte) (pos max_len : Nat) (jump_limit : Int) :
    read_domain_name packet pos max_len jump_limit =
      read_loop packet max_len jump_limit
        (fun tmp_pos => read_domain_name packet tmp_pos max_len (jump_limit - 1))
        (max_len - pos) pos [] := by
  unfold read_domain_name
  cases h : jump_limit.toNat with
  | zero =>
    have hj : ¬ (pos < max_len ∧ jumps < jump_limit) := by
      unfold jumps; omega
    simp only [read_domain_name_at]
    rw [read_loop_exit _ _ _ _ _ _ _ hj, read_loop_exit _ _ _ _ _ _ _ hj]
  | succ k =>
    have hk : (jump_limit - 1).toNat = k := by omega
    simp only [read_domain_name_at, hk]

/-- One iteration on the zero byte: the loop is left with `curr_pos + 1`. -/
theorem read_loop_zero (packet : List Byte) (max_len : Nat) (jump_limit : Int)
    (recurse : Nat → Option (List Byte × Nat)) (fuel curr_pos : Nat) (domain : List Byte)
    (hfuel : max_len - curr_pos ≤ fuel) (hj : jumps < jump_limit) (hlt : curr_pos < max_len)
    (h0 : byteAt packet curr_pos = 0) :
    read_loop packet max_len jump_limit recurse fuel curr_pos domain =
      after_loop jump_limit (curr_pos + 1) domain := by
  cases fuel with
  | zero => omega
  | succ n =>
    simp only [read_loop]
    rw [if_pos ⟨hlt, hj⟩, h0]
    simp

/-- C1 (uncompressed round trip): if the payload holds at `s` the wire encoding of
`labels` (each label 1..63 arbitrary bytes; a length byte and the label bytes per
label, then one zero byte) entirely below `max_len`, and `jump_limit ≥ 1`, then
`read_domain_name` started at `pos = s` returns the labels joined with `.`
(bytes verbatim, no trailing dot, the empty string for no labels) and sets `pos`
to `s` plus the encoded length, the byte after the zero terminator. -/
theorem read_domain_name_uncompressed_round_trip (packet : List Byte) (labels : List (List Byte))
    (s max_len : Nat) (jump_limit : Int)
    (hlab : ∀ l ∈ labels, 1 ≤ l.length ∧ l.length ≤ 63)
    (hwire : wire_name labels <+: packet.drop s)
    (hmax : s + (wire_name labels).length ≤ max_len)
    (hjl : 1 ≤ jump_limit) :
    read_domain_name packet s max_len jump_limit =
      some (List.intercalate [dot] labels, s + (wire_name labels).length) := by
  have hj : jumps < jump_limit := by unfold jumps; omega
  have hlen : (wire_name labels).length = (wire_labels labels).length + 1 := by
    simp [wire_name]
  have hsplit := @prefix_drop_append packet s (wire_labels labels) [0] hwire
  have hpre : wire_labels labels <+: packet.drop s :=
    (List.prefix_append _ _).trans hwire
  rw [read_domain_name_unfold]
  rw [read_loop_labels packet max_len jump_limit _ hj labels s (max_len - s) [] hlab hpre
    (by omega) (le_refl _)]
  have h0 : byteAt packet (s + (wire_labels labels).length) = 0 := by
    unfold byteAt
    rw [getD_of_prefix_drop hsplit.2]
    rfl
  rw [read_loop_zero _ _ _ _ _ _ _ (le_refl _) hj (by omega) h0, after_loop_pos _ hj]
  rw [foldl_push_label labels (fun l hl => by
    have := (hlab l hl).1
    intro h; rw [h] at this; simp at this)]
  simp [hlen, Nat.add_assoc]

/-- Witness for C1: the name `www.a` encoded at offset 12 of a 23-byte query. -/
theorem read_domain_name_uncompressed_round_trip_witness :
    read_domain_name
      [0, 0, 1, 0, 0, 1, 0, 0, 0, 0, 0, 0, 3, 119, 119, 119, 1, 97, 0, 0, 1, 0, 1]
      12 19 5 = some ([119, 119, 119, 46, 97], 19) :=
  read_domain_name_uncompressed_round_trip _ [[119, 119, 119], [97]] 12 19 5 (by decide) (by decide) (by decide) (by decide)

/-- A call that returns a value had a positive jump limit. -/
theorem read_domain_name_some_pos {packet : List Byte} {pos max_len : Nat} {jump_limit : Int}
    {r : List Byte × Nat} (h : read_domain_name packet pos max_len jump_limit = some r) :
    jumps < jump_limit := by
  by_contra hj
  rw [read_domain_name_unfold, read_loop_exit _ _ _ _ _ _ _ (fun hc => hj hc.2)] at h
  unfold after_loop at h
  rw [if_pos (by omega)] at h
  exact Option.noConfusion h

/-- One iteration on a compression pointer that is in bounds: the recursive
result is appended and the loop is left with `curr_pos + 2`. -/
theorem read_loop_pointer (packet : List Byte) (max_len : Nat) (jump_limit : Int)
    (recurse : Nat → Option (List Byte × Nat)) (fuel curr_pos : Nat) (domain : List Byte)
    (hfuel : max_len - curr_pos ≤ fuel) (hj : jumps < jump_limit)
    (hptr : byteAt packet curr_pos &&& 0xC0 = 0xC0) (h1 : curr_pos + 1 < max_len)
    (ht : (((byteAt packet curr_pos &&& 0x3F) <<< 8) ||| byteAt packet (curr_pos + 1)) < max_len) :
    read_loop packet max_len jump_limit recurse fuel curr_pos domain =
      match recurse (((byteAt packet curr_pos &&& 0x3F) <<< 8) ||| byteAt packet (curr_pos + 1)) with
      | none => none
      | some (pointed, _) =>
        after_loop jump_limit (curr_pos + 2)
          ((if !domain.isEmpty && !pointed.isEmpty then domain ++ [dot] else domain) ++ pointed) := by
  cases fuel with
  | zero => omega
  | succ n =>
    simp only [read_loop]
    rw [if_pos ⟨by omega, hj⟩, if_pos hptr, if_neg (by omega), if_neg (by omega)]

/-- Labels of length at least 1 are not empty. -/
theorem labels_nonempty {labels : List (List Byte)}
    (hlab : ∀ l ∈ labels, 1 ≤ l.length ∧ l.length ≤ 63) : ∀ l ∈ labels, l ≠ [] := by
  intro l hl h
  have := (hlab l hl).1
  rw [h] at this
  simp at this

/-- The value returned when ordinary labels are followed by a compression pointer
that is in bounds and whose target decodes. -/
theorem read_domain_name_pointer_value (packet : List Byte) (labels : List (List Byte))
    (pos max_len q t p1 : Nat) (jump_limit : Int) (N : List Byte)
    (hlab : ∀ l ∈ labels, 1 ≤ l.length ∧ l.length ≤ 63)
    (hpre : wire_labels labels <+: packet.drop pos)
    (hq : q = pos + (wire_labels labels).length)
    (hptr : byteAt packet q &&& 0xC0 = 0xC0)
    (hq1 : q + 1 < max_len)
    (ht : t = (((byteAt packet q &&& 0x3F) <<< 8) ||| byteAt packet (q + 1)))
    (htl : t < max_len)
    (hN : read_domain_name packet t max_len (jump_limit - 1) = some (N, p1)) :
    read_domain_name packet pos max_len jump_limit =
      some (if List.intercalate [dot] labels = [] ∨ N = []
            then List.intercalate [dot] labels ++ N
            else List.intercalate [dot] labels ++ [dot] ++ N, q + 2) := by
  have hj : jumps < jump_limit := by
    have := read_domain_name_some_pos hN
    unfold jumps at *; omega
  subst hq
  rw [read_domain_name_unfold]
  rw [read_loop_labels packet max_len jump_limit _ hj labels pos (max_len - pos) [] hlab hpre
    (by omega) (le_refl _)]
  rw [read_loop_pointer _ _ _ _ _ _ _ (le_refl _) hj hptr hq1 (by rw [← ht]; exact htl)]
  simp only [← ht, hN, after_loop_pos _ hj]
  rw [foldl_push_label labels (labels_nonempty hlab)]
  simp only [if_true]
  by_cases hJ : List.intercalate [dot] labels = [] <;> by_cases hNe : N = [] <;>
    simp [hJ, hNe]


/-- One iteration on a malformed element returns no value. -/
theorem read_loop_reject (packet : List Byte) (max_len : Nat) (jump_limit : Int)
    (recurse : Nat → Option (List Byte × Nat)) (fuel curr_pos : Nat) (domain : List Byte)
    (hfuel : max_len - curr_pos ≤ fuel) (hj : jumps < jump_limit) (hlt : curr_pos < max_len)
    (hbad : (64 ≤ byteAt packet curr_pos ∧ byteAt packet curr_pos ≤ 191) ∨
      (1 ≤ byteAt packet curr_pos ∧ byteAt packet curr_pos ≤ 63 ∧
        curr_pos + 1 + byteAt packet curr_pos > max_len) ∨
      (byteAt packet curr_pos &&& 0xC0 = 0xC0 ∧ curr_pos + 1 ≥ max_len) ∨
      (byteAt packet curr_pos &&& 0xC0 = 0xC0 ∧
        (((byteAt packet curr_pos &&& 0x3F) <<< 8) ||| byteAt packet (curr_pos + 1)) ≥ max_len)) :
    read_loop packet max_len jump_limit recurse fuel curr_pos domain = none := by
  have hiff := pointer_bits_iff _ (byteAt_lt packet curr_pos)
  cases fuel with
  | zero => omega
  | succ n =>
    simp only [read_loop]
    rw [if_pos ⟨hlt, hj⟩]
    rcases hbad with ⟨h64, h191⟩ | ⟨h1, h63, hfit⟩ | ⟨hp, h2⟩ | ⟨hp, ht⟩
    · rw [if_neg (by rw [hiff]; omega), if_neg (by omega), if_pos (by omega)]
    · rw [if_neg (by rw [hiff]; omega), if_neg (by omega), if_neg (by omega), if_pos (by omega)]
    · rw [if_pos hp, if_pos h2]
    · rw [if_pos hp]
      split_ifs <;> rfl

/-- C7 (malformed name elements are rejected): for every payload and every
`jump_limit ≥ 1`, `read_domain_name` returns no value as soon as the element at
the current position `q < max_len` (reached from `pos` over ordinary labels) is
(a) a byte in 64..191, (b) a length byte `len` in 1..63 whose label does not fit,
`q + 1 + len > max_len`, (c) a pointer byte whose second byte lies at or beyond
`max_len`, or (d) a pointer whose 14-bit target is `≥ max_len`. -/
theorem read_domain_name_rejects_malformed (packet : List Byte) (labels : List (List Byte))
    (pos max_len q : Nat) (jump_limit : Int)
    (hjl : 1 ≤ jump_limit)
    (hlab : ∀ l ∈ labels, 1 ≤ l.length ∧ l.length ≤ 63)
    (hpre : wire_labels labels <+: packet.drop pos)
    (hq : q = pos + (wire_labels labels).length)
    (hlt : q < max_len)
    (hbad : (64 ≤ byteAt packet q ∧ byteAt packet q ≤ 191) ∨
      (1 ≤ byteAt packet q ∧ byteAt packet q ≤ 63 ∧ q + 1 + byteAt packet q > max_len) ∨
      (byteAt packet q &&& 0xC0 = 0xC0 ∧ q + 1 ≥ max_len) ∨
      (byteAt packet q &&& 0xC0 = 0xC0 ∧
        (((byteAt packet q &&& 0x3F) <<< 8) ||| byteAt packet (q + 1)) ≥ max_len)) :
    read_domain_name packet pos max_len jump_limit = none := by
  have hj : jumps < jump_limit := by unfold jumps; omega
  subst hq
  rw [read_domain_name_unfold]
  rw [read_loop_labels packet max_len jump_limit _ hj labels pos (max_len - pos) [] hlab hpre
    (by omega) (le_refl _)]
  exact read_loop_reject _ _ _ _ _ _ _ (le_refl _) hj hlt hbad

/-- Witness for C7: after the label `a`, (a) the reserved byte `0x40`, (b) a
length byte 5 with only two bytes left, (c) a pointer byte at the last position,
(d) a pointer to offset 255 in a 20-byte payload. -/
theorem read_domain_name_rejects_malformed_witness :
    read_domain_name
        [0, 0, 1, 0, 0, 1, 0, 0, 0, 0, 0, 0, 1, 97, 0x40, 0, 0, 1, 0, 1] 12 20 5 = none ∧
      read_domain_name
        [0, 0, 1, 0, 0, 1, 0, 0, 0, 0, 0, 0, 1, 97, 5, 98, 99] 12 17 5 = none ∧
      read_domain_name
        [0, 0, 1, 0, 0, 1, 0, 0, 0, 0, 0, 0, 1, 97, 0xC0] 12 15 5 = none ∧
      read_domain_name
        [0, 0, 1, 0, 0, 1, 0, 0, 0, 0, 0, 0, 1, 97, 0xC0, 0xFF, 0, 1, 0, 1] 12 20 5 = none :=
  ⟨read_domain_name_rejects_malformed _ [[97]] 12 20 14 5
      (by decide) (by decide) (by decide) (by decide) (by decide) (Or.inl (by decide)),
   read_domain_name_rejects_malformed _ [[97]] 12 17 14 5
      (by decide) (by decide) (by decide) (by decide) (by decide)
      (Or.inr (Or.inl (by decide))),
   read_domain_name_rejects_malformed _ [[97]] 12 15 14 5
      (by decide) (by decide) (by decide) (by decide) (by decide)
      (Or.inr (Or.inr (Or.inl (by decide)))),
   read_domain_name_rejects_malformed _ [[97]] 12 20 14 5
      (by decide) (by decide) (by decide) (by decide) (by decide)
      (Or.inr (Or.inr (Or.inr (by decide))))⟩

/-- With `jump_limit ≤ 0` every call fails: the loop is skipped and the test
after it fails. -/
theorem read_domain_name_nonpos (packet : List Byte) (pos max_len : Nat) (jump_limit : Int)
    (h : jump_limit ≤ 0) : read_domain_name packet pos max_len jump_limit = none := by
  cases hr : read_domain_name packet pos max_len jump_limit with
  | none => rfl
  | some r =>
    have := read_domain_name_some_pos hr
    unfold jumps at this
    omega

/-- A chain of at least `jump_limit` pointers exhausts the limit: each pointer
costs one, and a call with limit 0 fails. -/
theorem read_domain_name_pointer_chain (packet : List Byte) (max_len : Nat) :
    ∀ (n pos : Nat) (jump_limit : Int), jump_limit ≤ n →
      follows_pointers packet max_len n pos →
      read_domain_name packet pos max_len jump_limit = none := by
  intro n
  induction n with
  | zero =>
    intro pos jump_limit hle _
    exact read_domain_name_nonpos _ _ _ _ (by simpa using hle)
  | succ n ih =>
    intro pos jump_limit hle hf
    by_cases hjl : jump_limit ≤ 0
    · exact read_domain_name_nonpos _ _ _ _ hjl
    · have hj : jumps < jump_limit := by unfold jumps; omega
      obtain ⟨target, ⟨labels, hlab, hpre, hptr, hq1, ht, htl⟩, hrest⟩ := hf
      have hrec := ih target (jump_limit - 1) (by push_cast at hle; omega) hrest
      rw [read_domain_name_unfold]
      rw [read_loop_labels packet max_len jump_limit _ hj labels pos (max_len - pos) [] hlab hpre
        (by omega) (le_refl _)]
      rw [read_loop_pointer _ _ _ _ _ _ _ (le_refl _) hj hptr hq1 (by rw [← ht]; exact htl)]
      simp only [← ht, hrec]

/-- Reading inside the first part of a concatenation. -/
theorem byteAt_append_left (header rest : List Byte) (i : Nat) (h : i < header.length) :
    byteAt (header ++ rest) i = byteAt header i := by
  unfold byteAt
  rw [List.getD_append _ _ _ _ h]

/-- Reading behind the first part of a concatenation. -/
theorem byteAt_append_right (header rest : List Byte) (i : Nat) (h : header.length ≤ i) :
    byteAt (header ++ rest) i = byteAt rest (i - header.length) := by
  unfold byteAt
  rw [List.getD_append_right _ _ _ _ h]

/-- After any 12-byte header, the question `01 'a' C0 0C` follows pointers for
ever: its pointer leads back to offset 12. -/
theorem self_loop_follows (header : List Byte) (h12 : header.length = 12) :
    ∀ n, follows_pointers (header ++ [1, 97, 0xC0, 0x0C]) 16 n 12 := by
  intro n
  induction n with
  | zero => trivial
  | succ n ih =>
    refine ⟨12, ⟨[[97]], by decide, ?_, ?_, by decide, ?_, by decide⟩, ih⟩
    · rw [← h12, List.drop_left]
      decide
    · rw [byteAt_append_right _ _ _ (by rw [h12]; decide), h12]
      decide
    · rw [byteAt_append_right _ _ _ (by rw [h12]; decide),
        byteAt_append_right _ _ _ (by rw [h12]; decide), h12]
      decide

/-- The self-referential query follows pointers for ever. -/
theorem self_loop_query_follows : ∀ n, follows_pointers self_loop_query 16 n 12 :=
  self_loop_follows [0, 0, 1, 0, 0, 1, 0, 0, 0, 0, 0, 0] rfl

/-- C6 (jump-limit guard): for every payload in which decoding the name at `pos`
would follow more than `jump_limit` compression pointers, `read_domain_name`
returns no value; in particular it returns no value, whatever the limit, when
the pointers never end (a pointer cycle); and for every payload made of a
12-byte header with QDCOUNT = 1 followed by `01 'a' C0 0C`, `extract_dns_queries`
returns the empty list. -/
theorem jump_limit_guard :
    (∀ (packet : List Byte) (pos max_len n : Nat) (jump_limit : Int),
      jump_limit < n → follows_pointers packet max_len n pos →
      read_domain_name packet pos max_len jump_limit = none) ∧
    (∀ (packet : List Byte) (pos max_len : Nat),
      (∀ n, follows_pointers packet max_len n pos) →
      ∀ jump_limit : Int, read_domain_name packet pos max_len jump_limit = none) ∧
    (∀ header : List Byte, header.length = 12 → qdcount_be header = 1 →
      extract_dns_queries (header ++ [1, 97, 0xC0, 0x0C]) = []) := by
  refine ⟨?_, ?_, ?_⟩
  · intro packet pos max_len n jump_limit hlt hf
    exact read_domain_name_pointer_chain packet max_len n pos jump_limit (le_of_lt hlt) hf
  · intro packet pos max_len hall jump_limit
    exact read_domain_name_pointer_chain packet max_len jump_limit.toNat pos jump_limit
      (by omega) (hall _)
  · intro header h12 hqd
    have hlen : (header ++ [1, 97, 0xC0, 0x0C]).length = 16 := by simp [h12]
    have hq : qdcount (header ++ [1, 97, 0xC0, 0x0C]) = 1 := by
      rw [qdcount_eq_be, ← hqd]
      unfold qdcount_be
      rw [byteAt_append_left _ _ _ (by omega), byteAt_append_left _ _ _ (by omega)]
    have hread : read_domain_name (header ++ [1, 97, 0xC0, 0x0C]) 12 16 5 = none :=
      read_domain_name_pointer_chain _ 16 5 12 5 (by decide) (self_loop_follows header h12 5)
    unfold extract_dns_queries
    rw [hlen, hq]
    simp [extract_loop, hlen, hread]

/-- Witness for C6: the self-referential query follows (at least) six pointers,
so decoding it with the default limit 5 fails, and extraction returns nothing. -/
theorem jump_limit_guard_witness :
    follows_pointers self_loop_query 16 6 12 ∧
      read_domain_name self_loop_query 12 16 5 = none ∧
      extract_dns_queries self_loop_query = [] :=
  ⟨self_loop_query_follows 6,
    jump_limit_guard.1 self_loop_query 12 16 6 5 (by decide) (self_loop_query_follows 6),
    jump_limit_guard.2.2 [0, 0, 1, 0, 0, 1, 0, 0, 0, 0, 0, 0] (by decide) (by decide)⟩

/-- No questions, no names. -/
theorem leading_names_zero (packet : List Byte) (i : Nat) : leading_names packet i 0 = [] := by
  simp [leading_names]

/-- The leading names, one question at a time. -/
theorem leading_names_succ (packet : List Byte) (i n : Nat) :
    leading_names packet i (n + 1) =
      match question_name packet i with
      | none => []
      | some d => d :: leading_names packet (i + 1) n := by
  unfold leading_names
  rw [List.range'_succ, List.map_cons, List.takeWhile_cons]
  cases question_name packet i with
  | none => simp
  | some d => simp [List.reduceOption_cons_of_some]

/-- A question that is never reached contributes no name, nor does any later
one. -/
theorem leading_names_of_no_start (packet : List Byte) (i n : Nat)
    (h : question_start packet i = none) : leading_names packet i n = [] := by
  cases n with
  | zero => exact leading_names_zero packet i
  | succ n =>
    rw [leading_names_succ]
    simp [question_name, h]

/-- At most one name per question. -/
theorem leading_names_length_le (packet : List Byte) :
    ∀ (n i : Nat), (leading_names packet i n).length ≤ n := by
  intro n
  induction n with
  | zero => intro i; simp [leading_names_zero]
  | succ n ih =>
    intro i
    rw [leading_names_succ]
    cases question_name packet i with
    | none => simp
    | some d => simpa using ih (i + 1)

/-- Loop invariant of `extract_dns_queries`: at the start of question `i` with
`n` iterations left, the loop appends the leading names of questions `i ..
i+n-1`. -/
theorem extract_loop_eq_leading (packet : List Byte) :
    ∀ (n i pos : Nat) (domains : List (List Byte)),
      question_start packet i = some pos →
      extract_loop packet n pos domains = domains ++ leading_names packet i n := by
  intro n
  induction n with
  | zero => intro i pos domains _; simp [extract_loop, leading_names_zero]
  | succ n ih =>
    intro i pos domains hs
    rw [leading_names_succ]
    simp only [extract_loop, question_name, hs]
    cases hr : read_domain_name packet pos packet.length 5 with
    | none => simp
    | some r =>
      obtain ⟨domain, pos1⟩ := r
      simp only [Option.map_some']
      by_cases hfit : pos1 + 4 > packet.length
      · have hnext : question_start packet (i + 1) = none := by
          simp [question_start, hs, hr, hfit]
        rw [if_pos hfit, leading_names_of_no_start packet (i + 1) n hnext]
      · have hnext : question_start packet (i + 1) = some (pos1 + 4) := by
          simp [question_start, hs, hr, hfit]
        rw [if_neg hfit, ih (i + 1) (pos1 + 4) _ hnext]
        simp

/-- The code equals the reference definition. -/
theorem extract_dns_queries_eq_leading (packet : List Byte) :
    extract_dns_queries packet = extract_reference packet := by
  unfold extract_dns_queries extract_reference
  rw [qdcount_eq_be packet]
  by_cases h12 : packet.length < 12
  · simp [h12]
  · by_cases h0 : qdcount_be packet = 0
    · simp [h0]
    · rw [if_neg h12, if_neg h0, if_neg (by tauto)]
      rw [extract_loop_eq_leading packet _ 0 12 [] rfl]
      simp

/-- C3 (`extract_dns_queries` equals the reference definition): for every payload
the result is empty when the payload has fewer than 12 bytes or QDCOUNT (bytes 4
and 5, big-endian) is 0, and otherwise is, in order, the names that
`read_domain_name` decodes for the leading questions (question 1 at offset 12,
each next one 4 bytes after the end of the previous name), stopping before the
first question whose name fails to decode or right after a name whose
QTYPE/QCLASS would run past the payload; it never has more than QDCOUNT
elements. -/
theorem extract_dns_queries_eq_reference (packet : List Byte) :
    extract_dns_queries packet = extract_reference packet ∧
      (extract_dns_queries packet).length ≤ qdcount_be packet := by
  have key := extract_dns_queries_eq_leading packet
  refine ⟨key, ?_⟩
  rw [key]
  unfold extract_reference
  split_ifs
  · simp
  · exact leading_names_length_le packet _ _

/-- The fuel bound is positive. -/
theorem read_fuel_pos (max_len : Nat) (jump_limit : Int) (curr_pos : Nat) :
    1 ≤ read_fuel max_len jump_limit curr_pos := by
  unfold read_fuel; omega

/-- With enough fuel the instrumented execution returns; its value is that of
the loop, every index it reads is below `max_len`, and it nests at most
`jump_limit.toNat + 1` activations. -/
theorem read_exec_spec (packet : List Byte) (max_len : Nat) :
    ∀ (fuel : Nat) (jump_limit : Int) (curr_pos : Nat) (domain : List Byte),
      read_fuel max_len jump_limit curr_pos ≤ fuel →
      ∃ e, read_exec packet max_len fuel jump_limit curr_pos domain = some e ∧
        e.result = read_loop packet max_len jump_limit
          (fun tmp_pos => read_domain_name packet tmp_pos max_len (jump_limit - 1))
          (max_len - curr_pos) curr_pos domain ∧
        (∀ i ∈ e.reads, i < max_len) ∧ 1 ≤ e.depth ∧ e.depth ≤ jump_limit.toNat + 1 := by
  intro fuel
  induction fuel with
  | zero =>
    intro jump_limit curr_pos domain h
    have := read_fuel_pos max_len jump_limit curr_pos
    omega
  | succ fuel ih =>
    intro jump_limit curr_pos domain hfuel
    by_cases hc : curr_pos < max_len ∧ jumps < jump_limit
    · obtain ⟨hlt, hj⟩ := hc
      have hjpos : 0 < jump_limit := hj
      obtain ⟨k, hk⟩ : ∃ k, max_len - curr_pos = k + 1 := ⟨max_len - curr_pos - 1, by omega⟩
      have hmul : jump_limit.toNat * (max_len + 1) =
          (jump_limit - 1).toNat * (max_len + 1) + (max_len + 1) := by
        have : jump_limit.toNat = (jump_limit - 1).toNat + 1 := by omega
        rw [this, Nat.succ_mul]
      unfold read_fuel at hfuel
      rw [hk]
      simp only [read_exec, read_loop, if_pos (And.intro hlt hj)]
      by_cases hp : byteAt packet curr_pos &&& 0xC0 = 0xC0
      · simp only [if_pos hp]
        by_cases h1 : curr_pos + 1 ≥ max_len
        · simp only [if_pos h1]
          exact ⟨_, rfl, rfl, by simp; omega, by simp, by simp⟩
        · simp only [if_neg h1]
          by_cases ht : (((byteAt packet curr_pos &&& 0x3F) <<< 8) |||
              byteAt packet (curr_pos + 1)) ≥ max_len
          · simp only [if_pos ht]
            refine ⟨_, rfl, rfl, ?_, by simp, by simp⟩
            intro i hi
            simp at hi
            omega
          · simp only [if_neg ht]
            obtain ⟨e, he, hres, hreads, hd1, hd⟩ := ih (jump_limit - 1)
              (((byteAt packet curr_pos &&& 0x3F) <<< 8) ||| byteAt packet (curr_pos + 1)) []
              (by unfold read_fuel; omega)
            rw [← read_domain_name_unfold] at hres
            rw [he]
            refine ⟨_, rfl, ?_, ?_, by simp, ?_⟩
            · simp only [← hres]
            · intro i hi
              simp at hi
              rcases hi with h | h | h
              · omega
              · omega
              · exact hreads i h
            · simp only
              omega
      · simp only [if_neg hp]
        by_cases h0 : byteAt packet curr_pos = 0
        · simp only [if_pos h0]
          exact ⟨_, rfl, rfl, by simp; omega, by simp, by simp⟩
        · simp only [if_neg h0]
          by_cases h63 : byteAt packet curr_pos > 63
          · simp only [if_pos h63]
            exact ⟨_, rfl, rfl, by simp; omega, by simp, by simp⟩
          · simp only [if_neg h63]
            by_cases hfit : curr_pos + byteAt packet curr_pos ≥ max_len
            · simp only [if_pos hfit]
              exact ⟨_, rfl, rfl, by simp; omega, by simp, by simp⟩
            · simp only [if_neg hfit]
              obtain ⟨e, he, hres, hreads, hd1, hd⟩ := ih jump_limit
                (curr_pos + byteAt packet curr_pos + 1)
                ((if !domain.isEmpty then domain ++ [dot] else domain)
                  ++ label_bytes packet (curr_pos + 1) (byteAt packet curr_pos))
                (by unfold read_fuel; omega)
              rw [he]
              refine ⟨_, rfl, ?_, ?_, hd1, hd⟩
              · simp only [hres]
                exact read_loop_fuel _ _ _ _ _ _ _ _ (le_refl _) (by omega)
              · intro i hi
                simp at hi
                rcases hi with h | ⟨a, ha, rfl⟩ | h
                · omega
                · omega
                · exact hreads i h
    · rw [read_loop_exit _ _ _ _ _ _ _ hc]
      simp only [read_exec, if_neg hc]
      exact ⟨_, rfl, rfl, by simp, by simp, by simp⟩

/-- The instrumented execution of a whole call of `read_domain_name`. -/
theorem read_exec_read_domain_name (packet : List Byte) (pos max_len fuel : Nat)
    (jump_limit : Int) (hfuel : read_fuel max_len jump_limit pos ≤ fuel) :
    ∃ e, read_exec packet max_len fuel jump_limit pos [] = some e ∧
      e.result = read_domain_name packet pos max_len jump_limit ∧
      (∀ i ∈ e.reads, i < max_len) ∧ e.depth ≤ jump_limit.toNat + 1 := by
  obtain ⟨e, he, hres, hreads, _, hd⟩ := read_exec_spec packet max_len fuel jump_limit pos [] hfuel
  rw [← read_domain_name_unfold] at hres
  exact ⟨e, he, hres, hreads, hd⟩

/-- The fuel bound is largest at position 0. -/
theorem read_fuel_le_zero (max_len : Nat) (jump_limit : Int) (pos : Nat) :
    read_fuel max_len jump_limit pos ≤ read_fuel max_len jump_limit 0 := by
  unfold read_fuel; omega

/-- With enough fuel the instrumented `for` loop returns the value of
`extract_loop` and reads only indices below the packet length. -/
theorem extract_exec_spec (packet : List Byte) :
    ∀ (n fuel pos : Nat) (domains : List (List Byte)),
      n + 1 + read_fuel packet.length 5 0 ≤ fuel →
      ∃ rs, extract_exec packet fuel n pos domains =
          some (extract_loop packet n pos domains, rs) ∧
        ∀ i ∈ rs, i < packet.length := by
  intro n
  induction n with
  | zero =>
    intro fuel pos domains hfuel
    cases fuel with
    | zero => omega
    | succ fuel => exact ⟨[], by simp [extract_exec, extract_loop], by simp⟩
  | succ n ih =>
    intro fuel pos domains hfuel
    cases fuel with
    | zero => omega
    | succ fuel =>
      obtain ⟨e, he, hres, hreads, _⟩ := read_exec_read_domain_name packet pos packet.length fuel 5
        (by have := read_fuel_le_zero packet.length 5 pos; omega)
      simp only [extract_exec, extract_loop, he, ← hres]
      cases hr : e.result with
      | none => exact ⟨e.reads, rfl, hreads⟩
      | some r =>
        obtain ⟨domain, pos1⟩ := r
        simp only
        by_cases hfit : pos1 + 4 > packet.length
        · simp only [if_pos hfit]
          exact ⟨e.reads, rfl, hreads⟩
        · simp only [if_neg hfit]
          obtain ⟨rs, hrs, hbound⟩ := ih fuel (pos1 + 4) (domains ++ [domain]) (by omega)
          rw [hrs]
          refine ⟨e.reads ++ rs, rfl, ?_⟩
          intro i hi
          rcases List.mem_append.mp hi with h | h
          · exact hreads i h
          · exact hbound i h

/-- With enough fuel the instrumented `extract_dns_queries` returns the value of
`extract_dns_queries` and reads only indices below the packet length. -/
theorem extract_dns_queries_exec_spec (packet : List Byte) (fuel : Nat)
    (hfuel : extract_fuel packet ≤ fuel) :
    ∃ rs, extract_dns_queries_exec packet fuel = some (extract_dns_queries packet, rs) ∧
      ∀ i ∈ rs, i < packet.length := by
  unfold extract_dns_queries_exec extract_dns_queries
  by_cases h12 : packet.length < 12
  · simp [h12]
  · simp only [if_neg h12]
    by_cases h0 : qdcount packet = 0
    · simp only [if_pos h0]
      refine ⟨[4, 5], rfl, ?_⟩
      intro i hi
      simp at hi
      omega
    · simp only [if_neg h0]
      obtain ⟨rs, hrs, hbound⟩ := extract_exec_spec packet (qdcount packet) fuel 12 []
        (by unfold extract_fuel at hfuel; omega)
      rw [hrs]
      refine ⟨4 :: 5 :: rs, rfl, ?_⟩
      intro i hi
      simp at hi
      rcases hi with h | h | h
      · omega
      · omega
      · exact hbound i h

/-- Every label takes at least one byte on the wire. -/
theorem wire_labels_length_ge (labels : List (List Byte)) :
    labels.length ≤ (wire_labels labels).length := by
  induction labels with
  | nil => simp [wire_labels]
  | cons l ls ih => rw [wire_labels_length_cons]; simp; omega

/-- The instrumented execution over a run of ordinary labels: one step per label,
reading exactly the length byte and the bytes of each label. -/
theorem read_exec_labels (packet : List Byte) (max_len : Nat) (jump_limit : Int)
    (hj : jumps < jump_limit) :
    ∀ (labels : List (List Byte)) (curr_pos fuel : Nat) (domain : List Byte),
      (∀ l ∈ labels, 1 ≤ l.length ∧ l.length ≤ 63) →
      wire_labels labels <+: packet.drop curr_pos →
      curr_pos + (wire_labels labels).length ≤ max_len →
      read_exec packet max_len (labels.length + fuel) jump_limit curr_pos domain =
        (read_exec packet max_len fuel jump_limit (curr_pos + (wire_labels labels).length)
          (List.foldl push_label domain labels)).map
          (fun e => ⟨e.result, label_reads curr_pos labels ++ e.reads, e.depth⟩) := by
  intro labels
  induction labels with
  | nil =>
    intro curr_pos fuel domain _ _ _
    simp only [wire_labels, List.length_nil, Nat.add_zero, Nat.zero_add, List.foldl_nil,
      label_reads, List.nil_append]
    cases read_exec packet max_len fuel jump_limit curr_pos domain <;> rfl
  | cons l ls ih =>
    intro curr_pos fuel domain hlen hpre hend
    have hl := hlen l (by simp)
    have hls : ∀ x ∈ ls, 1 ≤ x.length ∧ x.length ≤ 63 := fun x hx => hlen x (by simp [hx])
    have hwl := wire_labels_length_cons l ls
    have hpre1 : Fin.ofNat l.length :: (l ++ wire_labels ls) <+: packet.drop curr_pos := by
      simpa [wire_labels] using hpre
    have hb : byteAt packet curr_pos = l.length := by
      unfold byteAt
      rw [getD_of_prefix_drop hpre1]
      simp [Fin.ofNat]; omega
    have hpre2 : l ++ wire_labels ls <+: packet.drop (curr_pos + 1) := by
      have := (@prefix_drop_append packet curr_pos [Fin.ofNat l.length] (l ++ wire_labels ls)
        (by simpa using hpre1)).2
      simpa using this
    have hsplit := prefix_drop_append hpre2
    have hlab : label_bytes packet (curr_pos + 1) l.length = l := hsplit.1
    have hnp : ¬ (byteAt packet curr_pos &&& 0xC0 = 0xC0) := by
      rw [pointer_bits_iff _ (byteAt_lt _ _)]; omega
    have hnext := ih (curr_pos + l.length + 1) fuel (push_label domain l) hls
      (by
        have := hsplit.2
        rwa [show curr_pos + 1 + l.length = curr_pos + l.length + 1 by omega] at this)
      (by omega)
    rw [show (l :: ls).length + fuel = (ls.length + fuel) + 1 by simp; omega]
    simp only [read_exec]
    rw [if_pos ⟨by omega, hj⟩, if_neg hnp, if_neg (by omega), if_neg (by omega),
      if_neg (by omega), hb, hlab]
    have hpush : (if !domain.isEmpty then domain ++ [dot] else domain) ++ l
        = push_label domain l := rfl
    rw [hpush, hnext, hwl, List.foldl_cons,
      show curr_pos + l.length + 1 + (wire_labels ls).length
        = curr_pos + (l.length + 1 + (wire_labels ls).length) by omega]
    cases read_exec packet max_len fuel jump_limit
        (curr_pos + (l.length + 1 + (wire_labels ls).length))
        (List.foldl push_label (push_label domain l) ls) with
    | none => rfl
    | some e => simp [label_reads]

/-- The indices read when ordinary labels are followed by a compression pointer:
the label bytes, the two pointer bytes, then whatever the decoding at the target
reads; nothing else at the original site. -/
theorem read_exec_pointer_reads (packet : List Byte) (labels : List (List Byte))
    (pos max_len q t p1 fuel : Nat) (jump_limit : Int) (N : List Byte)
    (hlab : ∀ l ∈ labels, 1 ≤ l.length ∧ l.length ≤ 63)
    (hpre : wire_labels labels <+: packet.drop pos)
    (hq : q = pos + (wire_labels labels).length)
    (hptr : byteAt packet q &&& 0xC0 = 0xC0)
    (hq1 : q + 1 < max_len)
    (ht : t = (((byteAt packet q &&& 0x3F) <<< 8) ||| byteAt packet (q + 1)))
    (htl : t < max_len)
    (hN : read_domain_name packet t max_len (jump_limit - 1) = some (N, p1))
    (hfuel : read_fuel max_len jump_limit pos ≤ fuel) :
    ∃ e eN, read_exec packet max_len fuel jump_limit pos [] = some e ∧
      read_exec packet max_len (fuel - labels.length - 1) (jump_limit - 1) t [] = some eN ∧
      eN.result = some (N, p1) ∧
      e.reads = label_reads pos labels ++ q :: (q + 1) :: eN.reads := by
  have hj : jumps < jump_limit := by
    have := read_domain_name_some_pos hN
    unfold jumps at *; omega
  have hjpos : 0 < jump_limit := hj
  subst hq
  have hge := wire_labels_length_ge labels
  have hmul : jump_limit.toNat * (max_len + 1) =
      (jump_limit - 1).toNat * (max_len + 1) + (max_len + 1) := by
    have : jump_limit.toNat = (jump_limit - 1).toNat + 1 := by omega
    rw [this, Nat.succ_mul]
  unfold read_fuel at hfuel
  obtain ⟨eN, heN, hresN, _, _⟩ := read_exec_read_domain_name packet t max_len
    (fuel - labels.length - 1) (jump_limit - 1) (by unfold read_fuel; omega)
  obtain ⟨f, hf⟩ : ∃ f, fuel = labels.length + (f + 1) :=
    ⟨fuel - labels.length - 1, by omega⟩
  have hf2 : fuel - labels.length - 1 = f := by omega
  rw [hf2] at heN
  rw [hf, read_exec_labels packet max_len jump_limit hj labels pos (f + 1) [] hlab hpre
    (by omega)]
  simp only [read_exec]
  rw [if_pos ⟨by omega, hj⟩, if_pos hptr, if_neg (by omega), ← ht, if_neg (by omega), heN]
  refine ⟨_, eN, rfl, ?_, ?_, rfl⟩
  · rw [show labels.length + (f + 1) - labels.length - 1 = f by omega]; exact heN
  · rw [hresN, hN]

/-- C2 (compression pointer decoding): suppose that, from `pos`, `read_domain_name`
consumes the ordinary labels `labels` (any number, each 1..63 bytes) and then
meets at position `q` a byte with both high bits set, with `q + 1 < max_len`,
whose 14-bit target `t = ((byte & 0x3F) << 8) | next byte` is below `max_len`,
and that decoding at `t` with `jump_limit - 1` succeeds with name `N`. Then the
result is the labels joined by `.`, followed by `.` and `N` (the separating dot
is omitted when either side is empty), and `pos` is set to `q + 2`. No byte
after the pointer at the original site is consumed: the execution reads the
label bytes, the two pointer bytes `q` and `q + 1`, and from there on only what
the decoding at `t` reads. -/
theorem read_domain_name_pointer (packet : List Byte) (labels : List (List Byte))
    (pos max_len q t p1 : Nat) (jump_limit : Int) (N : List Byte)
    (hlab : ∀ l ∈ labels, 1 ≤ l.length ∧ l.length ≤ 63)
    (hpre : wire_labels labels <+: packet.drop pos)
    (hq : q = pos + (wire_labels labels).length)
    (hptr : byteAt packet q &&& 0xC0 = 0xC0)
    (hq1 : q + 1 < max_len)
    (ht : t = (((byteAt packet q &&& 0x3F) <<< 8) ||| byteAt packet (q + 1)))
    (htl : t < max_len)
    (hN : read_domain_name packet t max_len (jump_limit - 1) = some (N, p1)) :
    read_domain_name packet pos max_len jump_limit =
        some (if List.intercalate [dot] labels = [] ∨ N = []
              then List.intercalate [dot] labels ++ N
              else List.intercalate [dot] labels ++ [dot] ++ N, q + 2) ∧
      ∀ fuel, read_fuel max_len jump_limit pos ≤ fuel →
        ∃ e eN, read_exec packet max_len fuel jump_limit pos [] = some e ∧
          read_exec packet max_len (fuel - labels.length - 1) (jump_limit - 1) t [] = some eN ∧
          eN.result = some (N, p1) ∧
          e.reads = label_reads pos labels ++ q :: (q + 1) :: eN.reads :=
  ⟨read_domain_name_pointer_value packet labels pos max_len q t p1 jump_limit N
      hlab hpre hq hptr hq1 ht htl hN,
   fun fuel hfuel => read_exec_pointer_reads packet labels pos max_len q t p1 fuel jump_limit N
      hlab hpre hq hptr hq1 ht htl hN hfuel⟩

/-- Witness for C2: `www` followed by a pointer to offset 18, where `a` is encoded. -/
theorem read_domain_name_pointer_witness :
    read_domain_name
      [0, 0, 1, 0, 0, 1, 0, 0, 0, 0, 0, 0, 3, 119, 119, 119, 0xC0, 18, 1, 97, 0, 7, 7]
      12 21 2 = some ([119, 119, 119, 46, 97], 18) :=
  (read_domain_name_pointer _ [[119, 119, 119]] 12 21 16 18 21 2 [97]
    (by decide) (by decide) (by decide) (by decide) (by decide) (by decide) (by decide)
    (by decide)).1

/-- C4 (parser safety): for every byte sequence of length at most 65535, the
execution of `extract_dns_queries` returns and every index it reads is smaller
than the payload length; and for every payload, `pos`, `jump_limit` and
`max_len ≤` payload length, the execution of `read_domain_name` returns and
every index it reads (length bytes, pointer second bytes, label bytes, at every
recursion level) is smaller than `max_len`, hence inside the payload. -/
theorem parser_reads_in_bounds :
    (∀ (packet : List Byte) (fuel : Nat), packet.length ≤ 65535 →
      extract_fuel packet ≤ fuel →
      ∃ rs, extract_dns_queries_exec packet fuel = some (extract_dns_queries packet, rs) ∧
        ∀ i ∈ rs, i < packet.length) ∧
    (∀ (packet : List Byte) (pos max_len fuel : Nat) (jump_limit : Int),
      max_len ≤ packet.length → read_fuel max_len jump_limit pos ≤ fuel →
      ∃ e, read_exec packet max_len fuel jump_limit pos [] = some e ∧
        e.result = read_domain_name packet pos max_len jump_limit ∧
        ∀ i ∈ e.reads, i < max_len ∧ i < packet.length) := by
  constructor
  · intro packet fuel _ hfuel
    exact extract_dns_queries_exec_spec packet fuel hfuel
  · intro packet pos max_len fuel jump_limit hmax hfuel
    obtain ⟨e, he, hres, hreads, _⟩ :=
      read_exec_read_domain_name packet pos max_len fuel jump_limit hfuel
    exact ⟨e, he, hres, fun i hi => ⟨hreads i hi, lt_of_lt_of_le (hreads i hi) hmax⟩⟩

/-- Witness for C4: the self-referential query, run with 200 units of fuel. -/
theorem parser_reads_in_bounds_witness :
    ∃ rs, extract_dns_queries_exec self_loop_query 200 =
        some (extract_dns_queries self_loop_query, rs) ∧
      ∀ i ∈ rs, i < self_loop_query.length :=
  parser_reads_in_bounds.1 self_loop_query 200 (by decide) (by decide)

/-- C5 (parser termination): for every payload, `pos`, `max_len` and `jump_limit`
(self-referential and cyclic pointers included) the execution of
`read_domain_name` returns its value within `read_fuel max_len jump_limit pos`
steps, with at most `jump_limit.toNat + 1` nested activations (`jump_limit + 1`
when `jump_limit ≥ 0`); and the execution of `extract_dns_queries` returns its
value within `extract_fuel packet` steps on every payload. -/
theorem parser_terminates :
    (∀ (packet : List Byte) (pos max_len : Nat) (jump_limit : Int),
      ∃ e, read_exec packet max_len (read_fuel max_len jump_limit pos) jump_limit pos [] = some e ∧
        e.result = read_domain_name packet pos max_len jump_limit ∧
        e.depth ≤ jump_limit.toNat + 1) ∧
    (∀ packet : List Byte,
      ∃ rs, extract_dns_queries_exec packet (extract_fuel packet) =
        some (extract_dns_queries packet, rs)) := by
  constructor
  · intro packet pos max_len jump_limit
    obtain ⟨e, he, hres, _, hd⟩ :=
      read_exec_read_domain_name packet pos max_len _ jump_limit (le_refl _)
    exact ⟨e, he, hres, hd⟩
  · intro packet
    obtain ⟨rs, hrs, _⟩ := extract_dns_queries_exec_spec packet _ (le_refl _)
    exact ⟨rs, hrs⟩

/-- C8, the code at the failing inputs: a question cut off after the label `a`
(no terminating zero byte, no pointer) is decoded successfully and contributes
`a` to the result; a payload that ends where the question should begin
contributes the empty name. -/
theorem truncated_name_is_returned :
    read_domain_name truncated_query 12 14 5 = some ([97], 14) ∧
      extract_dns_queries truncated_query = [[97]] ∧
      read_domain_name header_only_query 12 12 5 = some ([], 12) ∧
      extract_dns_queries header_only_query = [[]] := by
  decide

/-- C9, counterexample: the name decoded for the first question of
`root_then_a_query` is the empty string, yet extraction goes on; the result
contains the empty string and the name of the second question. -/
theorem empty_name_kept_counterexample :
    question_name root_then_a_query 0 = some [] ∧
      extract_dns_queries root_then_a_query = [[], [97]] := by
  decide

/-- If question `i` is reached, every earlier question has a name. -/
theorem question_name_of_later_start (packet : List Byte) :
    ∀ (i : Nat) (s : Nat), question_start packet i = some s →
      ∀ j, j < i → (question_name packet j).isSome = true := by
  intro i
  induction i with
  | zero => intro s _ j hj; omega
  | succ i ih =>
    intro s hs j hj
    simp only [question_start] at hs
    cases hsi : question_start packet i with
    | none => rw [hsi] at hs; exact Option.noConfusion hs
    | some s0 =>
      rw [hsi] at hs
      simp only at hs
      cases hr : read_domain_name packet s0 packet.length 5 with
      | none => rw [hr] at hs; exact Option.noConfusion hs
      | some r =>
        by_cases hji : j = i
        · subst hji
          simp [question_name, hsi, hr]
        · exact ih s0 hsi j (by omega)

/-- When the first `m` questions from `a` all have names, the leading names
split after them, and there are `m` of them. -/
theorem leading_names_append (packet : List Byte) :
    ∀ (m a k : Nat), (∀ j, a ≤ j → j < a + m → (question_name packet j).isSome = true) →
      leading_names packet a (m + k) =
          leading_names packet a m ++ leading_names packet (a + m) k ∧
        (leading_names packet a m).length = m := by
  intro m
  induction m with
  | zero => intro a k _; simp [leading_names_zero]
  | succ m ih =>
    intro a k hall
    have ha := hall a (le_refl _) (by omega)
    obtain ⟨d, hd⟩ := Option.isSome_iff_exists.mp ha
    have hrec := ih (a + 1) k (fun j h1 h2 => hall j (by omega) (by omega))
    rw [show m + 1 + k = (m + k) + 1 by omega, leading_names_succ, leading_names_succ, hd]
    simp only
    rw [hrec.1, show a + 1 + m = a + (m + 1) by omega]
    exact ⟨rfl, by simp [hrec.2]⟩

/-- If question `i` is reached, the result consists of the `i` names before it
followed by the leading names from `i` on. -/
theorem extract_dns_queries_split (packet : List Byte) (i s : Nat)
    (h12 : 12 ≤ packet.length) (hi : i < qdcount packet)
    (hs : question_start packet i = some s) :
    extract_dns_queries packet =
        leading_names packet 0 i ++ leading_names packet i (qdcount packet - i) ∧
      (leading_names packet 0 i).length = i := by
  have hC3 := extract_dns_queries_eq_leading packet
  have hsplit := leading_names_append packet i 0 (qdcount packet - i)
    (fun j _ hj => question_name_of_later_start packet i s hs j (by omega))
  rw [hC3]
  unfold extract_reference
  rw [← qdcount_eq_be, if_neg (by omega)]
  rw [show qdcount packet = i + (qdcount packet - i) by omega] 
  simpa using hsplit

/-- C9 as amended (a failed decode, not an empty name, aborts extraction): if
question `i` is reached (it starts at `s`) and decoding its name returns no
value, `extract_dns_queries` stops there: the result is exactly the `i` names of
the questions before `i`, nothing of question `i` or a later one. If instead the
name decoded for question `i` is the empty string, it is kept: element `i` of
the result is the empty string. -/
theorem extract_stops_at_failed_name (packet : List Byte) (i s : Nat)
    (h12 : 12 ≤ packet.length) (hi : i < qdcount packet)
    (hs : question_start packet i = some s) :
    (read_domain_name packet s packet.length 5 = none →
      extract_dns_queries packet = leading_names packet 0 i ∧
        (extract_dns_queries packet).length = i) ∧
    (∀ p1, read_domain_name packet s packet.length 5 = some ([], p1) →
      (extract_dns_queries packet)[i]? = some []) := by
  obtain ⟨hsplit, hlen⟩ := extract_dns_queries_split packet i s h12 hi hs
  obtain ⟨k, hk⟩ : ∃ k, qdcount packet - i = k + 1 := ⟨qdcount packet - i - 1, by omega⟩
  rw [hk, leading_names_succ] at hsplit
  constructor
  · intro hnone
    have hq : question_name packet i = none := by simp [question_name, hs, hnone]
    rw [hq] at hsplit
    simp only [List.append_nil] at hsplit
    exact ⟨hsplit, by rw [hsplit, hlen]⟩
  · intro p1 hsome
    have hq : question_name packet i = some [] := by simp [question_name, hs, hsome]
    rw [hq] at hsplit
    rw [hsplit]
    simp only
    rw [List.getElem?_append_right (by omega)]
    simp [hlen]

/-- Witness for C9: the second question of `a_then_reserved_query` fails to
decode, and the result is the single name of the first question; the first
question of `root_then_a_query` decodes to the empty name, which is element 0 of
the result. -/
theorem extract_stops_at_failed_name_witness :
    (extract_dns_queries a_then_reserved_query = leading_names a_then_reserved_query 0 1 ∧
      (extract_dns_queries a_then_reserved_query).length = 1) ∧
    (extract_dns_queries root_then_a_query)[0]? = some [] :=
  ⟨(extract_stops_at_failed_name a_then_reserved_query 1 19 (by decide) (by decide)
      (by decide)).1 (by decide),
   (extract_stops_at_failed_name root_then_a_query 0 12 (by decide) (by decide)
      (by decide)).2 13 (by decide)⟩

/-! ## Theorems about the cache -/

/-- Deleting a key leaves the other hashes alone. -/
theorem del_key_entries_ne (c : RedisDNSCache) (key d : String) (h : d ≠ key) :
    (del_key c key).entries d = c.entries d := by
  simp [del_key, Function.update, h]

/-- One sweep step leaves the pending set and the configuration alone. -/
theorem cleanup_key_frame (now : Int) (c : RedisDNSCache) (key : String) :
    (cleanup_key now c key).pending = c.pending ∧
      (cleanup_key now c key).ttl_config = c.ttl_config ∧
      (cleanup_key now c key).max_size = c.max_size := by
  unfold cleanup_key
  cases c.entries key with
  | none => simp
  | some h => by_cases he : expired h now = true <;> simp [he, del_key]

/-- One sweep step leaves a hash that is not expired (or absent) alone. -/
theorem cleanup_key_entries (now : Int) (c : RedisDNSCache) (key d : String)
    (hd : ∀ h, c.entries d = some h → expired h now = false) :
    (cleanup_key now c key).entries d = c.entries d := by
  unfold cleanup_key
  cases hk : c.entries key with
  | none => rfl
  | some h =>
    by_cases he : expired h now = true
    · have hne : d ≠ key := by
        intro hdk
        subst hdk
        have := hd h hk
        rw [this] at he
        exact Bool.noConfusion he
      simp only [he, if_true]
      exact del_key_entries_ne c key d hne
    · simp [he]

/-- A run of sweep steps leaves a hash that is not expired alone, and the
pending set and configuration too. -/
theorem foldl_cleanup_key (now : Int) (d : String) :
    ∀ (keys : List String) (c : RedisDNSCache),
      (∀ h, c.entries d = some h → expired h now = false) →
      (keys.foldl (cleanup_key now) c).entries d = c.entries d ∧
        (keys.foldl (cleanup_key now) c).pending = c.pending ∧
        (keys.foldl (cleanup_key now) c).ttl_config = c.ttl_config ∧
        (keys.foldl (cleanup_key now) c).max_size = c.max_size := by
  intro keys
  induction keys with
  | nil => intro c _; simp
  | cons key keys ih =>
    intro c hd
    have h1 := cleanup_key_entries now c key d hd
    have hf := cleanup_key_frame now c key
    have := ih (cleanup_key now c key) (by rw [h1]; exact hd)
    simp only [List.foldl_cons]
    rw [this.1, this.2.1, this.2.2.1, this.2.2.2, h1, hf.1, hf.2.1, hf.2.2]
    exact ⟨rfl, rfl, rfl, rfl⟩

/-- The TTL sweep leaves a hash that is not expired at `now` alone, and the
pending set and configuration too. -/
theorem cleanupExpired_keeps (c : RedisDNSCache) (now : Int) (d : String)
    (hd : ∀ h, c.entries d = some h → expired h now = false) :
    (cleanupExpired c now).entries d = c.entries d ∧
      (cleanupExpired c now).pending = c.pending ∧
      (cleanupExpired c now).ttl_config = c.ttl_config ∧
      (cleanupExpired c now).max_size = c.max_size :=
  foldl_cleanup_key now d _ c hd

/-- The result of `find_key` depends on the hash of the domain only. -/
theorem find_congr_key (c1 c2 : RedisDNSCache) (d : String) (h : c1.entries d = c2.entries d) :
    find_key c1 d = find_key c2 d := by
  unfold find_key; rw [h]

/-- The `query_count` that `find_key` returns is a `uint32_t`. -/
theorem find_query_count_lt_key (c : RedisDNSCache) (d : String) (e : DomainEntry)
    (h : find_key c d = some e) : e.query_count < 2 ^ 32 := by
  unfold find_key at h
  split at h
  · exact Option.noConfusion h
  · split at h
    · injection h with h
      rw [← h]
      exact Nat.mod_lt _ (by norm_num)
    · exact Option.noConfusion h

/-- The update path of `insertOrUpdate_key`: the hash written for a domain that
`find_key` knows and the sweep spares. -/
theorem insertOrUpdate_update_path_key (c : RedisDNSCache) (d : String) (s : DomainStatus)
    (a : DomainAction) (now : Int) (h : EntryHash) (e : DomainEntry)
    (hh : c.entries d = some h) (hfind : find_key c d = some e) (hne : expired h now = false) :
    (insertOrUpdate_key c d s a now).1.entries d =
        some (full_hash d s a now
          (if e.status = s then (e.query_count + 1) % 2 ^ 32 else e.query_count)
          (getTTL c.ttl_config s a)) ∧
      (insertOrUpdate_key c d s a now).1.pending = c.pending ∧
      (insertOrUpdate_key c d s a now).1.ttl_config = c.ttl_config := by
  have hk := cleanupExpired_keeps c now d (by
    intro h2 hh2
    rw [hh] at hh2
    injection hh2 with hh2
    rw [← hh2]; exact hne)
  have hf : find_key (cleanupExpired c now) d = some e := by
    rw [find_congr_key _ c d hk.1]; exact hfind
  have hlt := find_query_count_lt_key c d e hfind
  unfold insertOrUpdate_key
  simp only [hf, update_key, write_entry, Function.update_same, hk.2.1, hk.2.2.1]
  refine ⟨?_, trivial, trivial⟩
  by_cases hs : e.status = s
  · simp [hs]
  · simp only [hs, if_false]
    rw [Nat.mod_eq_of_lt hlt]

/-- On C strings (observation of a known domain): if `d` has an entry `e` (hash
`h`) that is not expired at `now`, then `insertOrUpdate_key d s a` at `now` leaves `d`
with status `s`, action `a`, `last_updated = last_accessed = now`, the ttl of
`(s, a)` and `query_count = old + 1` modulo 2^32 if the stored status equals `s`
and `= old` otherwise, and leaves the pending set unchanged; a second call with
the same `s`, made before that ttl elapses, yields `query_count + 1` modulo 2^32,
which is strictly larger unless the counter stood at 4294967295; and a call that
changes the status leaves `query_count` as it was. -/
theorem insertOrUpdate_known_domain_key (c : RedisDNSCache) (d : String) (s : DomainStatus)
    (a : DomainAction) (now : Int) (h : EntryHash) (e : DomainEntry)
    (hh : c.entries d = some h) (hfind : find_key c d = some e) (hne : expired h now = false) :
    (insertOrUpdate_key c d s a now).1.entries d =
        some (full_hash d s a now
          (if e.status = s then (e.query_count + 1) % 2 ^ 32 else e.query_count)
          (getTTL c.ttl_config s a)) ∧
      (insertOrUpdate_key c d s a now).1.pending = c.pending ∧
      (∀ now2 : Int, now2 ≤ now + getTTL c.ttl_config s a →
        (insertOrUpdate_key (insertOrUpdate_key c d s a now).1 d s a now2).1.entries d =
          some (full_hash d s a now2
            (((if e.status = s then (e.query_count + 1) % 2 ^ 32 else e.query_count) + 1)
              % 2 ^ 32)
            (getTTL c.ttl_config s a)) ∧
        ((if e.status = s then (e.query_count + 1) % 2 ^ 32 else e.query_count) < 4294967295 →
          (if e.status = s then (e.query_count + 1) % 2 ^ 32 else e.query_count) <
            ((if e.status = s then (e.query_count + 1) % 2 ^ 32 else e.query_count) + 1)
              % 2 ^ 32) ∧
        (insertOrUpdate_key (insertOrUpdate_key c d s a now).1 d s a now2).1.pending = c.pending) ∧
      (e.status ≠ s →
        (find_key (insertOrUpdate_key c d s a now).1 d).map DomainEntry.query_count =
          some e.query_count) := by
  have h1 := insertOrUpdate_update_path_key c d s a now h e hh hfind hne
  have hlt := find_query_count_lt_key c d e hfind
  have hq1 : (if e.status = s then (e.query_count + 1) % 2 ^ 32 else e.query_count) < 2 ^ 32 := by
    split_ifs
    · exact Nat.mod_lt _ (by norm_num)
    · exact hlt
  have hfind1 : find_key (insertOrUpdate_key c d s a now).1 d =
      some { domain := d, status := s, action := a,
             query_count := (if e.status = s then (e.query_count + 1) % 2 ^ 32
               else e.query_count),
             last_updated := now, last_accessed := now } := by
    unfold find_key
    rw [h1.1]
    simp only [full_hash, Option.getD_some, Nat.mod_eq_of_lt hq1]
  refine ⟨h1.1, h1.2.1, ?_, ?_⟩
  · intro now2 hnow2
    have hexp : expired (full_hash d s a now
        (if e.status = s then (e.query_count + 1) % 2 ^ 32 else e.query_count)
        (getTTL c.ttl_config s a)) now2 = false := by
      simp only [expired, full_hash, decide_eq_false_iff_not]
      omega
    have h2 := insertOrUpdate_update_path_key (insertOrUpdate_key c d s a now).1 d s a now2 _ _ h1.1 hfind1
      hexp
    rw [h1.2.2] at h2
    simp only [if_true] at h2
    refine ⟨h2.1, ?_, by rw [h2.2.1, h1.2.1]⟩
    generalize (if e.status = s then (e.query_count + 1) % 2 ^ 32 else e.query_count) = q1
    intro hq
    rw [Nat.mod_eq_of_lt (by omega)]
    omega
  · intro hs
    rw [hfind1]
    simp [hs]

/-- With the default configuration `getTTL` is the TTL table. -/
theorem getTTL_default (s : DomainStatus) (a : DomainAction) :
    getTTL default_ttl_config s a = ttl_table s a := by
  cases s <;> cases a <;> rfl

/-- The hash that `insert_key` leaves at the inserted domain. -/
theorem insert_entries_self_key (c : RedisDNSCache) (d : String) (s : DomainStatus)
    (a : DomainAction) (now : Int) :
    (insert_key c d s a now).1.entries d =
      some (full_hash d s a now 1 (getTTL c.ttl_config s a)) := by
  simp [insert_key, addToPendingReportSet_key, write_entry]

/-- The hash that `update_key` leaves at the updated domain. -/
theorem update_entries_self_key (c : RedisDNSCache) (e : DomainEntry) (d : String)
    (s : DomainStatus) (a : DomainAction) (now : Int) :
    (update_key c e d s a now).1.entries d =
      some (full_hash d s a now
        ((if e.status = s then e.query_count + 1 else e.query_count) % 2 ^ 32)
        (getTTL c.ttl_config s a)) := by
  simp [update_key, write_entry]

/-- On C strings (TTL determinism): with the default configuration, the ttl that `insert_key`
and `update_key` write is the value of the TTL table at the `(status, action)` being
written, whatever the store, the domain, the time and the previous entry: 300 for
FAKE (any action), 600 for PEND (any action), 86400 for FULL with PERMIT and 3600
for FULL with DROP. -/
theorem ttl_written_is_table_key (c : RedisDNSCache) (e : DomainEntry) (d : String)
    (s : DomainStatus) (a : DomainAction) (now : Int)
    (hcfg : c.ttl_config = default_ttl_config) :
    ((insert_key c d s a now).1.entries d).bind EntryHash.ttl = some (ttl_table s a) ∧
      ((update_key c e d s a now).1.entries d).bind EntryHash.ttl = some (ttl_table s a) ∧
      ttl_table DomainStatus.FAKE a = 300 ∧ ttl_table DomainStatus.PEND a = 600 ∧
      ttl_table DomainStatus.FULL DomainAction.PERMIT = 86400 ∧
      ttl_table DomainStatus.FULL DomainAction.DROP = 3600 := by
  rw [insert_entries_self_key, update_entries_self_key, hcfg, getTTL_default]
  refine ⟨rfl, rfl, ?_, ?_, rfl, rfl⟩ <;> cases a <;> rfl

/-- On C strings (frame of `resetQueryCount_key`): for every store and every domain
`d` that has a hash, `resetQueryCount_key(d)` sets `query_count` of that hash to 0 and
changes nothing else: the other members of the hash, every other hash, the set of
domains that have a hash, the LRU index and the pending set are as before; and
`find_key(d)`, when it returned an entry, returns the same entry with `query_count` 0. -/
theorem resetQueryCount_frame_key (c : RedisDNSCache) (d : String) (h : EntryHash)
    (hh : c.entries d = some h) :
    (resetQueryCount_key c d).entries d = some { h with query_count := some 0 } ∧
      (∀ x, x ≠ d → (resetQueryCount_key c d).entries x = c.entries x) ∧
      (∀ x, ((resetQueryCount_key c d).entries x).isSome = (c.entries x).isSome) ∧
      (resetQueryCount_key c d).lru = c.lru ∧
      (resetQueryCount_key c d).pending = c.pending ∧
      (∀ e, find_key c d = some e →
        find_key (resetQueryCount_key c d) d = some { e with query_count := 0 }) := by
  have hd : (resetQueryCount_key c d).entries d = some { h with query_count := some 0 } := by
    simp [resetQueryCount_key, hset_query_count_zero, hh]
  have hx : ∀ x, x ≠ d → (resetQueryCount_key c d).entries x = c.entries x := by
    intro x hne
    simp [resetQueryCount_key, Function.update, hne]
  refine ⟨hd, hx, ?_, rfl, rfl, ?_⟩
  · intro x
    by_cases hxd : x = d
    · subst hxd; rw [hd, hh]; rfl
    · rw [hx x hxd]
  · intro e he
    unfold find_key at he ⊢
    rw [hd]
    rw [hh] at he
    simp only at he ⊢
    split at he
    · rename_i st ac qc lu la hst hac hqc hlu hla
      injection he with he
      simp only [hst, hac, hlu, hla]
      rw [← he]
      rfl
    · exact Option.noConfusion he

/-- The result of deleting a list of keys, one after the other. -/
theorem foldl_del_key (keys : List String) :
    ∀ c : RedisDNSCache,
      (∀ d, (keys.foldl del_key c).entries d = if d ∈ keys then none else c.entries d) ∧
        (keys.foldl del_key c).lru = c.lru.filter (fun p => decide (p.1 ∉ keys)) ∧
        (keys.foldl del_key c).pending = c.pending ∧
        (keys.foldl del_key c).max_size = c.max_size ∧
        (keys.foldl del_key c).ttl_config = c.ttl_config := by
  induction keys with
  | nil => intro c; simp
  | cons k ks ih =>
    intro c
    obtain ⟨h1, h2, h3, h4, h5⟩ := ih (del_key c k)
    simp only [List.foldl_cons]
    refine ⟨?_, ?_, ?_, ?_, ?_⟩
    · intro d
      rw [h1]
      by_cases hdk : d = k
      · subst hdk
        by_cases hks : d ∈ ks <;> simp [hks, del_key]
      · by_cases hks : d ∈ ks
        · simp [hks]
        · simp [hks, hdk, del_key, Function.update]
    · rw [h2]
      simp only [del_key, zrem, List.filter_filter]
      apply List.filter_congr
      intro p _
      by_cases hpk : p.1 = k <;> by_cases hks : p.1 ∈ ks <;> simp [hpk, hks]
    · rw [h3]; rfl
    · rw [h4]; rfl
    · rw [h5]; rfl

/-- The reply of `ZRANGE dns:lru 0 -1` lists the members of the index, each as
often as the index holds it. -/
theorem zrange_all_perm (lru : List (String × Int)) :
    (zrange_all lru).Perm (lru.map Prod.fst) :=
  (List.perm_insertionSort lru_le lru).map Prod.fst

/-- Membership in the reply of `ZRANGE dns:lru 0 -1`. -/
theorem mem_zrange_all (lru : List (String × Int)) (d : String) :
    d ∈ zrange_all lru ↔ d ∈ lru.map Prod.fst :=
  (zrange_all_perm lru).mem_iff

/-- The result of the Lua loop of `cleanupExpired` over a list of keys. -/
theorem foldl_cleanup_key_spec (now : Int) (keys : List String) :
    ∀ c : RedisDNSCache,
      (∀ d, (keys.foldl (cleanup_key now) c).entries d =
          if d ∈ keys ∧ hash_expired c now d = true then none else c.entries d) ∧
        (keys.foldl (cleanup_key now) c).lru =
          c.lru.filter (fun p => !(decide (p.1 ∈ keys) && hash_expired c now p.1)) := by
  induction keys with
  | nil => intro c; simp
  | cons k ks ih =>
    intro c
    obtain ⟨h1, h2⟩ := ih (cleanup_key now c k)
    simp only [List.foldl_cons]
    by_cases hk : hash_expired c now k = true
    · -- the key is deleted
      have hck : cleanup_key now c k = del_key c k := by
        unfold hash_expired at hk
        unfold cleanup_key
        cases hek : c.entries k with
        | none => rw [hek] at hk; exact Bool.noConfusion hk
        | some h => rw [hek] at hk; simp only at hk; simp [hk]
      have hexp : ∀ d, hash_expired (del_key c k) now d =
          if d = k then false else hash_expired c now d := by
        intro d
        by_cases hdk : d = k
        · subst hdk; simp [hash_expired, del_key]
        · simp [hash_expired, del_key, Function.update, hdk]
      rw [hck] at h1 h2 ⊢
      simp only [hexp] at h1 h2
      constructor
      · intro d
        rw [h1]
        by_cases hdk : d = k
        · subst hdk
          simp [hk, del_key]
        · simp [hdk, del_key, Function.update]
      · rw [h2]
        simp only [del_key, zrem, List.filter_filter]
        apply List.filter_congr
        intro p _
        by_cases hpk : p.1 = k
        · simp [hpk, hk]
        · simp [hpk]
    · -- the key is kept
      have hck : cleanup_key now c k = c := by
        unfold hash_expired at hk
        unfold cleanup_key
        cases hek : c.entries k with
        | none => rfl
        | some h => rw [hek] at hk; simp only at hk; simp [hk]
      rw [hck] at h1 h2 ⊢
      constructor
      · intro d
        rw [h1]
        by_cases hdk : d = k
        · subst hdk
          simp [hk]
        · simp [hdk]
      · rw [h2]
        apply List.filter_congr
        intro p _
        by_cases hpk : p.1 = k
        · simp [hpk, hk]
        · simp [hpk]

/-- The sweep leaves the pending set and the configuration alone. -/
theorem cleanupExpired_frame (c : RedisDNSCache) (now : Int) :
    (cleanupExpired c now).pending = c.pending ∧
      (cleanupExpired c now).ttl_config = c.ttl_config ∧
      (cleanupExpired c now).max_size = c.max_size := by
  unfold cleanupExpired
  generalize zrange_all c.lru = keys
  induction keys generalizing c with
  | nil => simp
  | cons k ks ih =>
    have hf := cleanup_key_frame now c k
    have := ih (cleanup_key now c k)
    simp only [List.foldl_cons]
    rw [this.1, this.2.1, this.2.2, hf.1, hf.2.1, hf.2.2]
    exact ⟨rfl, rfl, rfl⟩

/-- What the sweep does to the hashes and to the index. -/
theorem cleanupExpired_spec (c : RedisDNSCache) (now : Int) :
    (∀ d, (cleanupExpired c now).entries d = if swept c now d = true then none else c.entries d) ∧
      (cleanupExpired c now).lru = c.lru.filter (fun p => !swept c now p.1) := by
  obtain ⟨h1, h2⟩ := foldl_cleanup_key_spec now (zrange_all c.lru) c
  constructor
  · intro d
    unfold cleanupExpired
    rw [h1]
    simp only [swept, mem_zrange_all, Bool.and_eq_true, decide_eq_true_eq]
  · unfold cleanupExpired
    rw [h2]
    apply List.filter_congr
    intro p _
    simp only [swept, mem_zrange_all]

/-- The expiry test on a hash that has both members is `last_updated + ttl < now`. -/
theorem expired_iff (h : EntryHash) (now u t : Int) (ht : h.ttl = some t)
    (hu : h.last_updated = some u) : expired h now = true ↔ u + t < now := by
  simp [expired, ht, hu]

/-- On C strings (TTL sweep): for every store and time `now`, `cleanupExpired` removes from
both the entry table and the LRU index exactly the indexed domains whose hash has
`last_updated + ttl < now` (strictly), and leaves every other hash (one with
`last_updated + ttl = now` included) with all its members, every other index
pair with its score, and the pending set unchanged; `insertOrUpdate_key` performs
this sweep before it looks the domain up, so that a domain that is swept is
inserted afresh (with `query_count` 1). -/
theorem cleanupExpired_sweep_key (c : RedisDNSCache) (now : Int) :
    (∀ d, (cleanupExpired c now).entries d =
        if swept c now d = true then none else c.entries d) ∧
      (cleanupExpired c now).lru = c.lru.filter (fun p => !swept c now p.1) ∧
      (cleanupExpired c now).pending = c.pending ∧
      (∀ d, swept c now d = true ↔
        d ∈ c.lru.map Prod.fst ∧ ∃ h, c.entries d = some h ∧ expired h now = true) ∧
      (∀ (h : EntryHash) (u t : Int), h.ttl = some t → h.last_updated = some u →
        (expired h now = true ↔ u + t < now)) ∧
      (∀ d s a, insertOrUpdate_key c d s a now =
        match find_key (cleanupExpired c now) d with
        | none => insert_key (cleanupExpired c now) d s a now
        | some e => update_key (cleanupExpired c now) e d s a now) ∧
      (∀ d s a, swept c now d = true →
        (insertOrUpdate_key c d s a now).1.entries d =
          some (full_hash d s a now 1 (getTTL c.ttl_config s a))) := by
  refine ⟨(cleanupExpired_spec c now).1, (cleanupExpired_spec c now).2,
    (cleanupExpired_frame c now).1, ?_, ?_, ?_, ?_⟩
  · intro d
    simp only [swept, hash_expired, Bool.and_eq_true, decide_eq_true_eq]
    constructor
    · rintro ⟨hm, he⟩
      refine ⟨hm, ?_⟩
      cases hd : c.entries d with
      | none => rw [hd] at he; exact Bool.noConfusion he
      | some h => rw [hd] at he; exact ⟨h, rfl, he⟩
    · rintro ⟨hm, h, hd, he⟩
      exact ⟨hm, by rw [hd]; exact he⟩
  · intro h u t ht hu
    exact expired_iff h now u t ht hu
  · intro d s a
    rfl
  · intro d s a hsw
    have hnone : find_key (cleanupExpired c now) d = none := by
      unfold find_key
      rw [(cleanupExpired_spec c now).1 d, if_pos hsw]
    unfold insertOrUpdate_key
    simp only [hnone]
    rw [insert_entries_self_key, (cleanupExpired_frame c now).2.1]

/-- `makeRoom` does nothing while the index is below capacity. -/
theorem makeRoom_of_lt (c : RedisDNSCache) (h : size c < c.max_size) : makeRoom c = c := by
  unfold size at h
  simp only [makeRoom]
  rw [if_neg (by omega)]

/-- What `makeRoom` does when the index is at or above capacity: it deletes the
victims from the hashes and from the index. -/
theorem makeRoom_of_ge (c : RedisDNSCache) (h : c.max_size ≤ size c) :
    (∀ d, (makeRoom c).entries d = if d ∈ victims c then none else c.entries d) ∧
      (makeRoom c).lru = c.lru.filter (fun p => decide (p.1 ∉ victims c)) ∧
      (makeRoom c).pending = c.pending ∧
      (makeRoom c).max_size = c.max_size ∧
      (makeRoom c).ttl_config = c.ttl_config := by
  unfold size at h
  have hm : makeRoom c = (victims c).foldl del_key c := by
    simp only [makeRoom, victims]
    rw [if_pos (by omega)]
  rw [hm]
  exact foldl_del_key (victims c) c

/-- `makeRoom` leaves the pending set and the configuration alone. -/
theorem makeRoom_frame (c : RedisDNSCache) :
    (makeRoom c).pending = c.pending ∧ (makeRoom c).max_size = c.max_size ∧
      (makeRoom c).ttl_config = c.ttl_config := by
  by_cases h : c.max_size ≤ size c
  · obtain ⟨_, _, h3, h4, h5⟩ := makeRoom_of_ge c h
    exact ⟨h3, h4, h5⟩
  · rw [makeRoom_of_lt c (by omega)]
    exact ⟨rfl, rfl, rfl⟩

/-- The number of victims: `max(2, max_size / 10)`, or the whole index when it is
smaller. -/
theorem victims_length (c : RedisDNSCache) :
    (victims c).length = min (max 2 (c.max_size / 10)) (size c) := by
  unfold victims size
  rw [List.length_take, (zrange_all_perm c.lru).length_eq, List.length_map]

/-- Deleting the victims shortens the index by at least their number. -/
theorem filter_victims_length_le (c : RedisDNSCache) :
    (c.lru.filter (fun p => decide (p.1 ∉ victims c))).length + (victims c).length
      ≤ c.lru.length := by
  have hperm := List.perm_insertionSort lru_le c.lru
  have hlen : (c.lru.filter (fun p => decide (p.1 ∉ victims c))).length =
      ((c.lru.insertionSort lru_le).filter (fun p => decide (p.1 ∉ victims c))).length :=
    (hperm.filter _).length_eq.symm
  have hv : victims c = ((c.lru.insertionSort lru_le).take (max 2 (c.max_size / 10))).map
      Prod.fst := by
    unfold victims zrange_all
    rw [List.map_take]
  have hsplit := List.take_append_drop (max 2 (c.max_size / 10)) (c.lru.insertionSort lru_le)
  have htake : ((c.lru.insertionSort lru_le).take (max 2 (c.max_size / 10))).filter
      (fun p => decide (p.1 ∉ victims c)) = [] := by
    rw [List.filter_eq_nil_iff]
    intro p hp
    simp only [decide_eq_true_eq, not_not]
    rw [hv]
    exact List.mem_map_of_mem Prod.fst hp
  rw [hlen]
  conv_lhs => rw [← hsplit, List.filter_append, htake, List.nil_append]
  have h1 := List.length_filter_le (fun p : String × Int => decide (p.1 ∉ victims c))
    ((c.lru.insertionSort lru_le).drop (max 2 (c.max_size / 10)))
  rw [List.length_drop, hperm.length_eq] at h1
  have h2 := victims_length c
  unfold size at h2
  omega

/-- After `makeRoom` on a store within a capacity of at least 1, there is room for
one more member. -/
theorem makeRoom_size_lt (c : RedisDNSCache) (hK : 1 ≤ c.max_size)
    (hsize : size c ≤ c.max_size) : size (makeRoom c) < c.max_size := by
  by_cases h : c.max_size ≤ size c
  · have h2 := (makeRoom_of_ge c h).2.1
    have h3 := filter_victims_length_le c
    have h4 := victims_length c
    unfold size at *
    rw [h2]
    omega
  · rw [makeRoom_of_lt c (by omega)]
    omega

/-- `makeRoom` never lengthens the index. -/
theorem makeRoom_size_le (c : RedisDNSCache) : size (makeRoom c) ≤ size c := by
  by_cases h : c.max_size ≤ size c
  · have h2 := (makeRoom_of_ge c h).2.1
    unfold size
    rw [h2]
    exact List.length_filter_le _ _
  · rw [makeRoom_of_lt c (by omega)]

/-- The sweep never lengthens the index. -/
theorem cleanupExpired_size_le (c : RedisDNSCache) (now : Int) :
    size (cleanupExpired c now) ≤ size c := by
  unfold size
  rw [(cleanupExpired_spec c now).2]
  exact List.length_filter_le _ _

/-- The sweep keeps every hash indexed. -/
theorem cleanupExpired_indexed (c : RedisDNSCache) (now : Int) (h : indexed c) :
    indexed (cleanupExpired c now) := by
  intro d hd
  rw [(cleanupExpired_spec c now).1 d] at hd
  by_cases hsw : swept c now d = true
  · rw [if_pos hsw] at hd; exact Bool.noConfusion hd
  · rw [if_neg hsw] at hd
    have hm := h d hd
    rw [(cleanupExpired_spec c now).2]
    obtain ⟨p, hp, hpd⟩ := List.mem_map.mp hm
    refine List.mem_map.mpr ⟨p, List.mem_filter.mpr ⟨hp, ?_⟩, hpd⟩
    rw [hpd]
    simpa using hsw

/-- `makeRoom` keeps every hash indexed. -/
theorem makeRoom_indexed (c : RedisDNSCache) (h : indexed c) : indexed (makeRoom c) := by
  by_cases hge : c.max_size ≤ size c
  · obtain ⟨h1, h2, _⟩ := makeRoom_of_ge c hge
    intro d hd
    rw [h1 d] at hd
    by_cases hv : d ∈ victims c
    · rw [if_pos hv] at hd; exact Bool.noConfusion hd
    · rw [if_neg hv] at hd
      have hm := h d hd
      rw [h2]
      obtain ⟨p, hp, hpd⟩ := List.mem_map.mp hm
      refine List.mem_map.mpr ⟨p, List.mem_filter.mpr ⟨hp, ?_⟩, hpd⟩
      rw [hpd]
      simpa using hv
  · rw [makeRoom_of_lt c (by omega)]
    exact h

/-- Members of the index after `ZADD`. -/
theorem mem_zadd_fst (lru : List (String × Int)) (score : Int) (member x : String) :
    x ∈ (zadd lru score member).map Prod.fst ↔ x = member ∨ x ∈ lru.map Prod.fst := by
  unfold zadd
  simp only [List.map_append, List.mem_append, List.mem_map, List.mem_filter,
    List.mem_singleton, decide_eq_true_eq]
  constructor
  · rintro (⟨p, ⟨hp, _⟩, rfl⟩ | ⟨p, rfl, rfl⟩)
    · exact Or.inr ⟨p, hp, rfl⟩
    · exact Or.inl rfl
  · rintro (rfl | ⟨p, hp, rfl⟩)
    · exact Or.inr ⟨_, rfl, rfl⟩
    · by_cases hpm : p.1 = member
      · exact Or.inr ⟨(member, score), rfl, hpm.symm⟩
      · exact Or.inl ⟨p, ⟨hp, hpm⟩, rfl⟩

/-- `ZADD` lengthens the index by at most one, and not at all for a member. -/
theorem zadd_length (lru : List (String × Int)) (score : Int) (member : String) :
    (zadd lru score member).length ≤ lru.length + 1 ∧
      (member ∈ lru.map Prod.fst → (zadd lru score member).length ≤ lru.length) := by
  unfold zadd
  rw [List.length_append, List.length_singleton]
  constructor
  · have := List.length_filter_le (fun p : String × Int => decide (p.1 ≠ member)) lru
    omega
  · intro hm
    obtain ⟨p, hp, hpd⟩ := List.mem_map.mp hm
    have : (lru.filter (fun p : String × Int => decide (p.1 ≠ member))).length < lru.length := by
      apply List.length_filter_lt_length_iff_exists.mpr
      exact ⟨p, hp, by simp [hpd]⟩
    omega

/-- Writing an entry keeps every hash indexed. -/
theorem write_entry_indexed (c : RedisDNSCache) (d : String) (s : DomainStatus)
    (a : DomainAction) (now : Int) (q : Nat) (ttl : Int) (h : indexed c) :
    indexed (write_entry c d s a now q ttl) := by
  intro x hx
  simp only [write_entry] at hx ⊢
  rw [mem_zadd_fst]
  by_cases hxd : x = d
  · exact Or.inl hxd
  · right
    apply h
    simpa [Function.update, hxd] using hx

/-- `find_key` reports an entry only for a domain that has a hash. -/
theorem find_some_entries_key {c : RedisDNSCache} {d : String} {e : DomainEntry}
    (h : find_key c d = some e) : (c.entries d).isSome = true := by
  unfold find_key at h
  cases hd : c.entries d with
  | none => rw [hd] at h; exact Option.noConfusion h
  | some _ => rfl

/-- The insert path of `insertOrUpdate_key`. -/
theorem insertOrUpdate_of_none_key (c : RedisDNSCache) (d : String) (s : DomainStatus)
    (a : DomainAction) (now : Int) (h : find_key (cleanupExpired c now) d = none) :
    insertOrUpdate_key c d s a now = insert_key (cleanupExpired c now) d s a now := by
  unfold insertOrUpdate_key
  simp only [h]

/-- The update path of `insertOrUpdate_key`. -/
theorem insertOrUpdate_of_some_key (c : RedisDNSCache) (d : String) (s : DomainStatus)
    (a : DomainAction) (now : Int) (e : DomainEntry)
    (h : find_key (cleanupExpired c now) d = some e) :
    insertOrUpdate_key c d s a now = update_key (cleanupExpired c now) e d s a now := by
  unfold insertOrUpdate_key
  simp only [h]

/-- `insertOrUpdate_key` leaves the capacity and the TTL configuration alone. -/
theorem insertOrUpdate_config_key (c : RedisDNSCache) (d : String) (s : DomainStatus)
    (a : DomainAction) (now : Int) :
    (insertOrUpdate_key c d s a now).1.max_size = c.max_size ∧
      (insertOrUpdate_key c d s a now).1.ttl_config = c.ttl_config := by
  have hf := cleanupExpired_frame c now
  have hm := makeRoom_frame (cleanupExpired c now)
  cases hfind : find_key (cleanupExpired c now) d with
  | none =>
    rw [insertOrUpdate_of_none_key c d s a now hfind]
    simp only [insert_key, addToPendingReportSet_key, write_entry]
    exact ⟨by rw [hm.2.1, hf.2.2], by rw [hm.2.2, hf.2.1]⟩
  | some e =>
    rw [insertOrUpdate_of_some_key c d s a now e hfind]
    simp only [update_key, write_entry]
    exact ⟨hf.2.2, hf.2.1⟩

/-- One `insertOrUpdate_key` keeps the store indexed and within a capacity of at
least 1. -/
theorem insertOrUpdate_invariant_key (c : RedisDNSCache) (d : String) (s : DomainStatus)
    (a : DomainAction) (now : Int) (hK : 1 ≤ c.max_size) (hidx : indexed c)
    (hsize : size c ≤ c.max_size) :
    indexed (insertOrUpdate_key c d s a now).1 ∧
      size (insertOrUpdate_key c d s a now).1 ≤ c.max_size := by
  have hf := cleanupExpired_frame c now
  have hidx1 := cleanupExpired_indexed c now hidx
  have hsz1 := cleanupExpired_size_le c now
  cases hfind : find_key (cleanupExpired c now) d with
  | none =>
    rw [insertOrUpdate_of_none_key c d s a now hfind]
    simp only [insert_key, addToPendingReportSet_key]
    have hidx2 := makeRoom_indexed _ hidx1
    have hsz2 := makeRoom_size_lt (cleanupExpired c now) (by rw [hf.2.2]; exact hK)
      (by rw [hf.2.2]; omega)
    rw [hf.2.2] at hsz2
    constructor
    · exact write_entry_indexed _ d s a now _ _ hidx2
    · have := (zadd_length (makeRoom (cleanupExpired c now)).lru now d).1
      simp only [size, write_entry] at hsz2 hsize ⊢
      omega
  | some e =>
    rw [insertOrUpdate_of_some_key c d s a now e hfind]
    simp only [update_key]
    constructor
    · exact write_entry_indexed _ d s a now _ _ hidx1
    · have hm := hidx1 d (find_some_entries_key hfind)
      have := (zadd_length (cleanupExpired c now).lru now d).2 hm
      simp only [size, write_entry] at hsz1 hsize ⊢
      omega

/-- A run of `insertOrUpdate_key` calls keeps the store indexed and within a
capacity of at least 1. -/
theorem run_upserts_invariant_key (ops : List Upsert) :
    ∀ c : RedisDNSCache, 1 ≤ c.max_size → indexed c → size c ≤ c.max_size →
      indexed (run_upserts_key c ops) ∧ size (run_upserts_key c ops) ≤ c.max_size ∧
        (run_upserts_key c ops).max_size = c.max_size := by
  induction ops with
  | nil => intro c _ hidx hsize; exact ⟨hidx, hsize, rfl⟩
  | cons op ops ih =>
    intro c hK hidx hsize
    have h1 := insertOrUpdate_invariant_key c op.domain op.status op.action op.now hK hidx hsize
    have hcfg := (insertOrUpdate_config_key c op.domain op.status op.action op.now).1
    have := ih (insertOrUpdate_key c op.domain op.status op.action op.now).1
      (by rw [hcfg]; exact hK) h1.1 (by rw [hcfg]; exact h1.2)
    rw [hcfg] at this
    exact this

/-- On C strings (size bound): for every capacity `K ≥ 1` and every finite sequence of
`insertOrUpdate_key` calls (any domains, statuses, actions and times, non-decreasing
or not) applied to an initially empty store, `size() ≤ K` holds after every
call. -/
theorem size_bound_key (K : Nat) (hK : 1 ≤ K) (ops : List Upsert) (n : Nat) :
    size (run_upserts_key (empty_cache K) (ops.take n)) ≤ K :=
  (run_upserts_invariant_key (ops.take n) (empty_cache K) hK
    (fun _ hd => Bool.noConfusion hd) (Nat.zero_le _)).2.1

/-- In an index without repeated members, a member has one score. -/
theorem score_unique {lru : List (String × Int)} (hnd : (lru.map Prod.fst).Nodup)
    {d : String} {s1 s2 : Int} (h1 : (d, s1) ∈ lru) (h2 : (d, s2) ∈ lru) : s1 = s2 := by
  have := List.inj_on_of_nodup_map hnd h1 h2 rfl
  exact (Prod.mk.inj this).2

/-- The hash that `insertOrUpdate_key` leaves at its domain carries the status, the
action, the time and the ttl of the call. -/
theorem insertOrUpdate_entries_self_key (c : RedisDNSCache) (d : String) (s : DomainStatus)
    (a : DomainAction) (now : Int) :
    ∃ q, (insertOrUpdate_key c d s a now).1.entries d =
      some (full_hash d s a now q (getTTL c.ttl_config s a)) := by
  have hf := cleanupExpired_frame c now
  cases hfind : find_key (cleanupExpired c now) d with
  | none =>
    rw [insertOrUpdate_of_none_key c d s a now hfind, insert_entries_self_key, hf.2.1]
    exact ⟨1, rfl⟩
  | some e =>
    rw [insertOrUpdate_of_some_key c d s a now e hfind, update_entries_self_key, hf.2.1]
    exact ⟨_, rfl⟩

/-- A hash that does not pass the expiry test survives an `insertOrUpdate_key` of
another domain made below capacity. -/
theorem insertOrUpdate_entries_other_key (c : RedisDNSCache) (d x : String) (s : DomainStatus)
    (a : DomainAction) (now : Int) (h : EntryHash) (hx : x ≠ d)
    (hh : c.entries x = some h) (hexp : expired h now = false)
    (hroom : size c < c.max_size) :
    (insertOrUpdate_key c d s a now).1.entries x = some h := by
  have hk := cleanupExpired_keeps c now x (by
    intro h2 hh2
    rw [hh] at hh2
    injection hh2 with hh2
    rw [← hh2]; exact hexp)
  have hsz := cleanupExpired_size_le c now
  cases hfind : find_key (cleanupExpired c now) d with
  | none =>
    rw [insertOrUpdate_of_none_key c d s a now hfind]
    have hm : makeRoom (cleanupExpired c now) = cleanupExpired c now :=
      makeRoom_of_lt _ (by rw [hk.2.2.2]; omega)
    simp only [insert_key, addToPendingReportSet_key, write_entry, hm]
    simp [Function.update, hx, hk.1, hh]
  | some e =>
    rw [insertOrUpdate_of_some_key c d s a now e hfind]
    simp only [update_key, write_entry]
    simp [Function.update, hx, hk.1, hh]

/-- One `insertOrUpdate_key` lengthens the index by at most one. -/
theorem insertOrUpdate_size_le_key (c : RedisDNSCache) (d : String) (s : DomainStatus)
    (a : DomainAction) (now : Int) : size (insertOrUpdate_key c d s a now).1 ≤ size c + 1 := by
  have hsz := cleanupExpired_size_le c now
  cases hfind : find_key (cleanupExpired c now) d with
  | none =>
    rw [insertOrUpdate_of_none_key c d s a now hfind]
    have h1 := makeRoom_size_le (cleanupExpired c now)
    have h2 := (zadd_length (makeRoom (cleanupExpired c now)).lru now d).1
    simp only [insert_key, addToPendingReportSet_key, write_entry, size] at *
    omega
  | some e =>
    rw [insertOrUpdate_of_some_key c d s a now e hfind]
    have h2 := (zadd_length (cleanupExpired c now).lru now d).1
    simp only [update_key, write_entry, size] at *
    omega

/-- One marking step lengthens the index by at most one and leaves the
configuration alone. -/
theorem mark_pending_size_key (now : Int) (c : RedisDNSCache) (d : String) :
    size (mark_pending_key now c d) ≤ size c + 1 ∧
      (mark_pending_key now c d).max_size = c.max_size ∧
      (mark_pending_key now c d).ttl_config = c.ttl_config := by
  unfold mark_pending_key
  cases find_key c d with
  | none => exact ⟨Nat.le_succ _, rfl, rfl⟩
  | some e =>
    simp only
    split_ifs
    · exact ⟨insertOrUpdate_size_le_key _ _ _ _ _, (insertOrUpdate_config_key _ _ _ _ _).1,
        (insertOrUpdate_config_key _ _ _ _ _).2⟩
    · exact ⟨Nat.le_succ _, rfl, rfl⟩

/-- The marking loop lengthens the index by at most one per domain and leaves
the configuration alone. -/
theorem foldl_mark_pending_size_key (now : Int) (domains : List String) :
    ∀ c : RedisDNSCache,
      size (domains.foldl (mark_pending_key now) c) ≤ size c + domains.length ∧
        (domains.foldl (mark_pending_key now) c).max_size = c.max_size ∧
        (domains.foldl (mark_pending_key now) c).ttl_config = c.ttl_config := by
  induction domains with
  | nil => intro c; exact ⟨by simp, rfl, rfl⟩
  | cons d ds ih =>
    intro c
    have h1 := mark_pending_size_key now c d
    have h2 := ih (mark_pending_key now c d)
    simp only [List.foldl_cons, List.length_cons]
    exact ⟨by omega, by rw [h2.2.1, h1.2.1], by rw [h2.2.2, h1.2.2]⟩

/-- `handleArray_key` on an array of strings, with room for all of them and a ttl
that is not negative: it succeeds, every listed domain ends as `(FULL, action)`
with the ttl of `(FULL, action)`, and every hash of an unlisted domain that does
not pass the expiry test is as before. -/
theorem handleArray_strings_key (now : Int) (action : DomainAction) (ds : List String) :
    ∀ c : RedisDNSCache, size c + ds.length ≤ c.max_size →
      0 ≤ getTTL c.ttl_config DomainStatus.FULL action →
      (handleArray_key now action c (ds.map JsonItem.str)).2 = true ∧
        size (handleArray_key now action c (ds.map JsonItem.str)).1 ≤ size c + ds.length ∧
        (handleArray_key now action c (ds.map JsonItem.str)).1.max_size = c.max_size ∧
        (handleArray_key now action c (ds.map JsonItem.str)).1.ttl_config = c.ttl_config ∧
        (∀ p ∈ ds, ∃ q, (handleArray_key now action c (ds.map JsonItem.str)).1.entries p =
          some (full_hash p DomainStatus.FULL action now q
            (getTTL c.ttl_config DomainStatus.FULL action))) ∧
        (∀ x h, x ∉ ds → c.entries x = some h → expired h now = false →
          (handleArray_key now action c (ds.map JsonItem.str)).1.entries x = some h) := by
  induction ds with
  | nil =>
    intro c _ _
    simp only [List.map_nil, handleArray_key, List.length_nil, Nat.add_zero]
    exact ⟨trivial, le_refl _, trivial, trivial, fun p hp => absurd hp (List.not_mem_nil p),
      fun x h _ hh _ => hh⟩
  | cons d ds ih =>
    intro c hroom httl
    simp only [List.length_cons] at hroom
    have hcfg := insertOrUpdate_config_key c d DomainStatus.FULL action now
    have hsz := insertOrUpdate_size_le_key c d DomainStatus.FULL action now
    obtain ⟨r1, r2, r3, r4, r5, r6⟩ := ih (insertOrUpdate_key c d DomainStatus.FULL action now).1
      (by rw [hcfg.1]; omega) (by rw [hcfg.2]; exact httl)
    simp only [List.map_cons, handleArray_key, List.length_cons]
    rw [hcfg.2] at r5
    refine ⟨r1, by omega, by rw [r3, hcfg.1], by rw [r4, hcfg.2], ?_, ?_⟩
    · intro p hp
      by_cases hpds : p ∈ ds
      · exact r5 p hpds
      · have hpd : p = d := by
          rcases List.mem_cons.mp hp with h | h
          · exact h
          · exact absurd h hpds
        subst hpd
        obtain ⟨q, hq⟩ := insertOrUpdate_entries_self_key c p DomainStatus.FULL action now
        refine ⟨q, r6 p _ hpds hq ?_⟩
        simp only [expired, full_hash, decide_eq_false_iff_not]
        omega
    · intro x h hx hh hexp
      simp only [List.mem_cons, not_or] at hx
      apply r6 x h hx.2 _ hexp
      exact insertOrUpdate_entries_other_key c d x DomainStatus.FULL action now h hx.1 hh hexp
        (by omega)

/-- `reportDomains_key` on a non-empty batch, answered with a 2xx code and a
parseable body: the marking loop, then `permitted`, then `dropped` when
`permitted` went through. -/
theorem reportDomains_success_unfold_key (c : RedisDNSCache) (domains : List String)
    (code : Int) (reply : ReplyJson) (now : Int) (hne : domains ≠ [])
    (h2xx : 200 ≤ code ∧ code < 300) :
    reportDomains_key c domains (PostOutcome.response code (some reply)) now =
      match handleArray_key now DomainAction.PERMIT (domains.foldl (mark_pending_key now) c)
          reply.permitted with
      | (c2, false) => (c2, false)
      | (c2, true) => handleArray_key now DomainAction.DROP c2 reply.dropped := by
  have hemp : domains.isEmpty = false := by
    cases domains with
    | nil => exact absurd rfl hne
    | cons _ _ => rfl
  unfold reportDomains_key
  simp only [hemp, Bool.false_eq_true, if_false]
  rw [if_neg (by omega)]

/-- On C strings (verdict application): for every cache with the default TTL
configuration and every non-empty batch, when the POST is answered 2xx with the
reply `{"permitted":[p...], "dropped":[d...]}` and the LRU index has room for
every domain that the call may insert (so that `makeRoom` evicts nothing),
`reportDomains_key` returns true, every `p` of the permitted array that is not also
in the dropped array has an entry with status FULL, action PERMIT and ttl 86400,
and every `d` of the dropped array has an entry with status FULL, action DROP and
ttl 3600. -/
theorem reportDomains_verdicts_key (c : RedisDNSCache) (domains permitted dropped : List String)
    (code : Int) (now : Int) (hne : domains ≠ []) (h2xx : 200 ≤ code ∧ code < 300)
    (hcfg : c.ttl_config = default_ttl_config)
    (hroom : size c + domains.length + permitted.length + dropped.length ≤ c.max_size) :
    (reportDomains_key c domains (PostOutcome.response code
        (some ⟨permitted.map JsonItem.str, dropped.map JsonItem.str⟩)) now).2 = true ∧
      (∀ p ∈ permitted, p ∉ dropped → ∃ q,
        (reportDomains_key c domains (PostOutcome.response code
          (some ⟨permitted.map JsonItem.str, dropped.map JsonItem.str⟩)) now).1.entries p =
          some (full_hash p DomainStatus.FULL DomainAction.PERMIT now q 86400)) ∧
      (∀ d ∈ dropped, ∃ q,
        (reportDomains_key c domains (PostOutcome.response code
          (some ⟨permitted.map JsonItem.str, dropped.map JsonItem.str⟩)) now).1.entries d =
          some (full_hash d DomainStatus.FULL DomainAction.DROP now q 3600)) := by
  rw [reportDomains_success_unfold_key c domains code _ now hne h2xx]
  simp only
  obtain ⟨m1, m2, m3⟩ := foldl_mark_pending_size_key now domains c
  obtain ⟨p1, p2, p3, p4, p5, _⟩ := handleArray_strings_key now DomainAction.PERMIT permitted
    (domains.foldl (mark_pending_key now) c) (by rw [m2]; omega)
    (by rw [m3, hcfg]; decide)
  rw [m3, hcfg] at p5
  cases hperm : handleArray_key now DomainAction.PERMIT (domains.foldl (mark_pending_key now) c)
      (permitted.map JsonItem.str) with
  | mk c2 ok =>
    rw [hperm] at p1 p2 p3 p4 p5
    simp only at p1 p2 p3 p4 p5
    subst p1
    simp only
    obtain ⟨d1, _, _, _, d5, d6⟩ := handleArray_strings_key now DomainAction.DROP dropped c2
      (by rw [p3, m2]; omega) (by rw [p4, m3, hcfg]; decide)
    rw [p4, m3, hcfg] at d5
    refine ⟨d1, ?_, ?_⟩
    · intro p hp hpd
      obtain ⟨q, hq⟩ := p5 p hp
      refine ⟨q, d6 p _ hpd hq ?_⟩
      simp [expired, full_hash, getTTL]
    · intro d hd
      exact d5 d hd

/-- A sweep step does nothing on a key whose hash does not pass the expiry test. -/
theorem cleanup_key_of_not_expired (now : Int) (c : RedisDNSCache) (k : String)
    (h : hash_expired c now k = false) : cleanup_key now c k = c := by
  unfold hash_expired at h
  unfold cleanup_key
  cases hek : c.entries k with
  | none => rfl
  | some e => rw [hek] at h; simp only at h; simp [h]

/-- In a store without expired hashes the sweep does nothing. -/
theorem cleanupExpired_of_fresh (c : RedisDNSCache) (now : Int) (h : fresh c now) :
    cleanupExpired c now = c := by
  unfold cleanupExpired
  generalize zrange_all c.lru = keys
  induction keys with
  | nil => rfl
  | cons k ks ih =>
    have hk : hash_expired c now k = false := by
      unfold hash_expired
      cases hek : c.entries k with
      | none => rfl
      | some e => exact h k e hek
    rw [List.foldl_cons, cleanup_key_of_not_expired now c k hk]
    exact ih

/-- The marking step on a domain that `find_key` reports as `FAKE`, in a store
without expired hashes: the hash is rewritten as `PEND`, nothing else changes. -/
theorem mark_pending_fake_key (now : Int) (c : RedisDNSCache) (d : String) (e : DomainEntry)
    (hfresh : fresh c now) (hfind : find_key c d = some e) (hfake : e.status = DomainStatus.FAKE) :
    (mark_pending_key now c d).entries = Function.update c.entries d
        (some (full_hash d DomainStatus.PEND e.action now e.query_count
          (getTTL c.ttl_config DomainStatus.PEND e.action))) ∧
      (mark_pending_key now c d).pending = c.pending ∧
      (mark_pending_key now c d).ttl_config = c.ttl_config := by
  have hlt := find_query_count_lt_key c d e hfind
  have hclean := cleanupExpired_of_fresh c now hfresh
  have hupd : insertOrUpdate_key c d DomainStatus.PEND e.action now =
      update_key c e d DomainStatus.PEND e.action now := by
    have := insertOrUpdate_of_some_key c d DomainStatus.PEND e.action now e (by rw [hclean]; exact hfind)
    rw [hclean] at this
    exact this
  unfold mark_pending_key
  simp only [hfind, hfake, if_true]
  rw [hupd]
  simp only [update_key, write_entry, hfake]
  refine ⟨?_, trivial, trivial⟩
  rw [if_neg (by decide), Nat.mod_eq_of_lt hlt]

/-- The marking step on a domain that `find_key` does not report as `FAKE` does
nothing. -/
theorem mark_pending_skip_key (now : Int) (c : RedisDNSCache) (d : String)
    (h : ∀ e, find_key c d = some e → e.status ≠ DomainStatus.FAKE) :
    mark_pending_key now c d = c := by
  unfold mark_pending_key
  cases hfind : find_key c d with
  | none => rfl
  | some e => simp [h e hfind]

/-- The marking loop of `reportDomains_key` in a store without expired hashes, with a
`PEND` ttl that is not negative: the hashes afterwards are `mark_result`, the
pending set and the configuration are as before, and no hash is expired. -/
theorem foldl_mark_pending_spec_key (now : Int) (domains : List String) :
    ∀ c : RedisDNSCache, fresh c now → 0 ≤ c.ttl_config.pend →
      (∀ x, (domains.foldl (mark_pending_key now) c).entries x = mark_result c now domains x) ∧
        (domains.foldl (mark_pending_key now) c).pending = c.pending ∧
        (domains.foldl (mark_pending_key now) c).ttl_config = c.ttl_config := by
  induction domains with
  | nil =>
    intro c _ _
    refine ⟨?_, rfl, rfl⟩
    intro x
    unfold mark_result
    cases find_key c x <;> simp
  | cons d ds ih =>
    intro c hfresh httl
    simp only [List.foldl_cons]
    by_cases hfk : ∃ e, find_key c d = some e ∧ e.status = DomainStatus.FAKE
    · obtain ⟨e, hfind, hfake⟩ := hfk
      obtain ⟨h1, h2, h3⟩ := mark_pending_fake_key now c d e hfresh hfind hfake
      have hfresh1 : fresh (mark_pending_key now c d) now := by
        intro x h hx
        rw [h1] at hx
        by_cases hxd : x = d
        · subst hxd
          simp only [Function.update_same, Option.some.injEq] at hx
          rw [← hx]
          simp only [expired, full_hash, getTTL, decide_eq_false_iff_not]
          omega
        · rw [Function.update_noteq hxd] at hx
          exact hfresh x h hx
      obtain ⟨r1, r2, r3⟩ := ih (mark_pending_key now c d) hfresh1 (by rw [h3]; exact httl)
      refine ⟨?_, by rw [r2, h2], by rw [r3, h3]⟩
      intro x
      rw [r1 x]
      unfold mark_result
      by_cases hxd : x = d
      · subst hxd
        have hf1 : find_key (mark_pending_key now c x) x =
            some { domain := x, status := DomainStatus.PEND, action := e.action,
                   query_count := e.query_count % 2 ^ 32, last_updated := now,
                   last_accessed := now } := by
          unfold find_key
          rw [h1]
          simp [full_hash]
        rw [hf1, hfind]
        simp only [hfake, List.mem_cons, true_or, and_self, if_true]
        rw [if_neg (by simp), h1]
        simp
      · have hf1 : find_key (mark_pending_key now c d) x = find_key c x :=
          find_congr_key _ _ x (by rw [h1, Function.update_noteq hxd])
        rw [hf1, h3, h1, Function.update_noteq hxd]
        cases find_key c x with
        | none => rfl
        | some ex => simp [hxd]
    · have hskip : mark_pending_key now c d = c :=
        mark_pending_skip_key now c d (fun e he hs => hfk ⟨e, he, hs⟩)
      rw [hskip]
      obtain ⟨r1, r2, r3⟩ := ih c hfresh httl
      refine ⟨?_, r2, r3⟩
      intro x
      rw [r1 x]
      unfold mark_result
      cases hfx : find_key c x with
      | none => rfl
      | some ex =>
        simp only [List.mem_cons]
        by_cases hxd : x = d
        · subst hxd
          have : ¬ ex.status = DomainStatus.FAKE := fun hs => hfk ⟨ex, hfx, hs⟩
          simp [this]
        · simp [hxd]

/-- The marking loop does nothing when no submitted domain is reported as `FAKE`. -/
theorem foldl_mark_pending_skip_key (now : Int) (domains : List String) (c : RedisDNSCache)
    (h : ∀ d ∈ domains, ∀ e, find_key c d = some e → e.status ≠ DomainStatus.FAKE) :
    domains.foldl (mark_pending_key now) c = c := by
  induction domains with
  | nil => rfl
  | cons d ds ih =>
    rw [List.foldl_cons, mark_pending_skip_key now c d (h d (by simp))]
    exact ih (fun x hx => h x (by simp [hx]))

/-- On C strings (FAKE to PEND on success): for every cache with no expired entry (and a
PEND ttl that is not negative, as the default 600 is) and every non-empty batch,
when the POST is answered 2xx with a JSON object that lists no permitted and no
dropped domains, `reportDomains_key` returns true; every submitted domain whose
cached status was FAKE ends with status PEND, its previous action and its
previous `query_count` (timestamps `now`, ttl of PEND); submitted domains that
were absent or not FAKE, and all other entries, are unchanged, and so is the
pending set. -/
theorem reportDomains_marks_pending_key (c : RedisDNSCache) (domains : List String)
    (code : Int) (now : Int) (hne : domains ≠ []) (h2xx : 200 ≤ code ∧ code < 300)
    (hfresh : fresh c now) (httl : 0 ≤ c.ttl_config.pend) :
    (reportDomains_key c domains (PostOutcome.response code (some ⟨[], []⟩)) now).2 = true ∧
      (∀ d ∈ domains, ∀ e, find_key c d = some e → e.status = DomainStatus.FAKE →
        (reportDomains_key c domains (PostOutcome.response code (some ⟨[], []⟩)) now).1.entries d =
            some (full_hash d DomainStatus.PEND e.action now e.query_count
              (getTTL c.ttl_config DomainStatus.PEND e.action)) ∧
          find_key (reportDomains_key c domains (PostOutcome.response code (some ⟨[], []⟩)) now).1 d =
            some { domain := d, status := DomainStatus.PEND, action := e.action,
                   query_count := e.query_count, last_updated := now,
                   last_accessed := now }) ∧
      (∀ x, (x ∉ domains ∨ ∀ e, find_key c x = some e → e.status ≠ DomainStatus.FAKE) →
        (reportDomains_key c domains (PostOutcome.response code (some ⟨[], []⟩)) now).1.entries x =
          c.entries x) ∧
      (reportDomains_key c domains (PostOutcome.response code (some ⟨[], []⟩)) now).1.pending =
        c.pending := by
  obtain ⟨m1, m2, _⟩ := foldl_mark_pending_spec_key now domains c hfresh httl
  have hr : reportDomains_key c domains (PostOutcome.response code (some ⟨[], []⟩)) now =
      (domains.foldl (mark_pending_key now) c, true) := by
    rw [reportDomains_success_unfold_key c domains code _ now hne h2xx]
    simp [handleArray_key]
  rw [hr]
  refine ⟨rfl, ?_, ?_, m2⟩
  · intro d hd e hfind hfake
    have hent : (domains.foldl (mark_pending_key now) c).entries d =
        some (full_hash d DomainStatus.PEND e.action now e.query_count
          (getTTL c.ttl_config DomainStatus.PEND e.action)) := by
      rw [m1 d]
      unfold mark_result
      simp [hfind, hd, hfake]
    refine ⟨hent, ?_⟩
    unfold find_key
    simp only [hent, full_hash, Option.getD_some,
      Nat.mod_eq_of_lt (find_query_count_lt_key c d e hfind)]
  · intro x hx
    simp only
    rw [m1 x]
    unfold mark_result
    cases hfx : find_key c x with
    | none => rfl
    | some e =>
      simp only
      rcases hx with hx | hx
      · simp [hx]
      · simp [hx e hfx]

/-- On C strings (failure of a submission): for every cache and non-empty
batch, on a transport error and on an HTTP status below 200 or at least 300,
`reportDomains_key` returns false and the cache is exactly as before. On a 2xx reply
whose body is not parseable JSON it returns false too, but the marking of the
submitted `FAKE` domains as `PEND` has already been applied: the cache is as
before only if no submitted domain was `FAKE`; in a cache with no expired entry
the submitted `FAKE` domains are `PEND` and everything else, the pending set
included, is as before. -/
theorem reportDomains_failure_key (c : RedisDNSCache) (domains : List String) (now : Int)
    (hne : domains ≠ []) :
    reportDomains_key c domains PostOutcome.transport_error now = (c, false) ∧
      (∀ (code : Int) (body : Option ReplyJson), code < 200 ∨ 300 ≤ code →
        reportDomains_key c domains (PostOutcome.response code body) now = (c, false)) ∧
      (∀ code : Int, 200 ≤ code ∧ code < 300 →
        (reportDomains_key c domains (PostOutcome.response code none) now).2 = false ∧
        ((∀ d ∈ domains, ∀ e, find_key c d = some e → e.status ≠ DomainStatus.FAKE) →
          (reportDomains_key c domains (PostOutcome.response code none) now).1 = c) ∧
        (fresh c now → 0 ≤ c.ttl_config.pend →
          (∀ x, (reportDomains_key c domains (PostOutcome.response code none) now).1.entries x =
            mark_result c now domains x) ∧
          (reportDomains_key c domains (PostOutcome.response code none) now).1.pending =
            c.pending)) := by
  have hemp : domains.isEmpty = false := by
    cases domains with
    | nil => exact absurd rfl hne
    | cons _ _ => rfl
  refine ⟨?_, ?_, ?_⟩
  · simp [reportDomains_key, hemp]
  · intro code body hcode
    unfold reportDomains_key
    simp only [hemp, Bool.false_eq_true, if_false]
    rw [if_pos (by omega)]
  · intro code h2xx
    have hr : reportDomains_key c domains (PostOutcome.response code none) now =
        (domains.foldl (mark_pending_key now) c, false) := by
      unfold reportDomains_key
      simp only [hemp, Bool.false_eq_true, if_false]
      rw [if_neg (by omega)]
    rw [hr]
    refine ⟨rfl, ?_, ?_⟩
    · intro hskip
      exact foldl_mark_pending_skip_key now domains c hskip
    · intro hfresh httl
      obtain ⟨m1, m2, _⟩ := foldl_mark_pending_spec_key now domains c hfresh httl
      exact ⟨m1, m2⟩

/-! ## The cache methods on domain names

Each method is its `..._key` form on the C string of its argument. -/

/-- Cutting a C string again changes nothing. -/
theorem c_str_idem (d : String) : c_str (c_str d) = c_str d := by
  unfold c_str
  simp only [String.toList]
  rw [List.takeWhile_idem]

/-- A name without NUL is its own C string, for instance every C string. -/
theorem c_str_of_c_str (d k : String) (h : c_str d = k) : c_str k = k := by
  rw [← h, c_str_idem]

/-- The method `insert` is `insert_key` on the C string of the domain. -/
theorem insert_eq_key (c : RedisDNSCache) (d : String) (s : DomainStatus)
    (a : DomainAction) (now : Int) :
    insert c d s a now = insert_key c (c_str d) s a now := rfl

/-- The method `update` is `update_key` on the C string of the domain. -/
theorem update_eq_key (c : RedisDNSCache) (e : DomainEntry) (d : String) (s : DomainStatus)
    (a : DomainAction) (now : Int) :
    update c e d s a now = update_key c e (c_str d) s a now := rfl

/-- The method `insertOrUpdate` is `insertOrUpdate_key` on the C string of the
domain. -/
theorem insertOrUpdate_eq_key (c : RedisDNSCache) (d : String) (s : DomainStatus)
    (a : DomainAction) (now : Int) :
    insertOrUpdate c d s a now = insertOrUpdate_key c (c_str d) s a now := rfl

/-- The method `remove` is `remove_key` on the C string of the domain. -/
theorem remove_eq_key (c : RedisDNSCache) (d : String) :
    remove c d = remove_key c (c_str d) := rfl

/-- The method `resetQueryCount` is `resetQueryCount_key` on the C string of the
domain. -/
theorem resetQueryCount_eq_key (c : RedisDNSCache) (d : String) :
    resetQueryCount c d = resetQueryCount_key c (c_str d) := rfl

/-- The marking step is `mark_pending_key` on the C string of the domain. -/
theorem mark_pending_eq_key (now : Int) (c : RedisDNSCache) (d : String) :
    mark_pending now c d = mark_pending_key now c (c_str d) := rfl

/-- The marking loop is the loop of `mark_pending_key` over the C strings. -/
theorem foldl_mark_pending_eq_key (now : Int) (domains : List String) (c : RedisDNSCache) :
    domains.foldl (mark_pending now) c =
      (domains.map c_str).foldl (mark_pending_key now) c := by
  rw [List.foldl_map]
  rfl

/-- The verdict loop is `handleArray_key` over the cut strings. -/
theorem handleArray_eq_key (now : Int) (action : DomainAction) (items : List JsonItem) :
    ∀ c : RedisDNSCache,
      handleArray now action c items = handleArray_key now action c (items.map cut_item) := by
  induction items with
  | nil => intro c; rfl
  | cons item rest ih =>
    intro c
    cases item with
    | str d =>
      rw [handleArray, List.map_cons]
      simp only [cut_item]
      rw [handleArray_key, ih]
      rfl
    | other => rfl

/-- The method `reportDomains` is `reportDomains_key` on the cut names and the
cut reply. -/
theorem reportDomains_eq_key (c : RedisDNSCache) (domains : List String)
    (outcome : PostOutcome) (now : Int) :
    reportDomains c domains outcome now =
      reportDomains_key c (domains.map c_str) (cut_outcome outcome) now := by
  unfold reportDomains reportDomains_key
  cases domains with
  | nil => rfl
  | cons d ds =>
    simp only [List.isEmpty_cons, List.map_cons, Bool.false_eq_true, if_false]
    cases outcome with
    | transport_error => rfl
    | response code body =>
      cases body with
      | none =>
        simp only [cut_outcome]
        split
        · rfl
        · rw [← List.map_cons, ← foldl_mark_pending_eq_key]
      | some reply =>
        simp only [cut_outcome]
        split
        · rfl
        · rw [← List.map_cons, ← foldl_mark_pending_eq_key, ← handleArray_eq_key]
          cases handleArray now DomainAction.PERMIT
              ((d :: ds).foldl (mark_pending now) c) reply.permitted with
          | mk c2 ok =>
            cases ok with
            | false => rfl
            | true =>
              simp only
              rw [handleArray_eq_key]

/-- A sequence of `insertOrUpdate` calls is the sequence of `insertOrUpdate_key`
steps on the cut names. -/
theorem run_upserts_eq_key (c : RedisDNSCache) (ops : List Upsert) :
    run_upserts c ops = run_upserts_key c (ops.map cut_op) := by
  unfold run_upserts run_upserts_key
  rw [List.foldl_map]
  rfl

/-- A name without a NUL byte is its own C string. -/
theorem c_str_of_no_nul (d : String) (h : Char.ofNat 0 ∉ d.toList) : c_str d = d := by
  unfold c_str
  have hall : d.toList.takeWhile (fun ch => decide (ch ≠ Char.ofNat 0)) = d.toList := by
    rw [List.takeWhile_eq_self_iff]
    intro ch hch
    simp only [decide_eq_true_eq]
    intro heq
    exact h (heq ▸ hch)
  rw [hall]
  rfl

/-- C10 as amended (observation of a known domain): if `d` has an entry `e` (the
hash `h` stored under its C string), not expired at `now`, then
`insertOrUpdate d s a` at `now` leaves `d` with status `s`, action `a`,
`last_updated = last_accessed = now`, the ttl of `(s, a)` and
`query_count = old + 1` modulo 2^32 if the stored status equals `s` and `= old`
otherwise, and leaves the pending set unchanged; a second call with the same
`s`, made before that ttl elapses, yields `query_count + 1` modulo 2^32, which
is strictly larger unless the counter stood at 4294967295; and a call that
changes the status leaves `query_count` as it was. -/
theorem insertOrUpdate_known_domain (c : RedisDNSCache) (d : String) (s : DomainStatus)
    (a : DomainAction) (now : Int) (h : EntryHash) (e : DomainEntry)
    (hh : c.entries (c_str d) = some h) (hfind : find c d = some e)
    (hne : expired h now = false) :
    (insertOrUpdate c d s a now).1.entries (c_str d) =
        some (full_hash (c_str d) s a now
          (if e.status = s then (e.query_count + 1) % 2 ^ 32 else e.query_count)
          (getTTL c.ttl_config s a)) ∧
      (insertOrUpdate c d s a now).1.pending = c.pending ∧
      (∀ now2 : Int, now2 ≤ now + getTTL c.ttl_config s a →
        (insertOrUpdate (insertOrUpdate c d s a now).1 d s a now2).1.entries (c_str d) =
          some (full_hash (c_str d) s a now2
            (((if e.status = s then (e.query_count + 1) % 2 ^ 32 else e.query_count) + 1)
              % 2 ^ 32)
            (getTTL c.ttl_config s a)) ∧
        ((if e.status = s then (e.query_count + 1) % 2 ^ 32 else e.query_count) < 4294967295 →
          (if e.status = s then (e.query_count + 1) % 2 ^ 32 else e.query_count) <
            ((if e.status = s then (e.query_count + 1) % 2 ^ 32 else e.query_count) + 1)
              % 2 ^ 32) ∧
        (insertOrUpdate (insertOrUpdate c d s a now).1 d s a now2).1.pending = c.pending) ∧
      (e.status ≠ s →
        (find (insertOrUpdate c d s a now).1 d).map DomainEntry.query_count =
          some e.query_count) :=
  insertOrUpdate_known_domain_key c (c_str d) s a now h e hh hfind hne

/-- C10, counterexample to the strict increase: starting from `wrap_store`, the
first `insertOrUpdate d FAKE DROP` brings `query_count` to 4294967295 and the
second one, made with the same status before the ttl elapses, brings it to 0. -/
theorem query_count_wraps_counterexample :
    (find (insertOrUpdate wrap_store "d" DomainStatus.FAKE DomainAction.DROP 10).1 "d").map
        DomainEntry.query_count = some 4294967295 ∧
      (find (insertOrUpdate
          (insertOrUpdate wrap_store "d" DomainStatus.FAKE DomainAction.DROP 10).1
          "d" DomainStatus.FAKE DomainAction.DROP 20).1 "d").map
        DomainEntry.query_count = some 0 := by
  decide

/-- Witness for C10: the first observation of `d` in `wrap_store`. -/
theorem insertOrUpdate_known_domain_witness :
    (insertOrUpdate wrap_store "d" DomainStatus.FAKE DomainAction.DROP 10).1.entries
        (c_str "d") =
        some (full_hash (c_str "d") DomainStatus.FAKE DomainAction.DROP 10 4294967295 300) ∧
      (insertOrUpdate wrap_store "d" DomainStatus.FAKE DomainAction.DROP 10).1.pending = [] :=
  ⟨(insertOrUpdate_known_domain wrap_store "d" DomainStatus.FAKE DomainAction.DROP 10
      (full_hash "d" DomainStatus.FAKE DomainAction.DROP 0 4294967294 300)
      { domain := "d", status := DomainStatus.FAKE, action := DomainAction.DROP,
        query_count := 4294967294, last_updated := 0, last_accessed := 0 }
      (by decide) (by decide) (by decide)).1,
   (insertOrUpdate_known_domain wrap_store "d" DomainStatus.FAKE DomainAction.DROP 10
      (full_hash "d" DomainStatus.FAKE DomainAction.DROP 0 4294967294 300)
      { domain := "d", status := DomainStatus.FAKE, action := DomainAction.DROP,
        query_count := 4294967294, last_updated := 0, last_accessed := 0 }
      (by decide) (by decide) (by decide)).2.1⟩

/-- C11 (TTL determinism): with the default configuration, the ttl that `insert`
and `update` write (into the hash of the domain's C string) is the value of the
TTL table at the `(status, action)` being written, whatever the store, the
domain, the time and the previous entry: 300 for FAKE (any action), 600 for PEND
(any action), 86400 for FULL with PERMIT and 3600 for FULL with DROP. -/
theorem ttl_written_is_table (c : RedisDNSCache) (e : DomainEntry) (d : String)
    (s : DomainStatus) (a : DomainAction) (now : Int)
    (hcfg : c.ttl_config = default_ttl_config) :
    ((insert c d s a now).1.entries (c_str d)).bind EntryHash.ttl = some (ttl_table s a) ∧
      ((update c e d s a now).1.entries (c_str d)).bind EntryHash.ttl =
        some (ttl_table s a) ∧
      ttl_table DomainStatus.FAKE a = 300 ∧ ttl_table DomainStatus.PEND a = 600 ∧
      ttl_table DomainStatus.FULL DomainAction.PERMIT = 86400 ∧
      ttl_table DomainStatus.FULL DomainAction.DROP = 3600 :=
  ttl_written_is_table_key c e (c_str d) s a now hcfg

/-- Witness for C11: a `(FULL, DROP)` insert into the empty store. -/
theorem ttl_written_is_table_witness :
    ((insert (empty_cache 10) "d" DomainStatus.FULL DomainAction.DROP 7).1.entries
      (c_str "d")).bind EntryHash.ttl = some 3600 :=
  (ttl_written_is_table (empty_cache 10)
    { domain := "d", status := DomainStatus.FAKE, action := DomainAction.DROP,
      query_count := 1, last_updated := 0, last_accessed := 0 }
    "d" DomainStatus.FULL DomainAction.DROP 7 rfl).1

/-- C13, the code at the failing input: `d` is known as `(FULL, PERMIT)` with 7
queries; `insert("d", FAKE, DROP)` reports success and replaces the entry by a
fresh `(FAKE, DROP)` one with `query_count` 1. -/
theorem insert_overwrites_existing :
    find known_store "d" =
        some { domain := "d", status := DomainStatus.FULL, action := DomainAction.PERMIT,
               query_count := 7, last_updated := 40, last_accessed := 40 } ∧
      (insert known_store "d" DomainStatus.FAKE DomainAction.DROP 50).2 = true ∧
      find (insert known_store "d" DomainStatus.FAKE DomainAction.DROP 50).1 "d" =
        some { domain := "d", status := DomainStatus.FAKE, action := DomainAction.DROP,
               query_count := 1, last_updated := 50, last_accessed := 50 } := by
  decide

/-- C14 (size bound): for every capacity `K ≥ 1` and every finite sequence of
`insertOrUpdate` calls (any domains, statuses, actions and times) applied to the
empty store of capacity `K`, `size() ≤ K` holds after every call. -/
theorem size_bound (K : Nat) (hK : 1 ≤ K) (ops : List Upsert) (n : Nat) :
    size (run_upserts (empty_cache K) (ops.take n)) ≤ K := by
  rw [run_upserts_eq_key, List.map_take]
  exact size_bound_key K hK (ops.map cut_op) n

/-- Witness for C14: three observations in a store of capacity 2. -/
theorem size_bound_witness :
    size (run_upserts (empty_cache 2)
      ([⟨"a", DomainStatus.FAKE, DomainAction.DROP, 1⟩,
        ⟨"b", DomainStatus.FAKE, DomainAction.DROP, 2⟩,
        ⟨"c", DomainStatus.FAKE, DomainAction.DROP, 3⟩].take 3)) ≤ 2 :=
  size_bound 2 (by decide) _ 3

/-- C16 (TTL sweep): for every store and time `now`, `cleanupExpired` removes from
both the entry table and the LRU index exactly the indexed domains whose hash has
`last_updated + ttl < now` (strictly), and leaves every other hash (one with
`last_updated + ttl = now` included) with all its members, every other index
pair with its score, and the pending set unchanged; `insertOrUpdate` performs
this sweep before it looks the domain up, so that a domain that is swept is
inserted afresh (with `query_count` 1). -/
theorem cleanupExpired_sweep (c : RedisDNSCache) (now : Int) :
    (∀ d, (cleanupExpired c now).entries d =
        if swept c now d = true then none else c.entries d) ∧
      (cleanupExpired c now).lru = c.lru.filter (fun p => !swept c now p.1) ∧
      (cleanupExpired c now).pending = c.pending ∧
      (∀ d, swept c now d = true ↔
        d ∈ c.lru.map Prod.fst ∧ ∃ h, c.entries d = some h ∧ expired h now = true) ∧
      (∀ (h : EntryHash) (u t : Int), h.ttl = some t → h.last_updated = some u →
        (expired h now = true ↔ u + t < now)) ∧
      (∀ d s a, insertOrUpdate c d s a now =
        match find (cleanupExpired c now) d with
        | none => insert (cleanupExpired c now) d s a now
        | some e => update (cleanupExpired c now) e d s a now) ∧
      (∀ d s a, swept c now (c_str d) = true →
        (insertOrUpdate c d s a now).1.entries (c_str d) =
          some (full_hash (c_str d) s a now 1 (getTTL c.ttl_config s a))) := by
  obtain ⟨h1, h2, h3, h4, h5, _, h7⟩ := cleanupExpired_sweep_key c now
  exact ⟨h1, h2, h3, h4, h5, fun _ _ _ => rfl, fun d s a hsw => h7 (c_str d) s a hsw⟩

/-- C17, counterexample: in the empty store `d` has no hash; after
`resetQueryCount("d")` the key `dns:entries:d` exists, holding the single member
`query_count = 0`; it is not in the LRU index (so neither the sweep nor the
eviction will ever delete it) and `find("d")` cannot decode it. -/
theorem resetQueryCount_creates_hash_counterexample :
    (empty_cache 10).entries "d" = none ∧
      (resetQueryCount (empty_cache 10) "d").entries "d" =
        some { domain := none, status := none, action := none, last_updated := none,
               last_accessed := none, query_count := some 0, ttl := none } ∧
      (resetQueryCount (empty_cache 10) "d").lru = [] ∧
      find (resetQueryCount (empty_cache 10) "d") "d" = none := by
  decide

/-- C17 as amended (frame of `resetQueryCount`): for every store and every domain
`d`, whose hash is the one stored under its C string: when `d` has a hash,
`resetQueryCount(d)` sets `query_count` of that hash to 0 and keeps its other
members, the set of domains that have a hash is as before, and `find(d)`, when it
returned an entry, returns the same entry with `query_count` 0; when `d` has no
hash, the call creates one that holds the single member `query_count = 0`, which
`find(d)` cannot decode. In both cases every other hash, the LRU index and the
pending set are unchanged. -/
theorem resetQueryCount_frame (c : RedisDNSCache) (d : String) :
    (∀ h, c.entries (c_str d) = some h →
      (resetQueryCount c d).entries (c_str d) = some { h with query_count := some 0 } ∧
      (∀ x, ((resetQueryCount c d).entries x).isSome = (c.entries x).isSome) ∧
      (∀ e, find c d = some e →
        find (resetQueryCount c d) d = some { e with query_count := 0 })) ∧
    (c.entries (c_str d) = none →
      (resetQueryCount c d).entries (c_str d) =
        some { domain := none, status := none, action := none, last_updated := none,
               last_accessed := none, query_count := some 0, ttl := none } ∧
      find c d = none ∧ find (resetQueryCount c d) d = none) ∧
    (∀ x, x ≠ c_str d → (resetQueryCount c d).entries x = c.entries x) ∧
    (resetQueryCount c d).lru = c.lru ∧
    (resetQueryCount c d).pending = c.pending := by
  refine ⟨?_, ?_, ?_, rfl, rfl⟩
  · intro h hh
    obtain ⟨h1, _, h3, _, _, h6⟩ := resetQueryCount_frame_key c (c_str d) h hh
    exact ⟨h1, h3, h6⟩
  · intro hnone
    have hnew : (resetQueryCount c d).entries (c_str d) =
        some { domain := none, status := none, action := none, last_updated := none,
               last_accessed := none, query_count := some 0, ttl := none } := by
      simp [resetQueryCount, hset_query_count_zero, hnone]
    refine ⟨hnew, ?_, ?_⟩
    · simp [find, find_key, hnone]
    · simp [find, find_key, hnew]
  · intro x hx
    simp [resetQueryCount, Function.update, hx]

/-- Witness for C17: resetting the counter of `d` in `known_store`. -/
theorem resetQueryCount_frame_witness :
    (resetQueryCount known_store "d").entries (c_str "d") =
      some (full_hash "d" DomainStatus.FULL DomainAction.PERMIT 40 0 86400) :=
  ((resetQueryCount_frame known_store "d").1
    (full_hash "d" DomainStatus.FULL DomainAction.PERMIT 40 7 86400) (by decide)).1

/-- The hash that `insertOrUpdate` leaves under the C string of its domain
carries the status, the action, the time and the ttl of the call. -/
theorem insertOrUpdate_entries_self (c : RedisDNSCache) (d : String) (s : DomainStatus)
    (a : DomainAction) (now : Int) :
    ∃ q, (insertOrUpdate c d s a now).1.entries (c_str d) =
      some (full_hash (c_str d) s a now q (getTTL c.ttl_config s a)) :=
  insertOrUpdate_entries_self_key c (c_str d) s a now

/-- The method `insertOrUpdate` changes neither the capacity nor the
configuration. -/
theorem insertOrUpdate_config (c : RedisDNSCache) (d : String) (s : DomainStatus)
    (a : DomainAction) (now : Int) :
    (insertOrUpdate c d s a now).1.max_size = c.max_size ∧
      (insertOrUpdate c d s a now).1.ttl_config = c.ttl_config :=
  insertOrUpdate_config_key c (c_str d) s a now

/-- A hash that does not pass the expiry test, under another key, survives an
`insertOrUpdate` that does not evict. -/
theorem insertOrUpdate_entries_kept (c : RedisDNSCache) (d x : String) (s : DomainStatus)
    (a : DomainAction) (now : Int) (h : EntryHash) (hx : x ≠ c_str d)
    (hh : c.entries x = some h) (hexp : expired h now = false)
    (hev : insertOrUpdate_evicts c d now = false) :
    (insertOrUpdate c d s a now).1.entries x = some h := by
  have hk := cleanupExpired_keeps c now x (by
    intro h2 hh2
    rw [hh] at hh2
    injection hh2 with hh2
    rw [← hh2]; exact hexp)
  rw [insertOrUpdate_eq_key]
  unfold insertOrUpdate_evicts at hev
  cases hfind : find_key (cleanupExpired c now) (c_str d) with
  | none =>
    have hfind2 : find (cleanupExpired c now) d = none := hfind
    rw [hfind2] at hev
    simp only [decide_eq_false_iff_not, ge_iff_le, not_le] at hev
    rw [insertOrUpdate_of_none_key c (c_str d) s a now hfind]
    have hm : makeRoom (cleanupExpired c now) = cleanupExpired c now :=
      makeRoom_of_lt _ hev
    simp only [insert_key, addToPendingReportSet_key, write_entry, hm]
    simp [Function.update, hx, hk.1, hh]
  | some e =>
    rw [insertOrUpdate_of_some_key c (c_str d) s a now e hfind]
    simp only [update_key, write_entry]
    simp [Function.update, hx, hk.1, hh]

/-- A verdict loop over strings in which no upsert evicts: it returns true,
every listed domain ends with the verdict, and every other hash that does not
pass the expiry test is kept. -/
theorem handleArray_no_eviction (now : Int) (action : DomainAction) (ds : List String) :
    ∀ c : RedisDNSCache,
      handleArray_evicts now action c (ds.map JsonItem.str) = false →
      0 ≤ getTTL c.ttl_config DomainStatus.FULL action →
      (handleArray now action c (ds.map JsonItem.str)).2 = true ∧
        (handleArray now action c (ds.map JsonItem.str)).1.ttl_config = c.ttl_config ∧
        (∀ p ∈ ds, ∃ q,
          (handleArray now action c (ds.map JsonItem.str)).1.entries (c_str p) =
            some (full_hash (c_str p) DomainStatus.FULL action now q
              (getTTL c.ttl_config DomainStatus.FULL action))) ∧
        (∀ x h, x ∉ ds.map c_str → c.entries x = some h → expired h now = false →
          (handleArray now action c (ds.map JsonItem.str)).1.entries x = some h) := by
  induction ds with
  | nil =>
    intro c _ _
    exact ⟨rfl, rfl, fun p hp => absurd hp (List.not_mem_nil p), fun x h _ hh _ => hh⟩
  | cons d ds ih =>
    intro c hev httl
    simp only [List.map_cons, handleArray_evicts, Bool.or_eq_false_iff] at hev
    have hcfg := insertOrUpdate_config c d DomainStatus.FULL action now
    obtain ⟨r1, r4, r5, r6⟩ := ih (insertOrUpdate c d DomainStatus.FULL action now).1
      hev.2 (by rw [hcfg.2]; exact httl)
    simp only [List.map_cons, handleArray]
    rw [hcfg.2] at r5
    refine ⟨r1, by rw [r4, hcfg.2], ?_, ?_⟩
    · intro p hp
      by_cases hpds : c_str p ∈ ds.map c_str
      · obtain ⟨p2, hp2, hpp⟩ := List.mem_map.mp hpds
        obtain ⟨q, hq⟩ := r5 p2 hp2
        rw [hpp] at hq
        exact ⟨q, hq⟩
      · have hpd : p = d := by
          rcases List.mem_cons.mp hp with h | h
          · exact h
          · exact absurd (List.mem_map_of_mem c_str h) hpds
        subst hpd
        obtain ⟨q, hq⟩ := insertOrUpdate_entries_self c p DomainStatus.FULL action now
        refine ⟨q, r6 (c_str p) _ hpds hq ?_⟩
        simp only [expired, full_hash, decide_eq_false_iff_not]
        omega
    · intro x h hx hh hexp
      simp only [List.mem_cons, not_or] at hx
      apply r6 x h hx.2 _ hexp
      exact insertOrUpdate_entries_kept c d x DomainStatus.FULL action now h hx.1 hh hexp hev.1

/-- A submission answered 2xx with a parsed reply: the marking loop, then the
two verdict loops. -/
theorem reportDomains_success_unfold (c : RedisDNSCache) (domains : List String)
    (code : Int) (reply : ReplyJson) (now : Int) (hne : domains ≠ [])
    (h2xx : 200 ≤ code ∧ code < 300) :
    reportDomains c domains (PostOutcome.response code (some reply)) now =
      match handleArray now DomainAction.PERMIT (domains.foldl (mark_pending now) c)
          reply.permitted with
      | (c2, false) => (c2, false)
      | (c2, true) => handleArray now DomainAction.DROP c2 reply.dropped := by
  have hemp : domains.isEmpty = false := by
    cases domains with
    | nil => exact absurd rfl hne
    | cons _ _ => rfl
  unfold reportDomains
  simp only [hemp, Bool.false_eq_true, if_false]
  rw [if_neg (by omega)]

/-- The marking loop changes neither the capacity nor the configuration. -/
theorem foldl_mark_pending_config (now : Int) (domains : List String) (c : RedisDNSCache) :
    (domains.foldl (mark_pending now) c).max_size = c.max_size ∧
      (domains.foldl (mark_pending now) c).ttl_config = c.ttl_config := by
  rw [foldl_mark_pending_eq_key]
  exact (foldl_mark_pending_size_key now (domains.map c_str) c).2

/-- C18, counterexamples: (a) `small_store` has capacity 2; the reply permits
`p1`, `p2`, `p3`; inserting `p2` evicts `p1`, which ends without an entry although
`reportDomains` returns true. (b) A domain listed in both arrays ends as
`(FULL, DROP)`. -/
theorem reportDomains_verdict_counterexample :
    ((reportDomains small_store ["x"]
        (PostOutcome.response 200
          (some ⟨[JsonItem.str "p1", JsonItem.str "p2", JsonItem.str "p3"], []⟩)) 5).2 = true ∧
      (reportDomains small_store ["x"]
        (PostOutcome.response 200
          (some ⟨[JsonItem.str "p1", JsonItem.str "p2", JsonItem.str "p3"], []⟩)) 5).1.entries
          "p1" = none) ∧
    ((reportDomains (empty_cache 10) ["a"]
        (PostOutcome.response 200 (some ⟨[JsonItem.str "a"], [JsonItem.str "a"]⟩)) 5).2 = true ∧
      (reportDomains (empty_cache 10) ["a"]
        (PostOutcome.response 200 (some ⟨[JsonItem.str "a"], [JsonItem.str "a"]⟩)) 5).1.entries
          "a" = some (full_hash "a" DomainStatus.FULL DomainAction.DROP 5 2 3600)) := by
  decide

/-- C18 as amended (verdict application): for every cache with the default TTL
configuration and every non-empty batch, when the POST is answered 2xx with the
reply `{"permitted":[p...], "dropped":[d...]}` and no upsert of the two verdict
loops evicts (each insert made while the reply is applied finds fewer than
`max_size` index members, so that `makeRoom` removes nothing), `reportDomains`
returns true, every `p` of the permitted array that is not also in the dropped
array (names compared as the backend receives them) has an entry with status
FULL, action PERMIT and ttl 86400, and every `d` of the dropped array has an
entry with status FULL, action DROP and ttl 3600. -/
theorem reportDomains_verdicts (c : RedisDNSCache) (domains permitted dropped : List String)
    (code : Int) (now : Int) (hne : domains ≠ []) (h2xx : 200 ≤ code ∧ code < 300)
    (hcfg : c.ttl_config = default_ttl_config)
    (hroom : verdicts_evict c domains
      ⟨permitted.map JsonItem.str, dropped.map JsonItem.str⟩ now = false) :
    (reportDomains c domains (PostOutcome.response code
        (some ⟨permitted.map JsonItem.str, dropped.map JsonItem.str⟩)) now).2 = true ∧
      (∀ p ∈ permitted, c_str p ∉ dropped.map c_str → ∃ q,
        (reportDomains c domains (PostOutcome.response code
          (some ⟨permitted.map JsonItem.str, dropped.map JsonItem.str⟩)) now).1.entries
            (c_str p) =
          some (full_hash (c_str p) DomainStatus.FULL DomainAction.PERMIT now q 86400)) ∧
      (∀ d ∈ dropped, ∃ q,
        (reportDomains c domains (PostOutcome.response code
          (some ⟨permitted.map JsonItem.str, dropped.map JsonItem.str⟩)) now).1.entries
            (c_str d) =
          some (full_hash (c_str d) DomainStatus.FULL DomainAction.DROP now q 3600)) := by
  rw [reportDomains_success_unfold c domains code _ now hne h2xx]
  simp only
  simp only [verdicts_evict, Bool.or_eq_false_iff] at hroom
  obtain ⟨_, m3⟩ := foldl_mark_pending_config now domains c
  obtain ⟨p1, p4, p5, _⟩ := handleArray_no_eviction now DomainAction.PERMIT permitted
    (domains.foldl (mark_pending now) c) hroom.1 (by rw [m3, hcfg]; decide)
  rw [m3, hcfg] at p5
  have hdrop := hroom.2
  cases hperm : handleArray now DomainAction.PERMIT (domains.foldl (mark_pending now) c)
      (permitted.map JsonItem.str) with
  | mk c2 ok =>
    rw [hperm] at p1 p4 p5 hdrop
    simp only at p1 p4 p5 hdrop
    subst p1
    simp only
    obtain ⟨d1, _, d5, d6⟩ := handleArray_no_eviction now DomainAction.DROP dropped c2
      hdrop (by rw [p4, m3, hcfg]; decide)
    rw [p4, m3, hcfg] at d5
    refine ⟨d1, ?_, ?_⟩
    · intro p hp hpd
      obtain ⟨q, hq⟩ := p5 p hp
      refine ⟨q, d6 (c_str p) _ hpd hq ?_⟩
      simp [expired, full_hash, getTTL]
    · intro d hd
      exact d5 d hd

/-- Witness for C18: the five domains of `five_store` (capacity 10) are
submitted at time 10; the reply permits `d1` and `d2` and drops `d3`. -/
theorem reportDomains_verdicts_witness :
    (reportDomains five_store ["d1", "d2", "d3", "d4", "d5"]
        (PostOutcome.response 200
          (some ⟨["d1", "d2"].map JsonItem.str, ["d3"].map JsonItem.str⟩)) 10).2 = true ∧
      ∃ q, (reportDomains five_store ["d1", "d2", "d3", "d4", "d5"]
        (PostOutcome.response 200
          (some ⟨["d1", "d2"].map JsonItem.str, ["d3"].map JsonItem.str⟩)) 10).1.entries
            (c_str "d1") =
          some (full_hash (c_str "d1") DomainStatus.FULL DomainAction.PERMIT 10 q 86400) :=
  ⟨(reportDomains_verdicts five_store ["d1", "d2", "d3", "d4", "d5"] ["d1", "d2"] ["d3"]
      200 10 (by decide) (by decide) (by decide) (by decide)).1,
    (reportDomains_verdicts five_store ["d1", "d2", "d3", "d4", "d5"] ["d1", "d2"] ["d3"]
      200 10 (by decide) (by decide) (by decide) (by decide)).2.1 "d1" (by decide)
      (by decide)⟩

/-- C19 (FAKE to PEND on success): for every cache with no expired entry (and a
PEND ttl that is not negative, as the default 600 is) and every non-empty batch,
when the POST is answered 2xx with a JSON object that lists no permitted and no
dropped domains, `reportDomains` returns true; every submitted domain whose
cached status was FAKE ends with status PEND, its previous action and its
previous `query_count` (timestamps `now`, ttl of PEND); submitted domains that
were absent or not FAKE, and all other entries, are unchanged, and so is the
pending set. An entry is stored under the C string of the domain. -/
theorem reportDomains_marks_pending (c : RedisDNSCache) (domains : List String)
    (code : Int) (now : Int) (hne : domains ≠ []) (h2xx : 200 ≤ code ∧ code < 300)
    (hfresh : fresh c now) (httl : 0 ≤ c.ttl_config.pend) :
    (reportDomains c domains (PostOutcome.response code (some ⟨[], []⟩)) now).2 = true ∧
      (∀ d ∈ domains, ∀ e, find c d = some e → e.status = DomainStatus.FAKE →
        (reportDomains c domains (PostOutcome.response code (some ⟨[], []⟩)) now).1.entries
            (c_str d) =
            some (full_hash (c_str d) DomainStatus.PEND e.action now e.query_count
              (getTTL c.ttl_config DomainStatus.PEND e.action)) ∧
          find (reportDomains c domains (PostOutcome.response code (some ⟨[], []⟩)) now).1 d =
            some { domain := c_str d, status := DomainStatus.PEND, action := e.action,
                   query_count := e.query_count, last_updated := now,
                   last_accessed := now }) ∧
      (∀ x, (x ∉ domains.map c_str ∨
          ∀ e, find_key c x = some e → e.status ≠ DomainStatus.FAKE) →
        (reportDomains c domains (PostOutcome.response code (some ⟨[], []⟩)) now).1.entries x =
          c.entries x) ∧
      (reportDomains c domains (PostOutcome.response code (some ⟨[], []⟩)) now).1.pending =
        c.pending := by
  have hne2 : domains.map c_str ≠ [] := by
    intro h; exact hne (List.map_eq_nil_iff.mp h)
  obtain ⟨k1, k2, k3, k4⟩ := reportDomains_marks_pending_key c (domains.map c_str) code now
    hne2 h2xx hfresh httl
  rw [reportDomains_eq_key]
  refine ⟨k1, ?_, k3, k4⟩
  intro d hd e he hfake
  exact k2 (c_str d) (List.mem_map_of_mem c_str hd) e he hfake

/-- Witness for C19: `small_store` holds the `FAKE` domain `x`; the reply is `{}`. -/
theorem reportDomains_marks_pending_witness :
    (reportDomains small_store ["x"] (PostOutcome.response 200 (some ⟨[], []⟩)) 5).2 = true :=
  (reportDomains_marks_pending small_store ["x"] 200 5 (by decide) (by decide)
    (by
      intro d h hd
      by_cases hx : d = "x"
      · subst hx
        have : h = full_hash "x" DomainStatus.FAKE DomainAction.DROP 1 1 300 := by
          simpa [small_store] using hd.symm
        subst this
        decide
      · simp [small_store, hx] at hd)
    (by decide)).1

/-- C20, counterexample: `x` is `FAKE` in `small_store`; the POST is answered 200
with a body that is not JSON; `reportDomains` returns false, yet `x` is now
`PEND`. -/
theorem reportDomains_failure_counterexample :
    small_store.entries "x" =
        some (full_hash "x" DomainStatus.FAKE DomainAction.DROP 1 1 300) ∧
      (reportDomains small_store ["x"] (PostOutcome.response 200 none) 5).2 = false ∧
      (reportDomains small_store ["x"] (PostOutcome.response 200 none) 5).1.entries "x" =
        some (full_hash "x" DomainStatus.PEND DomainAction.DROP 5 1 600) := by
  decide

/-- C20 as amended (failure of a submission): for every cache and non-empty
batch, on a transport error and on an HTTP status below 200 or at least 300,
`reportDomains` returns false and the cache is exactly as before. On a 2xx reply
whose body is not parseable JSON it returns false too, but the marking of the
submitted `FAKE` domains as `PEND` has already been applied: the cache is as
before only if no submitted domain was `FAKE`; in a cache with no expired entry
the submitted `FAKE` domains are `PEND` and everything else, the pending set
included, is as before. -/
theorem reportDomains_failure (c : RedisDNSCache) (domains : List String) (now : Int)
    (hne : domains ≠ []) :
    reportDomains c domains PostOutcome.transport_error now = (c, false) ∧
      (∀ (code : Int) (body : Option ReplyJson), code < 200 ∨ 300 ≤ code →
        reportDomains c domains (PostOutcome.response code body) now = (c, false)) ∧
      (∀ code : Int, 200 ≤ code ∧ code < 300 →
        (reportDomains c domains (PostOutcome.response code none) now).2 = false ∧
        ((∀ d ∈ domains, ∀ e, find c d = some e → e.status ≠ DomainStatus.FAKE) →
          (reportDomains c domains (PostOutcome.response code none) now).1 = c) ∧
        (fresh c now → 0 ≤ c.ttl_config.pend →
          (∀ x, (reportDomains c domains (PostOutcome.response code none) now).1.entries x =
            mark_result c now (domains.map c_str) x) ∧
          (reportDomains c domains (PostOutcome.response code none) now).1.pending =
            c.pending)) := by
  have hne2 : domains.map c_str ≠ [] := by
    intro h; exact hne (List.map_eq_nil_iff.mp h)
  obtain ⟨k1, k2, k3⟩ := reportDomains_failure_key c (domains.map c_str) now hne2
  refine ⟨?_, ?_, ?_⟩
  · rw [reportDomains_eq_key]; exact k1
  · intro code body hcode
    rw [reportDomains_eq_key]
    cases body with
    | none => exact k2 code none hcode
    | some reply => exact k2 code _ hcode
  · intro code h2xx
    obtain ⟨r1, r2, r3⟩ := k3 code h2xx
    rw [reportDomains_eq_key]
    refine ⟨r1, ?_, r3⟩
    intro hskip
    apply r2
    intro k hk e he
    obtain ⟨d, hd, hdk⟩ := List.mem_map.mp hk
    rw [← hdk] at he
    exact hskip d hd e he

/-- Witness for C20: a transport error on a batch submitted from `small_store`. -/
theorem reportDomains_failure_witness :
    reportDomains small_store ["x"] PostOutcome.transport_error 5 = (small_store, false) :=
  (reportDomains_failure small_store ["x"] 5 (by decide)).1

/-- The entry that `find` returns depends only on the hash under the C string of
the domain. -/
theorem find_congr (c1 c2 : RedisDNSCache) (d : String)
    (h : c1.entries (c_str d) = c2.entries (c_str d)) : find c1 d = find c2 d :=
  find_congr_key c1 c2 (c_str d) h

/-- A counter that `find` returns is a `uint32_t`. -/
theorem find_query_count_lt (c : RedisDNSCache) (d : String) (e : DomainEntry)
    (h : find c d = some e) : e.query_count < 2 ^ 32 :=
  find_query_count_lt_key c (c_str d) e h

/-- The path of `insertOrUpdate` for a domain that `find` does not return after
the sweep. -/
theorem insertOrUpdate_of_none (c : RedisDNSCache) (d : String) (s : DomainStatus)
    (a : DomainAction) (now : Int) (h : find (cleanupExpired c now) d = none) :
    insertOrUpdate c d s a now = insert (cleanupExpired c now) d s a now :=
  insertOrUpdate_of_none_key c (c_str d) s a now h

/-- The path of `insertOrUpdate` for a domain that `find` returns after the
sweep. -/
theorem insertOrUpdate_of_some (c : RedisDNSCache) (d : String) (s : DomainStatus)
    (a : DomainAction) (now : Int) (e : DomainEntry)
    (h : find (cleanupExpired c now) d = some e) :
    insertOrUpdate c d s a now = update (cleanupExpired c now) e d s a now :=
  insertOrUpdate_of_some_key c (c_str d) s a now e h

/-- The hash that `insert` writes under the C string of the domain. -/
theorem insert_entries_self (c : RedisDNSCache) (d : String) (s : DomainStatus)
    (a : DomainAction) (now : Int) :
    (insert c d s a now).1.entries (c_str d) =
      some (full_hash (c_str d) s a now 1 (getTTL c.ttl_config s a)) :=
  insert_entries_self_key c (c_str d) s a now

/-- The marking loop in a cache with no expired entry. -/
theorem foldl_mark_pending_spec (now : Int) (domains : List String) (c : RedisDNSCache)
    (hfresh : fresh c now) (httl : 0 ≤ c.ttl_config.pend) :
    (∀ x, (domains.foldl (mark_pending now) c).entries x =
        mark_result c now (domains.map c_str) x) ∧
      (domains.foldl (mark_pending now) c).pending = c.pending ∧
      (domains.foldl (mark_pending now) c).ttl_config = c.ttl_config := by
  rw [foldl_mark_pending_eq_key]
  exact foldl_mark_pending_spec_key now (domains.map c_str) c hfresh httl

/-- The marking loop does nothing when no submitted domain is reported as
`FAKE`. -/
theorem foldl_mark_pending_skip (now : Int) (domains : List String) (c : RedisDNSCache)
    (h : ∀ d ∈ domains, ∀ e, find c d = some e → e.status ≠ DomainStatus.FAKE) :
    domains.foldl (mark_pending now) c = c := by
  rw [foldl_mark_pending_eq_key]
  apply foldl_mark_pending_skip_key
  intro k hk e he
  obtain ⟨d, hd, hdk⟩ := List.mem_map.mp hk
  rw [← hdk] at he
  exact h d hd e he

/-- A chain of pointers is in particular a sequence of pointers to follow. -/
theorem pointer_chain_follows (packet : List Byte) (max_len : Nat) :
    ∀ (n pos : Nat), pointer_chain packet max_len n pos →
      follows_pointers packet max_len n pos := by
  intro n
  induction n with
  | zero => intro pos _; trivial
  | succ n ih =>
    intro pos h
    obtain ⟨target, hptr, h1, ht, htl, hrest⟩ := h
    refine ⟨target, ⟨[], ?_, ?_, ?_, ?_, ?_, htl⟩, ih target hrest⟩
    · intro l hl; cases hl
    · simp [wire_labels]
    · simpa [wire_labels] using hptr
    · simpa [wire_labels] using h1
    · simpa [wire_labels] using ht

/-- A chain of `n` pointers is decoded when the jump limit exceeds `n`. -/
theorem pointer_chain_decodes (packet : List Byte) (max_len : Nat) :
    ∀ (n pos : Nat) (jump_limit : Int), (n : Int) + 1 ≤ jump_limit →
      pointer_chain packet max_len n pos →
      (read_domain_name packet pos max_len jump_limit).isSome = true := by
  intro n
  induction n with
  | zero =>
    intro pos jump_limit hk h
    obtain ⟨labels, hlab, hwire, hmax⟩ := h
    have hj : jumps < jump_limit := by unfold jumps; omega
    have hlen : (wire_name labels).length = (wire_labels labels).length + 1 := by
      simp [wire_name]
    have hsplit := @prefix_drop_append packet pos (wire_labels labels) [0] hwire
    have hpre : wire_labels labels <+: packet.drop pos :=
      (List.prefix_append _ _).trans hwire
    have h0 : byteAt packet (pos + (wire_labels labels).length) = 0 := by
      unfold byteAt
      rw [getD_of_prefix_drop hsplit.2]
      rfl
    rw [read_domain_name_unfold,
      read_loop_labels packet max_len jump_limit _ hj labels pos (max_len - pos) [] hlab hpre
        (by omega) (le_refl _),
      read_loop_zero _ _ _ _ _ _ _ (le_refl _) hj (by omega) h0, after_loop_pos _ hj]
    rfl
  | succ n ih =>
    intro pos jump_limit hk h
    obtain ⟨target, hptr, h1, ht, htl, hrest⟩ := h
    have hrec := ih target (jump_limit - 1) (by push_cast at hk; omega) hrest
    obtain ⟨⟨N, p1⟩, hN⟩ := Option.isSome_iff_exists.mp hrec
    rw [read_domain_name_pointer_value packet [] pos max_len pos target p1 jump_limit N
      (by intro l hl; cases hl) (by simp [wire_labels]) (by simp [wire_labels]) hptr h1 ht htl hN]
    rfl

/-- C28 (effective pointer budget): for every jump limit `k ≥ 1` and every
payload in which the name at `pos` is reached through a chain of `n` compression
pointers (each the first element at its offset) that ends at a well-formed,
zero-terminated uncompressed name, `read_domain_name` succeeds if and only if
`n ≤ k - 1`; so with the default limit 5 a name that needs exactly 5 pointer
follows is rejected; and for `k ≤ 0` `read_domain_name` fails on every input. -/
theorem effective_pointer_budget (packet : List Byte) (max_len : Nat) :
    (∀ (k : Int) (n pos : Nat), 1 ≤ k → pointer_chain packet max_len n pos →
      ((read_domain_name packet pos max_len k).isSome = true ↔ (n : Int) ≤ k - 1)) ∧
    (∀ pos : Nat, pointer_chain packet max_len 5 pos →
      read_domain_name packet pos max_len 5 = none) ∧
    (∀ (k : Int) (pos : Nat), k ≤ 0 → read_domain_name packet pos max_len k = none) := by
  refine ⟨?_, ?_, ?_⟩
  · intro k n pos _ hchain
    constructor
    · intro hsome
      by_contra hlt
      have hnone := read_domain_name_pointer_chain packet max_len n pos k (by omega)
        (pointer_chain_follows packet max_len n pos hchain)
      rw [hnone] at hsome
      exact Bool.noConfusion hsome
    · intro hle
      exact pointer_chain_decodes packet max_len n pos k (by omega) hchain
  · intro pos hchain
    exact read_domain_name_pointer_chain packet max_len 5 pos 5 (by decide)
      (pointer_chain_follows packet max_len 5 pos hchain)
  · intro k pos hk
    exact read_domain_name_nonpos packet pos max_len k hk

/-- Witness for C28: in `two_pointer_query` the name at offset 12 is reached
through two pointers; it is decoded with the limit 3 and rejected with 2. -/
theorem effective_pointer_budget_witness :
    (read_domain_name two_pointer_query 12 19 3).isSome = true ∧
      ¬ (read_domain_name two_pointer_query 12 19 2).isSome = true :=
  have hchain : pointer_chain two_pointer_query 19 2 12 :=
    ⟨14, by decide, by decide, by decide, by decide,
      ⟨16, by decide, by decide, by decide, by decide,
        ⟨[[97]], by decide, by decide, by decide⟩⟩⟩
  ⟨((effective_pointer_budget two_pointer_query 19).1 3 2 12 (by decide) hchain).2 (by decide),
    fun h => absurd (((effective_pointer_budget two_pointer_query 19).1 2 2 12 (by decide)
      hchain).1 h) (by decide)⟩

set_option maxRecDepth 1000000 in
/-- C27, counterexample: the only name that `extract_dns_queries` returns for
the 337-byte `long_name_query` is 319 bytes long. -/
theorem long_name_counterexample :
    long_name_query.length = 337 ∧
      (extract_dns_queries long_name_query).map List.length = [319] := by
  decide

/-- Length of the name that the loop of `read_domain_name` returns: what the
labels still to walk can add, plus the length of a name obtained through a
pointer. -/
theorem read_loop_length (packet : List Byte) (max_len : Nat) (jump_limit : Int)
    (recurse : Nat → Option (List Byte × Nat)) (R : Nat)
    (hrec : ∀ off r, recurse off = some r → r.1.length ≤ R) :
    ∀ (fuel curr_pos : Nat) (domain : List Byte) (r : List Byte × Nat),
      read_loop packet max_len jump_limit recurse fuel curr_pos domain = some r →
      r.1.length ≤ domain.length + (max_len - curr_pos) + R := by
  have hafter : ∀ (p : Nat) (d : List Byte) (r : List Byte × Nat),
      after_loop jump_limit p d = some r → r.1 = d := by
    intro p d r h
    unfold after_loop at h
    split_ifs at h
    injection h with h
    rw [← h]
  intro fuel
  induction fuel with
  | zero =>
    intro curr_pos domain r h
    rw [read_loop] at h
    rw [hafter _ _ _ h]
    omega
  | succ fuel ih =>
    intro curr_pos domain r h
    rw [read_loop] at h
    split at h
    · rename_i hc
      simp only at h
      split at h
      · split at h
        · exact Option.noConfusion h
        · split at h
          · exact Option.noConfusion h
          · rename_i h1 _
            split at h
            · exact Option.noConfusion h
            · rename_i pointed p1 hr
              have hp := hrec _ _ hr
              simp only at hp
              rw [hafter _ _ _ h, List.length_append]
              split
              · rw [List.length_append, List.length_singleton]; omega
              · omega
      · split at h
        · rw [hafter _ _ _ h]; omega
        · split at h
          · exact Option.noConfusion h
          · split at h
            · exact Option.noConfusion h
            · have := ih _ _ _ h
              rw [List.length_append] at this
              have hlab : (label_bytes packet (curr_pos + 1) (byteAt packet curr_pos)).length ≤
                  byteAt packet curr_pos := by
                unfold label_bytes
                exact List.length_take_le _ _
              split at this
              · rw [List.length_append, List.length_singleton] at this; omega
              · omega
    · rw [hafter _ _ _ h]; omega

/-- A name decoded with jump limit at most `k` is at most `k * max_len` bytes
long. -/
theorem read_domain_name_length (packet : List Byte) (max_len : Nat) :
    ∀ (k : Nat) (jump_limit : Int) (pos : Nat) (r : List Byte × Nat),
      jump_limit ≤ k → read_domain_name packet pos max_len jump_limit = some r →
      r.1.length ≤ k * max_len := by
  intro k
  induction k with
  | zero =>
    intro jump_limit pos r hk h
    rw [read_domain_name_nonpos packet pos max_len jump_limit (by simpa using hk)] at h
    exact Option.noConfusion h
  | succ k ih =>
    intro jump_limit pos r hk h
    rw [read_domain_name_unfold] at h
    have := read_loop_length packet max_len jump_limit _ (k * max_len)
      (fun off r hr => ih (jump_limit - 1) off r (by push_cast at hk; omega) hr)
      _ _ _ _ h
    rw [Nat.succ_mul]
    simp only [List.length_nil] at this
    omega

/-- Every name that the extraction loop adds is the result of a
`read_domain_name` call with the default jump limit. -/
theorem extract_loop_length (packet : List Byte) (B : Nat) :
    ∀ (n pos : Nat) (domains : List (List Byte)),
      (∀ name ∈ domains, name.length ≤ B) → 5 * packet.length ≤ B →
      ∀ name ∈ extract_loop packet n pos domains, name.length ≤ B := by
  intro n
  induction n with
  | zero => intro pos domains hd _ name hn; exact hd name hn
  | succ n ih =>
    intro pos domains hd hB name hn
    rw [extract_loop] at hn
    cases hr : read_domain_name packet pos packet.length 5 with
    | none => rw [hr] at hn; exact hd name hn
    | some r =>
      obtain ⟨domain, pos1⟩ := r
      rw [hr] at hn
      simp only at hn
      have hlen := read_domain_name_length packet packet.length 5 5 pos _ (by decide) hr
      simp only at hlen
      have hd1 : ∀ x ∈ domains ++ [domain], x.length ≤ B := by
        intro x hx
        rcases List.mem_append.mp hx with hx | hx
        · exact hd x hx
        · rw [List.mem_singleton.mp hx]; omega
      split_ifs at hn
      · exact hd1 name hn
      · exact ih _ _ hd1 hB name hn

/-- C27 as amended (domain length): for every payload, every name returned by
`extract_dns_queries` is at most 5 times the payload length long, 5 being the
jump limit that the extraction uses; so for a payload of at most 65535 bytes
every returned name is at most 327675 bytes long. -/
theorem extracted_name_length (packet : List Byte) (name : List Byte)
    (hname : name ∈ extract_dns_queries packet) :
    name.length ≤ 5 * packet.length ∧
      (packet.length ≤ 65535 → name.length ≤ 327675) := by
  have h : name.length ≤ 5 * packet.length := by
    unfold extract_dns_queries at hname
    split_ifs at hname
    · cases hname
    · cases hname
    · exact extract_loop_length packet _ _ 12 [] (fun x hx => by cases hx) (le_refl _)
        name hname
  exact ⟨h, fun hp => by omega⟩

set_option maxRecDepth 100000 in
/-- Witness for C27: the name `a` returned for `truncated_query`. -/
theorem extracted_name_length_witness :
    ([97] : List Byte).length ≤ 5 * truncated_query.length :=
  (extracted_name_length truncated_query [97] (by decide)).1

/-- The retry loop stops by its own condition within `max_retries` iterations. -/
theorem retry_loop_exits (filtered : List String) (max_retries retry_delay : Nat)
    (server : Nat → PostOutcome) (clock : Nat → Int) :
    ∀ (fuel : Nat) (s : RetryState),
      (s.success = true ∨ max_retries - s.attempt ≤ fuel) →
      ¬ ((retry_loop filtered max_retries retry_delay server clock fuel s).attempt < max_retries ∧
        (retry_loop filtered max_retries retry_delay server clock fuel s).success = false) := by
  intro fuel
  induction fuel with
  | zero =>
    intro s h
    rw [retry_loop]
    rcases h with h | h
    · simp [h]
    · intro hc; omega
  | succ fuel ih =>
    intro s h
    rw [retry_loop]
    split
    · rename_i hc
      simp only
      split
      · exact ih _ (Or.inl rfl)
      · refine ih _ (Or.inr ?_)
        simp only
        rcases h with h | h
        · rw [h] at hc; exact absurd hc.2 (by decide)
        · omega
    · rename_i hc; exact hc

/-- A state in which the loop condition fails is the final state. -/
theorem retry_loop_done (filtered : List String) (max_retries retry_delay : Nat)
    (server : Nat → PostOutcome) (clock : Nat → Int) (fuel : Nat) (s : RetryState)
    (h : ¬ (s.attempt < max_retries ∧ s.success = false)) :
    retry_loop filtered max_retries retry_delay server clock fuel s = s := by
  cases fuel with
  | zero => rfl
  | succ fuel => rw [retry_loop, if_neg h]

/-- With an empty list the call of `reportDomains` in the loop posts nothing and
succeeds at once. -/
theorem retry_loop_nil (max_retries retry_delay : Nat)
    (server : Nat → PostOutcome) (clock : Nat → Int) (fuel : Nat) (c : RedisDNSCache) :
    (retry_loop [] max_retries retry_delay server clock fuel
        { cache := c, attempt := 0, success := false, trace := [] }).cache = c ∧
      (retry_loop [] max_retries retry_delay server clock fuel
        { cache := c, attempt := 0, success := false, trace := [] }).trace = [] := by
  cases fuel with
  | zero => exact ⟨rfl, rfl⟩
  | succ fuel =>
    rw [retry_loop]
    split
    · simp only [reportDomains, List.isEmpty_nil, if_true]
      rw [retry_loop_done _ _ _ _ _ _ _ (by simp)]
      exact ⟨rfl, rfl⟩
    · exact ⟨rfl, rfl⟩

/-- The events of the loop extend the events so far. -/
theorem retry_loop_trace_extends (filtered : List String) (max_retries retry_delay : Nat)
    (server : Nat → PostOutcome) (clock : Nat → Int) :
    ∀ (fuel : Nat) (s : RetryState),
      s.trace <+: (retry_loop filtered max_retries retry_delay server clock fuel s).trace := by
  intro fuel
  induction fuel with
  | zero => intro s; exact List.prefix_refl _
  | succ fuel ih =>
    intro s
    rw [retry_loop]
    split
    · simp only
      split
      · refine List.IsPrefix.trans ?_ (ih _)
        simp only
        split
        · exact List.prefix_refl _
        · exact List.prefix_append _ _
      · refine List.IsPrefix.trans ?_ (ih _)
        simp only
        split <;> split <;>
          first
          | exact List.prefix_refl _
          | exact List.prefix_append _ _
          | exact (List.prefix_append _ _).trans (List.prefix_append _ _)
    · exact List.prefix_refl _

/-- Every POST of the loop carries the list it was given. -/
theorem retry_loop_posts (filtered : List String) (max_retries retry_delay : Nat)
    (server : Nat → PostOutcome) (clock : Nat → Int) :
    ∀ (fuel : Nat) (s : RetryState),
      (∀ l, ReporterEvent.post l ∈ s.trace → l = filtered ∧ filtered ≠ []) →
      ∀ l, ReporterEvent.post l ∈
          (retry_loop filtered max_retries retry_delay server clock fuel s).trace →
        l = filtered ∧ filtered ≠ [] := by
  intro fuel
  induction fuel with
  | zero => intro s hs; exact hs
  | succ fuel ih =>
    intro s hs
    rw [retry_loop]
    have hposted : ∀ l, ReporterEvent.post l ∈
        (if filtered.isEmpty then s.trace else s.trace ++ [ReporterEvent.post filtered]) →
        l = filtered ∧ filtered ≠ [] := by
      intro l hl
      split at hl
      · exact hs l hl
      · rename_i hne
        rcases List.mem_append.mp hl with hl | hl
        · exact hs l hl
        · simp only [List.mem_singleton, ReporterEvent.post.injEq] at hl
          exact ⟨hl, fun h => hne (by rw [h]; rfl)⟩
    split
    · simp only
      split
      · exact ih _ hposted
      · refine ih _ ?_
        simp only
        intro l hl
        split at hl
        · rcases List.mem_append.mp hl with hl | hl
          · exact hposted l hl
          · simp at hl
        · exact hposted l hl
    · exact hs

/-- A submission that meets a transport error or a status outside 2xx returns
false and leaves the cache as it was. -/
theorem reportDomains_of_failed (c : RedisDNSCache) (domains : List String)
    (outcome : PostOutcome) (now : Int) (hne : domains ≠ [])
    (h : outcome = PostOutcome.transport_error ∨
      ∃ code body, outcome = PostOutcome.response code body ∧ (code < 200 ∨ 300 ≤ code)) :
    reportDomains c domains outcome now = (c, false) := by
  have hemp : domains.isEmpty = false := by
    cases domains with
    | nil => exact absurd rfl hne
    | cons _ _ => rfl
  rcases h with h | ⟨code, body, h, hcode⟩
  · subst h
    simp [reportDomains, hemp]
  · subst h
    unfold reportDomains
    simp only [hemp, Bool.false_eq_true, if_false]
    rw [if_pos (by omega)]

/-- A submission answered 2xx with a body that is not JSON returns false after
the marking loop. -/
theorem reportDomains_of_unparsed (c : RedisDNSCache) (domains : List String)
    (code : Int) (now : Int) (hne : domains ≠ []) (h2xx : 200 ≤ code ∧ code < 300) :
    reportDomains c domains (PostOutcome.response code none) now =
      (domains.foldl (mark_pending now) c, false) := by
  have hemp : domains.isEmpty = false := by
    cases domains with
    | nil => exact absurd rfl hne
    | cons _ _ => rfl
  unfold reportDomains
  simp only [hemp, Bool.false_eq_true, if_false]
  rw [if_neg (by omega)]

/-- One more element in front of an interspersed run. -/
theorem intersperse_replicate_succ (sep p : ReporterEvent) (k : Nat) (hk : 1 ≤ k) :
    List.intersperse sep (List.replicate (k + 1) p) =
      p :: sep :: List.intersperse sep (List.replicate k p) := by
  obtain ⟨j, rfl⟩ : ∃ j, k = j + 1 := ⟨k - 1, by omega⟩
  simp [List.replicate, List.intersperse]

/-- The loop from a state whose cache every further attempt leaves as it is
while returning false: the remaining attempts are all made, with a sleep
between two of them. -/
theorem retry_loop_stable (f : List String) (max_retries retry_delay : Nat)
    (server : Nat → PostOutcome) (clock : Nat → Int) (c : RedisDNSCache) (hne : f ≠ [])
    (hstable : ∀ i, reportDomains c f (server i) (clock i) = (c, false)) :
    ∀ (fuel : Nat) (s : RetryState), s.cache = c → s.success = false →
      s.attempt < max_retries → max_retries - s.attempt ≤ fuel →
      (retry_loop f max_retries retry_delay server clock fuel s).cache = c ∧
        (retry_loop f max_retries retry_delay server clock fuel s).success = false ∧
        (retry_loop f max_retries retry_delay server clock fuel s).trace =
          s.trace ++ List.intersperse (ReporterEvent.sleep retry_delay)
            (List.replicate (max_retries - s.attempt) (ReporterEvent.post f)) := by
  have hemp : f.isEmpty = false := by
    cases f with
    | nil => exact absurd rfl hne
    | cons _ _ => rfl
  intro fuel
  induction fuel with
  | zero => intro s _ _ hlt hfuel; omega
  | succ fuel ih =>
    intro s hc hs hlt hfuel
    rw [retry_loop, if_pos ⟨hlt, hs⟩]
    simp only [hc, hstable, hemp, Bool.false_eq_true, if_false]
    by_cases hnext : s.attempt + 1 < max_retries
    · rw [if_pos hnext]
      obtain ⟨h1, h2, h3⟩ := ih
        { cache := c, attempt := s.attempt + 1, success := false,
          trace := s.trace ++ [ReporterEvent.post f] ++ [ReporterEvent.sleep retry_delay] }
        rfl rfl hnext (by simp only; omega)
      refine ⟨h1, h2, ?_⟩
      rw [h3]
      simp only
      have hk : max_retries - s.attempt = (max_retries - (s.attempt + 1)) + 1 := by omega
      rw [hk, intersperse_replicate_succ _ _ _ (by omega)]
      simp
    · rw [if_neg hnext]
      rw [retry_loop_done _ _ _ _ _ _ _ (by simp only; omega)]
      have hk : max_retries - s.attempt = 1 := by omega
      rw [hk]
      exact ⟨rfl, rfl, rfl⟩

/-- A run of `try_report_domains` in which the first attempt returns false and
leaves the cache `c1`, which every further attempt leaves as it is while
returning false. -/
theorem try_report_domains_failing (c c1 : RedisDNSCache) (max_retries retry_delay : Nat)
    (server : Nat → PostOutcome) (clock : Nat → Int)
    (hne : filtered_domains c ≠ []) (hm : 1 ≤ max_retries)
    (hfirst : reportDomains c (filtered_domains c) (server 0) (clock 0) = (c1, false))
    (hstable : ∀ i, reportDomains c1 (filtered_domains c) (server i) (clock i) = (c1, false)) :
    (try_report_domains c max_retries retry_delay server clock).cache = c1 ∧
      (try_report_domains c max_retries retry_delay server clock).trace =
        List.intersperse (ReporterEvent.sleep retry_delay)
          (List.replicate max_retries (ReporterEvent.post (filtered_domains c))) := by
  have hemp : (filtered_domains c).isEmpty = false := by
    cases h : filtered_domains c with
    | nil => exact absurd h hne
    | cons _ _ => rfl
  obtain ⟨fuel, rfl⟩ : ∃ fuel, max_retries = fuel + 1 := ⟨max_retries - 1, by omega⟩
  have hloop : (retry_loop (filtered_domains c) (fuel + 1) retry_delay server clock (fuel + 1)
        { cache := c, attempt := 0, success := false, trace := [] }).cache = c1 ∧
      (retry_loop (filtered_domains c) (fuel + 1) retry_delay server clock (fuel + 1)
        { cache := c, attempt := 0, success := false, trace := [] }).success = false ∧
      (retry_loop (filtered_domains c) (fuel + 1) retry_delay server clock (fuel + 1)
        { cache := c, attempt := 0, success := false, trace := [] }).trace =
        List.intersperse (ReporterEvent.sleep retry_delay)
          (List.replicate (fuel + 1) (ReporterEvent.post (filtered_domains c))) := by
    rw [retry_loop, if_pos ⟨by simp, rfl⟩]
    simp only [hfirst, hemp, Bool.false_eq_true, if_false, List.nil_append]
    by_cases hnext : 0 + 1 < fuel + 1
    · rw [if_pos hnext]
      obtain ⟨h1, h2, h3⟩ := retry_loop_stable (filtered_domains c) (fuel + 1) retry_delay
        server clock c1 hne hstable fuel
        { cache := c1, attempt := 0 + 1, success := false,
          trace := [ReporterEvent.post (filtered_domains c)] ++
            [ReporterEvent.sleep retry_delay] }
        rfl rfl hnext (by simp only; omega)
      refine ⟨h1, h2, ?_⟩
      rw [h3]
      simp only
      have hk : fuel + 1 - (0 + 1) = fuel := by omega
      rw [hk, intersperse_replicate_succ _ _ _ (by omega)]
      simp
    · rw [if_neg hnext]
      rw [retry_loop_done _ _ _ _ _ _ _ (by simp only; omega)]
      have hk : fuel = 0 := by omega
      subst hk
      exact ⟨rfl, rfl, rfl⟩
  unfold try_report_domains
  simp only [hemp, Bool.false_eq_true, if_false]
  rw [hloop.2.1]
  simp only [Bool.false_eq_true, if_false]
  exact ⟨hloop.1, hloop.2.2⟩

/-- The run of `try_report_domains` described through its local list
`filtered_domains`. -/
theorem try_report_domains_run (c : RedisDNSCache) (max_retries retry_delay : Nat)
    (server : Nat → PostOutcome) (clock : Nat → Int) :
    (∀ l, ReporterEvent.post l ∈
        (try_report_domains c max_retries retry_delay server clock).trace →
      l = filtered_domains c) ∧
    (filtered_domains c ≠ [] → 1 ≤ max_retries →
      (try_report_domains c max_retries retry_delay server clock).trace.head? =
        some (ReporterEvent.post (filtered_domains c))) ∧
    (filtered_domains c = [] →
      try_report_domains c max_retries retry_delay server clock =
        { cache := clearPendingReportDomains c, trace := [] }) := by
  have htrace : (try_report_domains c max_retries retry_delay server clock).trace =
      (retry_loop (filtered_domains c) max_retries retry_delay server clock max_retries
        { cache := if (filtered_domains c).isEmpty then clearPendingReportDomains c else c,
          attempt := 0, success := false, trace := [] }).trace := by
    unfold try_report_domains
    simp only
    split_ifs <;> rfl
  refine ⟨?_, ?_, ?_⟩
  · intro l hl
    rw [htrace] at hl
    exact (retry_loop_posts _ _ _ _ _ _ _ (fun l hl => by cases hl) l hl).1
  · intro hne hm
    have hemp : (filtered_domains c).isEmpty = false := by
      cases h : filtered_domains c with
      | nil => exact absurd h hne
      | cons _ _ => rfl
    rw [htrace]
    obtain ⟨fuel, rfl⟩ : ∃ fuel, max_retries = fuel + 1 := ⟨max_retries - 1, by omega⟩
    rw [retry_loop, if_pos ⟨by simp, rfl⟩]
    simp only [hemp, Bool.false_eq_true, if_false, List.nil_append]
    have hhead : ∀ (t : List ReporterEvent) (s : RetryState),
        s.trace = ReporterEvent.post (filtered_domains c) :: t →
        (retry_loop (filtered_domains c) (fuel + 1) retry_delay server clock fuel s).trace.head? =
          some (ReporterEvent.post (filtered_domains c)) := by
      intro t s hs
      obtain ⟨u, hu⟩ := retry_loop_trace_extends (filtered_domains c) (fuel + 1) retry_delay
        server clock fuel s
      rw [← hu, hs]
      rfl
    split
    · exact hhead [] _ rfl
    · split
      · exact hhead [ReporterEvent.sleep retry_delay] _ rfl
      · exact hhead [] _ rfl
  · intro hnil
    unfold try_report_domains
    simp only [hnil, List.isEmpty_nil, if_true]
    obtain ⟨h1, h2⟩ := retry_loop_nil max_retries retry_delay server clock max_retries
      (clearPendingReportDomains c)
    split
    · rw [h1, h2]; rfl
    · rw [h1, h2]

/-- C22 (pending filter): for every cache state with pending set `c.pending`,
the list that `try_report_domains` submits is exactly the members of the pending
set for which `find` returns an entry, in the order of the set (members without
an entry are dropped): every POST of the run carries that list, and when it is
not empty and `max_retries ≥ 1` the first event of the run is such a POST. If no
pending member has an entry, `try_report_domains` empties the pending set,
issues no POST, does not sleep and changes no entry. -/
theorem try_report_domains_filter (c : RedisDNSCache) (max_retries retry_delay : Nat)
    (server : Nat → PostOutcome) (clock : Nat → Int) :
    filtered_domains c = c.pending.filter (fun d => (find c d).isSome) ∧
    (∀ d, d ∈ filtered_domains c ↔ d ∈ c.pending ∧ ∃ e, find c d = some e) ∧
    (∀ l, ReporterEvent.post l ∈
        (try_report_domains c max_retries retry_delay server clock).trace →
      l = c.pending.filter (fun d => (find c d).isSome)) ∧
    (c.pending.filter (fun d => (find c d).isSome) ≠ [] → 1 ≤ max_retries →
      (try_report_domains c max_retries retry_delay server clock).trace.head? =
        some (ReporterEvent.post (c.pending.filter (fun d => (find c d).isSome)))) ∧
    ((∀ d, d ∈ c.pending → find c d = none) →
      (try_report_domains c max_retries retry_delay server clock).trace = [] ∧
      (try_report_domains c max_retries retry_delay server clock).cache.pending = [] ∧
      (try_report_domains c max_retries retry_delay server clock).cache.entries = c.entries ∧
      (try_report_domains c max_retries retry_delay server clock).cache.lru = c.lru ∧
      (try_report_domains c max_retries retry_delay server clock).cache.max_size =
        c.max_size ∧
      (try_report_domains c max_retries retry_delay server clock).cache.ttl_config =
        c.ttl_config) := by
  have hf : filtered_domains c = c.pending.filter (fun d => (find c d).isSome) := rfl
  obtain ⟨hposts, hhead, hnil⟩ :=
    try_report_domains_run c max_retries retry_delay server clock
  refine ⟨hf, ?_, ?_, ?_, ?_⟩
  · intro d
    rw [hf]
    simp only [List.mem_filter, Option.isSome_iff_exists]
  · intro l hl
    rw [← hf]
    exact hposts l hl
  · intro hne hm
    rw [← hf] at hne ⊢
    exact hhead hne hm
  · intro hall
    have hempty : filtered_domains c = [] := by
      rw [hf, List.filter_eq_nil_iff]
      intro d hd
      rw [hall d hd]
      simp
    rw [hnil hempty]
    exact ⟨rfl, rfl, rfl, rfl, rfl, rfl⟩

/-- Witness for C22: in `stale_store` the pending set is `x, gone` and only `x`
has an entry, so the first event is the POST of `x` alone; in `orphan_store` no
pending member has an entry, so nothing is posted and the pending set is
emptied. -/
theorem try_report_domains_filter_witness :
    filtered_domains stale_store = ["x"] ∧
      (try_report_domains stale_store 3 5 (fun _ => PostOutcome.transport_error)
        (fun _ => 7)).trace.head? = some (ReporterEvent.post ["x"]) ∧
      (try_report_domains orphan_store 3 5 (fun _ => PostOutcome.transport_error)
        (fun _ => 7)).trace = [] ∧
      (try_report_domains orphan_store 3 5 (fun _ => PostOutcome.transport_error)
        (fun _ => 7)).cache.pending = [] :=
  ⟨(try_report_domains_filter stale_store 3 5 (fun _ => PostOutcome.transport_error)
      (fun _ => 7)).1.trans (by decide),
    ((try_report_domains_filter stale_store 3 5 (fun _ => PostOutcome.transport_error)
      (fun _ => 7)).2.2.2.1 (by decide) (by decide)).trans (by decide),
    ((try_report_domains_filter orphan_store 3 5 (fun _ => PostOutcome.transport_error)
      (fun _ => 7)).2.2.2.2 (by decide)).1,
    ((try_report_domains_filter orphan_store 3 5 (fun _ => PostOutcome.transport_error)
      (fun _ => 7)).2.2.2.2 (by decide)).2.1⟩

/-- C23 (retry exhaustion): for every cache with a non-empty filtered pending
list and every `max_retries ≥ 1`, if every attempt meets a transport error or a
status outside 2xx, `try_report_domains` makes exactly `max_retries` POSTs (3
with `kMaxRetryCount`), sleeps `retry_delay` only between two consecutive
attempts, and leaves the cache, the pending set included, as it was. -/
theorem try_report_domains_exhausts (c : RedisDNSCache) (max_retries retry_delay : Nat)
    (server : Nat → PostOutcome) (clock : Nat → Int)
    (hne : filtered_domains c ≠ []) (hm : 1 ≤ max_retries)
    (hfail : ∀ i, server i = PostOutcome.transport_error ∨
      ∃ code body, server i = PostOutcome.response code body ∧ (code < 200 ∨ 300 ≤ code)) :
    (try_report_domains c max_retries retry_delay server clock).cache = c ∧
      (try_report_domains c max_retries retry_delay server clock).trace =
        List.intersperse (ReporterEvent.sleep retry_delay)
          (List.replicate max_retries (ReporterEvent.post (filtered_domains c))) ∧
      ((try_report_domains c max_retries retry_delay server clock).trace.filter
        (fun ev => decide (ev = ReporterEvent.post (filtered_domains c)))).length =
          max_retries ∧
      ((try_report_domains c max_retries retry_delay server clock).trace.filter
        (fun ev => decide (ev = ReporterEvent.sleep retry_delay))).length = max_retries - 1 ∧
      (try_report_domains c kMaxRetryCount retry_delay server clock).trace =
        [ReporterEvent.post (filtered_domains c), ReporterEvent.sleep retry_delay,
         ReporterEvent.post (filtered_domains c), ReporterEvent.sleep retry_delay,
         ReporterEvent.post (filtered_domains c)] := by
  have hrun : ∀ m, 1 ≤ m →
      (try_report_domains c m retry_delay server clock).cache = c ∧
        (try_report_domains c m retry_delay server clock).trace =
          List.intersperse (ReporterEvent.sleep retry_delay)
            (List.replicate m (ReporterEvent.post (filtered_domains c))) := fun m h1 =>
    try_report_domains_failing c c m retry_delay server clock hne h1
      (reportDomains_of_failed c _ _ _ hne (hfail 0))
      (fun i => reportDomains_of_failed c _ _ _ hne (hfail i))
  have hcount : ∀ m : Nat, 1 ≤ m →
      ((List.intersperse (ReporterEvent.sleep retry_delay)
          (List.replicate m (ReporterEvent.post (filtered_domains c)))).filter
        (fun ev => decide (ev = ReporterEvent.post (filtered_domains c)))).length = m ∧
      ((List.intersperse (ReporterEvent.sleep retry_delay)
          (List.replicate m (ReporterEvent.post (filtered_domains c)))).filter
        (fun ev => decide (ev = ReporterEvent.sleep retry_delay))).length = m - 1 := by
    intro m
    induction m with
    | zero => intro h; omega
    | succ k ih =>
      intro _
      by_cases hk : 1 ≤ k
      · rw [intersperse_replicate_succ _ _ _ hk]
        obtain ⟨i1, i2⟩ := ih hk
        constructor
        · rw [List.filter_cons_of_pos (by simp), List.filter_cons_of_neg (by simp),
            List.length_cons, i1]
        · rw [List.filter_cons_of_neg (by simp), List.filter_cons_of_pos (by simp),
            List.length_cons, i2]
          omega
      · have : k = 0 := by omega
        subst this
        simp [List.replicate, List.intersperse]
  obtain ⟨h1, h2⟩ := hrun max_retries hm
  refine ⟨h1, h2, ?_, ?_, ?_⟩
  · rw [h2]; exact (hcount max_retries hm).1
  · rw [h2]; exact (hcount max_retries hm).2
  · rw [(hrun kMaxRetryCount (by decide)).2]
    rfl

/-- Witness for C23: `small_store` (pending `x`, which has an entry), two
attempts allowed, the classifier answers 500. -/
theorem try_report_domains_exhausts_witness :
    (try_report_domains small_store 2 5 (fun _ => PostOutcome.response 500 none)
      (fun _ => 10)).cache = small_store :=
  (try_report_domains_exhausts small_store 2 5 (fun _ => PostOutcome.response 500 none)
    (fun _ => 10) (by decide) (by decide)
    (fun _ => Or.inr ⟨500, none, rfl, Or.inr (by decide)⟩)).1

set_option maxRecDepth 100000 in
/-- C21, counterexamples: (a) from `five_store`, with every POST answered 200
and an empty body, `try_report_domains` with 3 retries posts three times and the
pending set still holds the five domains; (b) when the five entries are expired
at the time of the report (clock 1000), `d2` ends without an entry. -/
theorem try_report_domains_empty_body_counterexample :
    (getPendingReportDomains five_store = ["d1", "d2", "d3", "d4", "d5"] ∧
      (try_report_domains five_store 3 5 (fun _ => PostOutcome.response 200 none)
        (fun _ => 10)).trace =
        [ReporterEvent.post ["d1", "d2", "d3", "d4", "d5"], ReporterEvent.sleep 5,
         ReporterEvent.post ["d1", "d2", "d3", "d4", "d5"], ReporterEvent.sleep 5,
         ReporterEvent.post ["d1", "d2", "d3", "d4", "d5"]] ∧
      getPendingReportDomains
        (try_report_domains five_store 3 5 (fun _ => PostOutcome.response 200 none)
          (fun _ => 10)).cache = ["d1", "d2", "d3", "d4", "d5"]) ∧
    (find five_store "d2" =
        some { domain := "d2", status := DomainStatus.FAKE, action := DomainAction.DROP,
               query_count := 1, last_updated := 2, last_accessed := 2 } ∧
      find (try_report_domains five_store 3 5 (fun _ => PostOutcome.response 200 none)
        (fun _ => 1000)).cache "d2" = none) := by
  decide

/-- C21 as amended (threshold scenario with an empty 2xx body): for every cache
with no expired entry whose pending set is not empty (five distinct domains in
the scenario) and consists of domains that all have `(FAKE, DROP)` entries, when
every POST is answered HTTP 200 with an empty body, `reportDomains` returns
false each time, since an empty body is not parseable JSON; so
`try_report_domains` issues exactly `max_retries` POSTs (3 with
`kMaxRetryCount`), with a sleep between two of them, after which all the pending
domains are `(PEND, DROP)` with their `query_count`, every other entry is as
before, and the pending set is unchanged. An entry is stored under the C string
of the domain. -/
theorem try_report_domains_empty_body (c : RedisDNSCache) (max_retries retry_delay : Nat)
    (server : Nat → PostOutcome) (clock : Nat → Int)
    (hpend : getPendingReportDomains c ≠ [])
    (hfake : ∀ d ∈ getPendingReportDomains c, ∃ e, find c d = some e ∧
      e.status = DomainStatus.FAKE ∧ e.action = DomainAction.DROP)
    (hfresh : fresh c (clock 0)) (httl : 0 ≤ c.ttl_config.pend) (hm : 1 ≤ max_retries)
    (hserver : ∀ i, server i = PostOutcome.response 200 none) :
    (try_report_domains c max_retries retry_delay server clock).trace =
        List.intersperse (ReporterEvent.sleep retry_delay)
          (List.replicate max_retries (ReporterEvent.post (getPendingReportDomains c))) ∧
      (max_retries = kMaxRetryCount →
        (try_report_domains c max_retries retry_delay server clock).trace =
          [ReporterEvent.post (getPendingReportDomains c), ReporterEvent.sleep retry_delay,
           ReporterEvent.post (getPendingReportDomains c), ReporterEvent.sleep retry_delay,
           ReporterEvent.post (getPendingReportDomains c)]) ∧
      (∀ d ∈ getPendingReportDomains c, ∀ e, find c d = some e →
        find (try_report_domains c max_retries retry_delay server clock).cache d =
          some { domain := c_str d, status := DomainStatus.PEND, action := DomainAction.DROP,
                 query_count := e.query_count, last_updated := clock 0,
                 last_accessed := clock 0 }) ∧
      (∀ x, x ∉ (getPendingReportDomains c).map c_str →
        (try_report_domains c max_retries retry_delay server clock).cache.entries x =
          c.entries x) ∧
      getPendingReportDomains (try_report_domains c max_retries retry_delay server clock).cache =
        getPendingReportDomains c := by
  have hfilt : filtered_domains c = getPendingReportDomains c := by
    unfold filtered_domains
    rw [List.filter_eq_self]
    intro d hd
    obtain ⟨e, he, _⟩ := hfake d hd
    rw [he]; rfl
  have hne : filtered_domains c ≠ [] := by rw [hfilt]; exact hpend
  obtain ⟨m1, m2, _⟩ := foldl_mark_pending_spec (clock 0) (getPendingReportDomains c) c
    hfresh httl
  have hent : ∀ d ∈ getPendingReportDomains c, ∀ e, find c d = some e →
      ((getPendingReportDomains c).foldl (mark_pending (clock 0)) c).entries (c_str d) =
        some (full_hash (c_str d) DomainStatus.PEND DomainAction.DROP (clock 0) e.query_count
          (getTTL c.ttl_config DomainStatus.PEND DomainAction.DROP)) := by
    intro d hd e he
    obtain ⟨e1, he1, hst, hac⟩ := hfake d hd
    rw [he] at he1
    injection he1 with he1
    subst he1
    have hek : find_key c (c_str d) = some e := he
    rw [m1 (c_str d)]
    unfold mark_result
    simp [hek, List.mem_map_of_mem c_str hd, hst, hac]
  have hfind : ∀ d ∈ getPendingReportDomains c, ∀ e, find c d = some e →
      find ((getPendingReportDomains c).foldl (mark_pending (clock 0)) c) d =
        some { domain := c_str d, status := DomainStatus.PEND, action := DomainAction.DROP,
               query_count := e.query_count, last_updated := clock 0,
               last_accessed := clock 0 } := by
    intro d hd e he
    unfold find find_key
    simp only [hent d hd e he, full_hash, Option.getD_some,
      Nat.mod_eq_of_lt (find_query_count_lt c d e he)]
  have hfirst : reportDomains c (filtered_domains c) (server 0) (clock 0) =
      ((getPendingReportDomains c).foldl (mark_pending (clock 0)) c, false) := by
    rw [hfilt, hserver 0]
    exact reportDomains_of_unparsed c _ 200 _ hpend (by decide)
  have hstable : ∀ i, reportDomains
      ((getPendingReportDomains c).foldl (mark_pending (clock 0)) c) (filtered_domains c)
      (server i) (clock i) =
        ((getPendingReportDomains c).foldl (mark_pending (clock 0)) c, false) := by
    intro i
    rw [hfilt, hserver i, reportDomains_of_unparsed _ _ 200 _ hpend (by decide),
      foldl_mark_pending_skip]
    intro d hd e1 he1 hst
    obtain ⟨e, he, _⟩ := hfake d hd
    rw [hfind d hd e he] at he1
    injection he1 with he1
    rw [← he1] at hst
    exact DomainStatus.noConfusion hst
  have hrun : ∀ m, 1 ≤ m →
      (try_report_domains c m retry_delay server clock).cache =
          (getPendingReportDomains c).foldl (mark_pending (clock 0)) c ∧
        (try_report_domains c m retry_delay server clock).trace =
          List.intersperse (ReporterEvent.sleep retry_delay)
            (List.replicate m (ReporterEvent.post (getPendingReportDomains c))) := by
    intro m h1
    have := try_report_domains_failing c _ m retry_delay server clock hne h1 hfirst hstable
    rw [hfilt] at this
    exact this
  obtain ⟨h1, h2⟩ := hrun max_retries hm
  refine ⟨h2, ?_, ?_, ?_, ?_⟩
  · intro h3
    rw [h2, h3]
    rfl
  · intro d hd e he
    rw [h1]
    exact hfind d hd e he
  · intro x hx
    rw [h1, m1 x]
    unfold mark_result
    cases find_key c x with
    | none => rfl
    | some e => simp only [hx, false_and, if_false]
  · rw [h1]
    exact m2

/-- Witness for C21: `small_store` (pending `x`, a `(FAKE, DROP)` entry that is
not expired at 5), one attempt allowed. -/
theorem try_report_domains_empty_body_witness :
    (try_report_domains small_store 1 5 (fun _ => PostOutcome.response 200 none)
      (fun _ => 5)).trace = [ReporterEvent.post ["x"]] :=
  (try_report_domains_empty_body small_store 1 5 (fun _ => PostOutcome.response 200 none)
    (fun _ => 5) (by decide) (by decide)
    (by
      intro d h hd
      by_cases hx : d = "x"
      · subst hx
        have : h = full_hash "x" DomainStatus.FAKE DomainAction.DROP 1 1 300 := by
          simpa [small_store] using hd.symm
        subst this
        decide
      · simp [small_store, hx] at hd)
    (by decide) (by decide) (fun _ => rfl)).1

/-- Setting the counter to 0 twice is the same as once. -/
theorem hset_query_count_zero_idem (old : Option EntryHash) :
    hset_query_count_zero (some (hset_query_count_zero old)) = hset_query_count_zero old := by
  cases old <;> rfl

/-- The result of resetting the counters under a list of keys, one after the
other. -/
theorem foldl_resetQueryCount_key (ks : List String) :
    ∀ c : RedisDNSCache,
      (∀ x, (ks.foldl resetQueryCount_key c).entries x =
          if x ∈ ks then some (hset_query_count_zero (c.entries x)) else c.entries x) ∧
        (ks.foldl resetQueryCount_key c).lru = c.lru ∧
        (ks.foldl resetQueryCount_key c).pending = c.pending ∧
        (ks.foldl resetQueryCount_key c).max_size = c.max_size ∧
        (ks.foldl resetQueryCount_key c).ttl_config = c.ttl_config := by
  induction ks with
  | nil => intro c; exact ⟨fun x => by simp, rfl, rfl, rfl, rfl⟩
  | cons d rest ih =>
    intro c
    obtain ⟨h1, h2, h3, h4, h5⟩ := ih (resetQueryCount_key c d)
    rw [List.foldl_cons]
    refine ⟨?_, by rw [h2]; rfl, by rw [h3]; rfl, by rw [h4]; rfl, by rw [h5]; rfl⟩
    intro x
    rw [h1 x]
    by_cases hxd : x = d
    · subst hxd
      have hself : (resetQueryCount_key c x).entries x =
          some (hset_query_count_zero (c.entries x)) := by
        simp [resetQueryCount_key]
      rw [hself, hset_query_count_zero_idem]
      simp
    · have hother : (resetQueryCount_key c d).entries x = c.entries x := by
        simp [resetQueryCount_key, Function.update, hxd]
      rw [hother]
      simp [hxd]

/-- The domains of `report_data`: the index members, read as C strings, whose
counter is positive. -/
theorem report_data_domains (c : RedisDNSCache) :
    (report_data c).map StatItem.domain =
      ((zrange_all c.lru).map c_str).dedup.filter
        (fun d => decide (0 < (domain_meta c d).query_count)) := by
  unfold report_data getAllDomainData
  induction ((zrange_all c.lru).map c_str).dedup with
  | nil => rfl
  | cons d rest ih =>
    simp only [List.map_cons, List.filterMap_cons, List.filter_cons]
    by_cases hq : 0 < (domain_meta c d).query_count
    · simp only [gt_iff_lt, hq, if_true, List.map_cons, decide_True]
      rw [← ih]
    · simp only [gt_iff_lt, hq, if_false, decide_False, Bool.false_eq_true]
      rw [← ih]

/-- The loop of `reportStats` over `report_data` resets the hashes under the C
strings of the item domains. -/
theorem foldl_reset_items (items : List StatItem) :
    ∀ c : RedisDNSCache,
      items.foldl (fun c entry => resetQueryCount c entry.domain) c =
        ((items.map StatItem.domain).map c_str).foldl resetQueryCount_key c := by
  induction items with
  | nil => intro c; rfl
  | cons i rest ih =>
    intro c
    simp only [List.foldl_cons, List.map_cons]
    rw [resetQueryCount_eq_key]
    exact ih _

/-- What `find` returns is what `getAllDomainData` reports for the domain. -/
theorem domain_meta_of_find (c : RedisDNSCache) (d : String) (e : DomainEntry)
    (h : find c d = some e) :
    domain_meta c d =
      { status := some e.status, action := some e.action, query_count := e.query_count } := by
  unfold find find_key at h
  unfold domain_meta
  cases hd : c.entries (c_str d) with
  | none => rw [hd] at h; exact Option.noConfusion h
  | some hash =>
    rw [hd] at h
    simp only at h ⊢
    split at h
    · rename_i st ac qc lu la hst hac hqc hlu hla
      injection h with h
      rw [← h, hst, hac, hqc]
      rfl
    · exact Option.noConfusion h

/-- The entry that `find` decodes from a hash whose `query_count` was set to 0. -/
theorem find_of_reset_hash (c c1 : RedisDNSCache) (d : String) (h : EntryHash)
    (e : DomainEntry) (hh : c.entries (c_str d) = some h) (he : find c d = some e)
    (h1 : c1.entries (c_str d) = some { h with query_count := some 0 }) :
    find c1 d = some { e with query_count := 0 } := by
  unfold find find_key at he ⊢
  rw [h1]
  rw [hh] at he
  simp only at he ⊢
  split at he
  · rename_i st ac qc lu la hst hac hqc hlu hla
    injection he with he
    simp only [hst, hac, hlu, hla]
    rw [← he]
    rfl
  · exact Option.noConfusion he

/-- The report of a C string is the report of the name it is. -/
theorem domain_meta_c_str (c : RedisDNSCache) (d : String) :
    domain_meta c (c_str d) = domain_meta c d := by
  unfold domain_meta
  rw [c_str_idem]

/-- The domains that `reportStats` reports: the index members, read as C
strings, whose counter is positive. -/
theorem mem_report_data_domains (c : RedisDNSCache) (x : String) :
    x ∈ (report_data c).map StatItem.domain ↔
      x ∈ (c.lru.map Prod.fst).map c_str ∧ 0 < (domain_meta c x).query_count := by
  rw [report_data_domains, List.mem_filter, List.mem_dedup]
  simp only [List.mem_map, mem_zrange_all, decide_eq_true_eq]

/-- A reported domain is its own C string. -/
theorem report_data_domains_cut (c : RedisDNSCache) :
    ((report_data c).map StatItem.domain).map c_str = (report_data c).map StatItem.domain := by
  have hid : ∀ l : List String, (∀ x ∈ l, c_str x = x) → l.map c_str = l := by
    intro l
    induction l with
    | nil => intro _; rfl
    | cons a rest ih =>
      intro h
      rw [List.map_cons, h a (List.mem_cons_self a rest),
        ih (fun x hx => h x (List.mem_cons_of_mem a hx))]
  apply hid
  intro x hx
  obtain ⟨m, _, hm⟩ := List.mem_map.mp ((mem_report_data_domains c x).mp hx).1
  rw [← hm, c_str_idem]

/-- The cache that `reportStats` leaves after a 2xx answer. -/
theorem reportStats_success (c : RedisDNSCache) (interval : Int) (code : Int)
    (body : Option ReplyJson) (h2xx : 200 ≤ code ∧ code < 300) :
    (∀ x, (reportStats c interval (PostOutcome.response code body)).entries x =
        if x ∈ (c.lru.map Prod.fst).map c_str ∧ 0 < (domain_meta c x).query_count then
          some (hset_query_count_zero (c.entries x))
        else c.entries x) ∧
      (reportStats c interval (PostOutcome.response code body)).lru = c.lru ∧
      (reportStats c interval (PostOutcome.response code body)).pending = c.pending ∧
      (reportStats c interval (PostOutcome.response code body)).max_size = c.max_size ∧
      (reportStats c interval (PostOutcome.response code body)).ttl_config = c.ttl_config := by
  have hrun : reportStats c interval (PostOutcome.response code body) =
      ((report_data c).map StatItem.domain).foldl resetQueryCount_key c := by
    unfold reportStats
    simp only
    rw [if_pos ⟨by omega, h2xx.2⟩, foldl_reset_items, report_data_domains_cut]
  obtain ⟨h1, h2, h3, h4, h5⟩ :=
    foldl_resetQueryCount_key ((report_data c).map StatItem.domain) c
  rw [hrun]
  refine ⟨?_, h2, h3, h4, h5⟩
  intro x
  rw [h1 x]
  by_cases hx : x ∈ (report_data c).map StatItem.domain
  · rw [if_pos hx, if_pos ((mem_report_data_domains c x).mp hx)]
  · rw [if_neg hx, if_neg (fun h => hx ((mem_report_data_domains c x).mpr h))]

/-- C24 (stats flush): for every cache state, `reportStats` puts into the stats
array exactly one item per indexed domain (read as a C string) whose
`query_count` is positive, carrying the domain, the string `DROP` or `PERMIT` of
its action and its `query_count`. If the POST is answered with HTTP 2xx,
afterwards every indexed entry has `query_count` 0, all other members of every
hash, the set of hashes, the LRU index and the pending set are unchanged; on any
other outcome the cache is unchanged. -/
theorem reportStats_flush (c : RedisDNSCache) (interval : Int) :
    (∀ item, item ∈ report_data c ↔
      ∃ d, d ∈ c.lru.map Prod.fst ∧ 0 < (domain_meta c d).query_count ∧
        item = { domain := c_str d, action := (domain_meta c d).action.map action_text,
                 queries := (domain_meta c d).query_count }) ∧
    ((report_data c).map StatItem.domain).Nodup ∧
    (∀ d e, find c d = some e →
      (domain_meta c d).query_count = e.query_count ∧
      (domain_meta c d).action.map action_text =
        some (if e.action = DomainAction.DROP then "DROP" else "PERMIT")) ∧
    (∀ (code : Int) (body : Option ReplyJson), 200 ≤ code ∧ code < 300 →
      (∀ d, d ∈ c.lru.map Prod.fst →
        (domain_meta (reportStats c interval (PostOutcome.response code body)) d).query_count
          = 0) ∧
      (∀ d e, d ∈ c.lru.map Prod.fst → find c d = some e →
        find (reportStats c interval (PostOutcome.response code body)) d =
          some { e with query_count := 0 }) ∧
      (∀ x h, c.entries x = some h →
        (reportStats c interval (PostOutcome.response code body)).entries x =
          some { h with query_count :=
            (if x ∈ (c.lru.map Prod.fst).map c_str ∧ 0 < (domain_meta c x).query_count then
              some 0
            else h.query_count) }) ∧
      (∀ x, c.entries x = none →
        (reportStats c interval (PostOutcome.response code body)).entries x = none) ∧
      (reportStats c interval (PostOutcome.response code body)).lru = c.lru ∧
      (reportStats c interval (PostOutcome.response code body)).pending = c.pending) ∧
    reportStats c interval PostOutcome.transport_error = c ∧
    (∀ (code : Int) (body : Option ReplyJson), code < 200 ∨ 300 ≤ code →
      reportStats c interval (PostOutcome.response code body) = c) := by
  refine ⟨?_, ?_, ?_, ?_, rfl, ?_⟩
  · intro item
    unfold report_data getAllDomainData
    simp only [List.mem_filterMap, List.mem_map, List.mem_dedup, mem_zrange_all]
    constructor
    · rintro ⟨p, ⟨k, ⟨d, hd, rfl⟩, rfl⟩, hp⟩
      simp only at hp
      split at hp
      · rename_i hq
        injection hp with hp
        rw [domain_meta_c_str] at hp hq
        exact ⟨d, hd, hq, hp.symm⟩
      · exact Option.noConfusion hp
    · rintro ⟨d, hd, hq, rfl⟩
      obtain ⟨p, hp, hpd⟩ := hd
      refine ⟨(c_str d, domain_meta c (c_str d)), ⟨c_str d, ⟨d, ⟨p, hp, hpd⟩, rfl⟩, rfl⟩, ?_⟩
      simp only
      rw [domain_meta_c_str, if_pos hq]
  · rw [report_data_domains]
    exact List.Nodup.filter _ (List.nodup_dedup _)
  · intro d e he
    rw [domain_meta_of_find c d e he]
    exact ⟨rfl, rfl⟩
  · intro code body h2xx
    obtain ⟨h1, h2, h3, _, _⟩ := reportStats_success c interval code body h2xx
    have hnone : ∀ x, c.entries x = none →
        (reportStats c interval (PostOutcome.response code body)).entries x = none := by
      intro x hx
      rw [h1 x]
      split
      · rename_i hmem
        obtain ⟨m, _, hm⟩ := List.mem_map.mp hmem.1
        have hxx : c_str x = x := by rw [← hm, c_str_idem]
        have hq : (domain_meta c x).query_count = 0 := by
          unfold domain_meta; rw [hxx, hx]
        rw [hq] at hmem
        exact absurd hmem.2 (by decide)
      · exact hx
    have hsome : ∀ x h, c.entries x = some h →
        (reportStats c interval (PostOutcome.response code body)).entries x =
          some { h with query_count :=
            (if x ∈ (c.lru.map Prod.fst).map c_str ∧ 0 < (domain_meta c x).query_count then
              some 0
            else h.query_count) } := by
      intro x h hx
      rw [h1 x]
      split
      · rw [hx]; rfl
      · rw [hx]
    have hmeta0 : ∀ d, d ∈ c.lru.map Prod.fst →
        (domain_meta (reportStats c interval (PostOutcome.response code body)) d).query_count
          = 0 := by
      intro d hmem
      have hcut : c_str d ∈ (c.lru.map Prod.fst).map c_str := List.mem_map_of_mem c_str hmem
      cases hd : c.entries (c_str d) with
      | none =>
        unfold domain_meta
        rw [hnone (c_str d) hd]
      | some h =>
        unfold domain_meta
        rw [hsome (c_str d) h hd]
        simp only
        split
        · rfl
        · rename_i hq
          have hmeta : (domain_meta c (c_str d)).query_count =
              h.query_count.getD 0 % 2 ^ 32 := by
            unfold domain_meta; rw [c_str_idem, hd]
          rw [hmeta] at hq
          have hz : ¬ 0 < h.query_count.getD 0 % 2 ^ 32 := fun hpos => hq ⟨hcut, hpos⟩
          omega
    refine ⟨hmeta0, ?_, hsome, hnone, h2, h3⟩
    intro d e hmem he
    have hcut : c_str d ∈ (c.lru.map Prod.fst).map c_str := List.mem_map_of_mem c_str hmem
    cases hd : c.entries (c_str d) with
    | none =>
      unfold find find_key at he
      rw [hd] at he
      exact Option.noConfusion he
    | some h =>
      by_cases hq : 0 < (domain_meta c (c_str d)).query_count
      · refine find_of_reset_hash c _ d h e hd he ?_
        rw [hsome (c_str d) h hd, if_pos ⟨hcut, hq⟩]
      · have he0 : e.query_count = 0 := by
          have := (domain_meta_of_find c d e he)
          rw [domain_meta_c_str, this] at hq
          simp only at hq
          omega
        have hsame : (reportStats c interval (PostOutcome.response code body)).entries
            (c_str d) = c.entries (c_str d) := by
          rw [hsome (c_str d) h hd, if_neg (fun hh => hq hh.2), hd]
        rw [find_congr _ c d hsame, he, ← he0]
  · intro code body hcode
    unfold reportStats
    simp only
    rw [if_neg (by omega)]

/-- The sweep never makes `find` succeed. -/
theorem find_cleanupExpired_none (c : RedisDNSCache) (now : Int) (d : String)
    (h : find c d = none) : find (cleanupExpired c now) d = none := by
  by_cases hsw : swept c now (c_str d) = true
  · unfold find find_key
    rw [(cleanupExpired_spec c now).1 (c_str d), if_pos hsw]
  · rw [find_congr (cleanupExpired c now) c d
      (by rw [(cleanupExpired_spec c now).1 (c_str d), if_neg hsw])]
    exact h

/-- The pending set after an `insert`. -/
theorem insert_pending (c : RedisDNSCache) (d : String) (s : DomainStatus)
    (a : DomainAction) (now : Int) :
    (insert c d s a now).1.pending = sadd c.pending (c_str d) := by
  simp [insert, addToPendingReportSet, write_entry, (makeRoom_frame c).1]

/-- The set `SADD` leaves holds the member and grows by at most one. -/
theorem sadd_spec (set : List String) (member : String) :
    member ∈ sadd set member ∧ (sadd set member).length ≤ set.length + 1 := by
  unfold sadd
  split
  · rename_i h; exact ⟨h, Nat.le_succ _⟩
  · exact ⟨by simp, by simp⟩

/-- The cache update of the task for a domain that `find` does not know: the
insert of a `(FAKE, DROP)` entry into the swept cache. -/
theorem observe_domain_unknown (c : RedisDNSCache) (d : String) (now : Int)
    (h : find c d = none) :
    observe_domain c d now =
      (insert (cleanupExpired c now) d DomainStatus.FAKE DomainAction.DROP now).1 := by
  unfold observe_domain
  rw [h]
  simp only
  rw [insertOrUpdate_of_none c d _ _ now (find_cleanupExpired_none c now d h)]

/-- C25 refuted on a name with a NUL byte: in the empty cache `find` returns
nothing for `nul_name` and nothing is pending, yet after the task for it no hash
is stored under `nul_name` and `nul_name` is not pending: the entry and the
pending member are `a`, the name cut at the NUL byte. -/
theorem process_domain_cut_name_counterexample :
    find (empty_cache 10) nul_name = none ∧
      (empty_cache 10).pending.length < 4 ∧
      (process_domain (empty_cache 10) nul_name 5 (fun _ => PostOutcome.transport_error)
        (fun _ => 5)).cache.entries nul_name = none ∧
      nul_name ∉ (process_domain (empty_cache 10) nul_name 5
        (fun _ => PostOutcome.transport_error) (fun _ => 5)).cache.pending ∧
      (process_domain (empty_cache 10) nul_name 5 (fun _ => PostOutcome.transport_error)
        (fun _ => 5)).cache.pending = ["a"] ∧
      (process_domain (empty_cache 10) nul_name 5 (fun _ => PostOutcome.transport_error)
        (fun _ => 5)).cache.lru = [("a", 5)] ∧
      find (process_domain (empty_cache 10) nul_name 5 (fun _ => PostOutcome.transport_error)
        (fun _ => 5)).cache nul_name =
        some { domain := "a", status := DomainStatus.FAKE, action := DomainAction.DROP,
               query_count := 1, last_updated := 5, last_accessed := 5 } := by
  decide

/-- C25 as amended (cold start): for every cache in which `find` returns no
entry for `d` and fewer than 4 domains are pending, the task `process_domain(d)`
creates the entry of `c_str d`, the name `d` cut at its first NUL byte (status
FAKE, action DROP, `query_count` 1, timestamps `now`), adds `c_str d` to the
pending set, which then holds at most 4 domains, does not call
`try_report_domains` and issues no POST; when `d` has no NUL byte
(`c_str d = d`) the entry and the pending member are `d` itself. Starting from the empty cache with the single
domain `a.example` the result is exactly one entry `(FAKE, DROP, query_count 1)`
and the pending set `{a.example}`. -/
theorem process_domain_cold_start (c : RedisDNSCache) (d : String) (now : Int)
    (server : Nat → PostOutcome) (clock : Nat → Int)
    (hnone : find c d = none) (hcount : c.pending.length < 4) :
    (process_domain c d now server clock).cache.entries (c_str d) =
        some (full_hash (c_str d) DomainStatus.FAKE DomainAction.DROP now 1
          (getTTL c.ttl_config DomainStatus.FAKE DomainAction.DROP)) ∧
      find (process_domain c d now server clock).cache d =
        some { domain := c_str d, status := DomainStatus.FAKE, action := DomainAction.DROP,
               query_count := 1, last_updated := now, last_accessed := now } ∧
      (process_domain c d now server clock).cache.pending = sadd c.pending (c_str d) ∧
      c_str d ∈ (process_domain c d now server clock).cache.pending ∧
      (process_domain c d now server clock).cache.pending.length ≤ 4 ∧
      (process_domain c d now server clock).calls = [] ∧
      (process_domain c d now server clock).trace = [] ∧
      (c_str d = d →
        (process_domain c d now server clock).cache.entries d =
          some (full_hash d DomainStatus.FAKE DomainAction.DROP now 1
            (getTTL c.ttl_config DomainStatus.FAKE DomainAction.DROP)) ∧
        find (process_domain c d now server clock).cache d =
          some { domain := d, status := DomainStatus.FAKE, action := DomainAction.DROP,
                 query_count := 1, last_updated := now, last_accessed := now } ∧
        d ∈ (process_domain c d now server clock).cache.pending) ∧
      (∀ K : Nat,
        (∀ x, (process_domain (empty_cache K) "a.example" now server clock).cache.entries x =
          if x = "a.example" then
            some (full_hash "a.example" DomainStatus.FAKE DomainAction.DROP now 1 300)
          else none) ∧
        (process_domain (empty_cache K) "a.example" now server clock).cache.lru =
          [("a.example", now)] ∧
        (process_domain (empty_cache K) "a.example" now server clock).cache.pending =
          ["a.example"] ∧
        (process_domain (empty_cache K) "a.example" now server clock).trace = []) := by
  have hobs := observe_domain_unknown c d now hnone
  have hpend : (observe_domain c d now).pending = sadd c.pending (c_str d) := by
    rw [hobs, insert_pending, (cleanupExpired_frame c now).1]
  have hlen : (observe_domain c d now).pending.length ≤ 4 := by
    rw [hpend]
    have := (sadd_spec c.pending (c_str d)).2
    omega
  have hlow : ¬ getPendingReportCount (observe_domain c d now) ≥ kReportThreshold := by
    unfold getPendingReportCount kReportThreshold
    omega
  have hrun : process_domain c d now server clock =
      { cache := observe_domain c d now, enqueued := true, calls := [], trace := [] } := by
    unfold process_domain
    simp only
    rw [if_neg hlow]
  have hent : (observe_domain c d now).entries (c_str d) =
      some (full_hash (c_str d) DomainStatus.FAKE DomainAction.DROP now 1
        (getTTL c.ttl_config DomainStatus.FAKE DomainAction.DROP)) := by
    rw [hobs, insert_entries_self, (cleanupExpired_frame c now).2.1]
  have hfind : find (observe_domain c d now) d =
      some { domain := c_str d, status := DomainStatus.FAKE, action := DomainAction.DROP,
             query_count := 1, last_updated := now, last_accessed := now } := by
    unfold find find_key
    simp only [hent, full_hash, Option.getD_some]
    rfl
  have hmem : c_str d ∈ (observe_domain c d now).pending := by
    rw [hpend]
    exact (sadd_spec c.pending (c_str d)).1
  rw [hrun]
  refine ⟨hent, hfind, hpend, hmem, hlen, rfl, rfl, ?_, ?_⟩
  · intro hcut
    rw [hcut] at hent hfind hmem
    exact ⟨hent, hfind, hmem⟩
  · intro K
    have hname : c_str "a.example" = "a.example" := by decide
    have hcl : cleanupExpired (empty_cache K) now = empty_cache K := by
      simp [cleanupExpired, empty_cache, zrange_all]
    have hmk : makeRoom (empty_cache K) = empty_cache K := by
      simp [makeRoom, empty_cache, zrange_all]
    have hobsK : observe_domain (empty_cache K) "a.example" now =
        (insert (empty_cache K) "a.example" DomainStatus.FAKE DomainAction.DROP now).1 := by
      rw [observe_domain_unknown _ _ _ (by simp [find, find_key, empty_cache]), hcl]
    have hrunK : process_domain (empty_cache K) "a.example" now server clock =
        { cache := observe_domain (empty_cache K) "a.example" now, enqueued := true,
          calls := [], trace := [] } := by
      unfold process_domain
      simp only
      rw [if_neg]
      rw [hobsK]
      simp [getPendingReportCount, insert_pending, empty_cache, sadd, kReportThreshold]
    rw [hrunK, hobsK]
    simp only [insert, hmk, addToPendingReportSet, write_entry, hname]
    refine ⟨?_, ?_, ?_, trivial⟩
    · intro x
      by_cases hx : x = "a.example"
      · subst hx; simp [empty_cache, getTTL, default_ttl_config]
      · simp [empty_cache, Function.update, hx]
    · simp [empty_cache, zadd]
    · simp [empty_cache, sadd]

/-- Witness for C25: the domain `y` observed in `small_store`, whose pending set
holds one domain: afterwards `x` and `y` are pending and nothing was posted. -/
theorem process_domain_cold_start_witness :
    (process_domain small_store "y" 7 (fun _ => PostOutcome.transport_error)
        (fun _ => 7)).cache.pending = ["x", "y"] ∧
      (process_domain small_store "y" 7 (fun _ => PostOutcome.transport_error)
        (fun _ => 7)).trace = [] :=
  ⟨(process_domain_cold_start small_store "y" 7 (fun _ => PostOutcome.transport_error)
      (fun _ => 7) (by decide) (by decide)).2.2.1.trans (by decide),
    (process_domain_cold_start small_store "y" 7 (fun _ => PostOutcome.transport_error)
      (fun _ => 7) (by decide) (by decide)).2.2.2.2.2.2.1⟩

/-- C26 (threshold trigger): for every cache state and every non-empty domain,
the loop enqueues the task, and the task calls `try_report_domains`, with 3
retries and a delay of 5 seconds, if and only if the pending set holds at least
5 domains after its cache update: then the outcome of the task is the outcome of
that call, whose first event, when a pending domain has an entry, is the POST of
the pending domains that have one; otherwise it is the updated cache and nothing
is posted. An empty string popped from the queue enqueues no task: the cache is
as it was and nothing is reported. -/
theorem threshold_trigger (c : RedisDNSCache) (domain : String) (now : Int)
    (server : Nat → PostOutcome) (clock : Nat → Int) :
    (domain.isEmpty = false →
      (cache_processor_step c domain now server clock).enqueued = true ∧
      ((cache_processor_step c domain now server clock).calls ≠ [] ↔
        5 ≤ (observe_domain c domain now).pending.length) ∧
      (5 ≤ (observe_domain c domain now).pending.length →
        (cache_processor_step c domain now server clock).calls = [(3, 5)] ∧
        (cache_processor_step c domain now server clock).cache =
          (try_report_domains (observe_domain c domain now) 3 5 server clock).cache ∧
        (cache_processor_step c domain now server clock).trace =
          (try_report_domains (observe_domain c domain now) 3 5 server clock).trace ∧
        ((observe_domain c domain now).pending.filter
            (fun d => (find (observe_domain c domain now) d).isSome) ≠ [] →
          (cache_processor_step c domain now server clock).trace.head? =
            some (ReporterEvent.post ((observe_domain c domain now).pending.filter
              (fun d => (find (observe_domain c domain now) d).isSome))))) ∧
      ((observe_domain c domain now).pending.length < 5 →
        (cache_processor_step c domain now server clock).calls = [] ∧
        (cache_processor_step c domain now server clock).cache =
          observe_domain c domain now ∧
        (cache_processor_step c domain now server clock).trace = [])) ∧
    (domain.isEmpty = true →
      (cache_processor_step c domain now server clock).enqueued = false ∧
      (cache_processor_step c domain now server clock).cache = c ∧
      (cache_processor_step c domain now server clock).calls = [] ∧
      (cache_processor_step c domain now server clock).trace = []) ∧
    String.isEmpty "" = true := by
  refine ⟨?_, ?_, rfl⟩
  · intro hne
    have hstep : cache_processor_step c domain now server clock =
        process_domain c domain now server clock := by
      unfold cache_processor_step
      rw [hne]
      rfl
    rw [hstep]
    by_cases hcount : 5 ≤ (observe_domain c domain now).pending.length
    · have hrun : process_domain c domain now server clock =
          { cache := (try_report_domains (observe_domain c domain now) 3 5 server clock).cache,
            enqueued := true, calls := [(3, 5)],
            trace := (try_report_domains (observe_domain c domain now) 3 5 server clock).trace } := by
        unfold process_domain
        simp only
        rw [if_pos (show getPendingReportCount (observe_domain c domain now) ≥ kReportThreshold
          from hcount)]
        rfl
      rw [hrun]
      refine ⟨rfl, ⟨fun _ => hcount, fun _ => by simp⟩, fun _ => ⟨rfl, rfl, rfl, ?_⟩, ?_⟩
      · intro hfil
        exact (try_report_domains_run (observe_domain c domain now) 3 5 server clock).2.1
          hfil (by decide)
      · intro hlt
        omega
    · have hrun : process_domain c domain now server clock =
          { cache := observe_domain c domain now, enqueued := true, calls := [],
            trace := [] } := by
        unfold process_domain
        simp only
        rw [if_neg (show ¬ getPendingReportCount (observe_domain c domain now) ≥ kReportThreshold
          from hcount)]
      rw [hrun]
      refine ⟨rfl, ⟨fun h => absurd rfl h, fun h => absurd h hcount⟩,
        fun h => absurd h hcount, fun _ => ⟨rfl, rfl, rfl⟩⟩
  · intro he
    unfold cache_processor_step
    rw [he]
    exact ⟨rfl, rfl, rfl, rfl⟩

/-- C30 (expired entries keep their verdict on re-observation): for every store
in which `d`, under the name `c_str d` that the backend receives (`d` itself
when it has no NUL byte), has an indexed entry that is already expired at `now`
(`last_updated + ttl < now`) but not yet swept, `find(d)` still returns that
entry, with its status `s` and action `a`, and the cache update of the task for
`d` at `now` re-creates it with the status `s` and the action `a` of the
expired entry (not with FAKE and DROP), `query_count` 1,
`last_updated = last_accessed = now` and the ttl of `(s, a)`, and adds it to the
pending set; while fewer than 5 domains are pending this is the cache that the
task leaves. -/
theorem expired_entry_keeps_verdict (c : RedisDNSCache) (d : String) (now : Int)
    (server : Nat → PostOutcome) (clock : Nat → Int)
    (h : EntryHash) (e : DomainEntry) (t : Int)
    (hidx : c_str d ∈ c.lru.map Prod.fst) (hh : c.entries (c_str d) = some h)
    (he : find c d = some e) (ht : h.ttl = some t) (hlt : e.last_updated + t < now) :
    h.status = some e.status ∧ h.action = some e.action ∧
      h.last_updated = some e.last_updated ∧
      swept c now (c_str d) = true ∧
      (observe_domain c d now).entries (c_str d) =
        some (full_hash (c_str d) e.status e.action now 1
          (getTTL c.ttl_config e.status e.action)) ∧
      find (observe_domain c d now) d =
        some { domain := c_str d, status := e.status, action := e.action, query_count := 1,
               last_updated := now, last_accessed := now } ∧
      (c_str d, now) ∈ (observe_domain c d now).lru ∧
      c_str d ∈ getPendingReportDomains (observe_domain c d now) ∧
      (getPendingReportCount (observe_domain c d now) < 5 →
        (process_domain c d now server clock).cache = observe_domain c d now ∧
        (process_domain c d now server clock).trace = []) := by
  have hfields : h.status = some e.status ∧ h.action = some e.action ∧
      h.last_updated = some e.last_updated := by
    unfold find find_key at he
    rw [hh] at he
    simp only at he
    split at he
    · rename_i st ac qc lu la hst hac hqc hlu hla
      injection he with he
      rw [← he]
      exact ⟨hst, hac, hlu⟩
    · exact Option.noConfusion he
  have hexp : expired h now = true := by
    unfold expired
    rw [ht, hfields.2.2]
    simpa using hlt
  have hsw : swept c now (c_str d) = true := by
    simp only [swept, hash_expired, hh, hexp, Bool.and_true, decide_eq_true_eq]
    exact hidx
  have hnone : find (cleanupExpired c now) d = none := by
    unfold find find_key
    rw [(cleanupExpired_spec c now).1 (c_str d), if_pos hsw]
  have hobs : observe_domain c d now =
      (insert (cleanupExpired c now) d e.status e.action now).1 := by
    unfold observe_domain
    rw [he]
    simp only
    rw [insertOrUpdate_of_none c d _ _ now hnone]
  have hent : (observe_domain c d now).entries (c_str d) =
      some (full_hash (c_str d) e.status e.action now 1
        (getTTL c.ttl_config e.status e.action)) := by
    rw [hobs, insert_entries_self, (cleanupExpired_frame c now).2.1]
  refine ⟨hfields.1, hfields.2.1, hfields.2.2, hsw, hent, ?_, ?_, ?_, ?_⟩
  · unfold find find_key
    simp only [hent, full_hash, Option.getD_some]
    rfl
  · rw [hobs]
    simp [insert, addToPendingReportSet, write_entry, zadd]
  · rw [hobs]
    simp only [getPendingReportDomains, insert_pending]
    exact (sadd_spec _ (c_str d)).1
  · intro hcount
    have hrun : process_domain c d now server clock =
        { cache := observe_domain c d now, enqueued := true, calls := [], trace := [] } := by
      unfold process_domain
      simp only
      rw [if_neg (by unfold kReportThreshold; omega)]
    rw [hrun]
    exact ⟨rfl, rfl⟩

/-- Witness for C30: `d` is `(FULL, PERMIT)` in `known_store`, written at 40
with ttl 86400, and observed again at 100000. -/
theorem expired_entry_keeps_verdict_witness :
    find (observe_domain known_store "d" 100000) "d" =
      some { domain := "d", status := DomainStatus.FULL, action := DomainAction.PERMIT,
             query_count := 1, last_updated := 100000, last_accessed := 100000 } :=
  (expired_entry_keeps_verdict known_store "d" 100000 (fun _ => PostOutcome.transport_error)
    (fun _ => 100000)
    (full_hash "d" DomainStatus.FULL DomainAction.PERMIT 40 7 86400)
    { domain := "d", status := DomainStatus.FULL, action := DomainAction.PERMIT,
      query_count := 7, last_updated := 40, last_accessed := 40 }
    86400 (by decide) (by decide) (by decide) rfl (by decide)).2.2.2.2.2.1

set_option maxRecDepth 100000 in
/-- Witness for C26: `four_store` holds the pending domains `d1 .. d4`; the task
for `d5` makes them five, calls `try_report_domains` with `(3, 5)`, and the
first event is the POST of all five. -/
theorem threshold_trigger_witness :
    (observe_domain four_store "d5" 5).pending = ["d1", "d2", "d3", "d4", "d5"] ∧
      (cache_processor_step four_store "d5" 5 (fun _ => PostOutcome.transport_error)
        (fun _ => 5)).calls = [(3, 5)] ∧
      (cache_processor_step four_store "d5" 5 (fun _ => PostOutcome.transport_error)
        (fun _ => 5)).trace.head? =
          some (ReporterEvent.post ["d1", "d2", "d3", "d4", "d5"]) :=
  ⟨by decide,
    (((threshold_trigger four_store "d5" 5 (fun _ => PostOutcome.transport_error)
      (fun _ => 5)).1 (by decide)).2.2.1 (by decide)).1,
    ((((threshold_trigger four_store "d5" 5 (fun _ => PostOutcome.transport_error)
      (fun _ => 5)).1 (by decide)).2.2.1 (by decide)).2.2.2 (by decide)).trans (by decide)⟩

/-- Consistency does not depend on the pending set or the capacity. -/
theorem consistent_congr (c c1 : RedisDNSCache) (he : c1.entries = c.entries)
    (hl : c1.lru = c.lru) (hc : c1.ttl_config = c.ttl_config) (h : consistent c) :
    consistent c1 := by
  unfold consistent at *
  rw [he, hl, hc]
  exact h

/-- Deleting a set of keys from both tables keeps the store consistent. -/
theorem consistent_of_delete (c c1 : RedisDNSCache) (P : String → Prop) [DecidablePred P]
    (he : ∀ x, c1.entries x = if P x then none else c.entries x)
    (hl : c1.lru = c.lru.filter (fun p => decide (¬ P p.1)))
    (hc : c1.ttl_config = c.ttl_config) (h : consistent c) : consistent c1 := by
  obtain ⟨h1, h2, h3, h4, h5⟩ := h
  refine ⟨by rw [hc, h1], ?_, ?_, ?_, ?_⟩
  · rw [hl]
    exact List.Nodup.sublist ((List.filter_sublist _).map Prod.fst) h2
  · intro d hd
    rw [hl] at hd
    obtain ⟨p, hp, hpd⟩ := List.mem_map.mp hd
    obtain ⟨hp1, hp2⟩ := List.mem_filter.mp hp
    have hnp : ¬ P d := by rw [← hpd]; simpa using hp2
    rw [he d, if_neg hnp]
    exact h3 d (List.mem_map.mpr ⟨p, hp1, hpd⟩)
  · intro d h hd
    rw [he d] at hd
    by_cases hp : P d
    · rw [if_pos hp] at hd; exact Option.noConfusion hd
    · rw [if_neg hp] at hd
      obtain ⟨s, a, t, q, hh, hm⟩ := h4 d h hd
      refine ⟨s, a, t, q, hh, ?_⟩
      rw [hl]
      exact List.mem_filter.mpr ⟨hm, by simpa using hp⟩
  · intro d hd
    rw [hl] at hd
    exact h5 d ((List.filter_sublist _).map Prod.fst |>.subset hd)

/-- The sweep keeps the store consistent. -/
theorem cleanupExpired_consistent (c : RedisDNSCache) (now : Int) (h : consistent c) :
    consistent (cleanupExpired c now) := by
  obtain ⟨h1, h2⟩ := cleanupExpired_spec c now
  refine consistent_of_delete c _ (fun x => swept c now x = true) h1 ?_
    (cleanupExpired_frame c now).2.1 h
  rw [h2]
  apply List.filter_congr
  intro p _
  simp only
  by_cases hs : swept c now p.1 = true
  · simp [hs]
  · simp [hs]

/-- Deleting a list of keys keeps the store consistent. -/
theorem foldl_del_key_consistent (keys : List String) (c : RedisDNSCache)
    (h : consistent c) : consistent (keys.foldl del_key c) := by
  obtain ⟨h1, h2, _, _, h5⟩ := foldl_del_key keys c
  exact consistent_of_delete c _ (fun x => x ∈ keys) h1 h2 h5 h

/-- The eviction keeps the store consistent. -/
theorem makeRoom_consistent (c : RedisDNSCache) (h : consistent c) :
    consistent (makeRoom c) := by
  unfold makeRoom
  simp only
  split
  · exact foldl_del_key_consistent _ c h
  · exact h

/-- The method `remove` keeps the store consistent. -/
theorem remove_consistent (c : RedisDNSCache) (d : String) (h : consistent c) :
    consistent (remove c d).1 :=
  foldl_del_key_consistent [c_str d] c h

/-- Writing a full record under a C string, with the ttl of its
`(status, action)`, keeps the store consistent. -/
theorem write_entry_consistent (c : RedisDNSCache) (d : String) (s : DomainStatus)
    (a : DomainAction) (now : Int) (q : Nat) (hcut : c_str d = d) (h : consistent c) :
    consistent (write_entry c d s a now q (getTTL c.ttl_config s a)) := by
  obtain ⟨h1, h2, h3, h4, h5⟩ := h
  refine ⟨h1, ?_, ?_, ?_, ?_⟩
  · simp only [write_entry, zadd, List.map_append, List.map_cons, List.map_nil]
    rw [List.nodup_append]
    refine ⟨List.Nodup.sublist ((List.filter_sublist _).map Prod.fst) h2,
      List.nodup_singleton _, ?_⟩
    intro x hx hxd
    rw [List.mem_singleton] at hxd
    obtain ⟨p, hp, hpx⟩ := List.mem_map.mp hx
    have := (List.mem_filter.mp hp).2
    rw [hpx, hxd] at this
    simp at this
  · intro x hx
    have hx1 : x ∈ (zadd c.lru now d).map Prod.fst := hx
    rw [mem_zadd_fst] at hx1
    by_cases hxd : x = d
    · subst hxd; simp [write_entry]
    · rcases hx1 with hx1 | hx1
      · exact absurd hx1 hxd
      · simp only [write_entry, Function.update, hxd, dite_false]
        exact h3 x hx1
  · intro x hash hx
    by_cases hxd : x = d
    · subst hxd
      simp only [write_entry, Function.update_same, Option.some.injEq] at hx
      refine ⟨s, a, now, q, ?_, ?_⟩
      · rw [← hx, h1, getTTL_default]
      · simp [write_entry, zadd]
    · simp only [write_entry, Function.update, hxd, dite_false] at hx
      obtain ⟨s1, a1, t1, q1, hh, hm⟩ := h4 x hash hx
      refine ⟨s1, a1, t1, q1, hh, ?_⟩
      simp only [write_entry, zadd, List.mem_append, List.mem_filter]
      exact Or.inl ⟨hm, by simpa using hxd⟩
  · intro x hx
    have hx1 : x ∈ (zadd c.lru now d).map Prod.fst := hx
    rw [mem_zadd_fst] at hx1
    rcases hx1 with hx1 | hx1
    · rw [hx1]; exact hcut
    · exact h5 x hx1

/-- The method `insertOrUpdate` keeps the store consistent. -/
theorem insertOrUpdate_consistent (c : RedisDNSCache) (d : String) (s : DomainStatus)
    (a : DomainAction) (now : Int) (h : consistent c) :
    consistent (insertOrUpdate c d s a now).1 := by
  have hcl := cleanupExpired_consistent c now h
  cases hfind : find (cleanupExpired c now) d with
  | none =>
    rw [insertOrUpdate_of_none c d s a now hfind]
    have hmk := makeRoom_consistent _ hcl
    have hw := write_entry_consistent _ (c_str d) s a now 1 (c_str_idem d) hmk
    rw [(makeRoom_frame (cleanupExpired c now)).2.2] at hw
    exact consistent_congr _ _ rfl rfl rfl hw
  | some e =>
    rw [insertOrUpdate_of_some c d s a now e hfind]
    exact write_entry_consistent _ (c_str d) s a now _ (c_str_idem d) hcl

/-- The marking loop of `reportDomains` keeps the store consistent. -/
theorem foldl_mark_pending_consistent (now : Int) (domains : List String) :
    ∀ c : RedisDNSCache, consistent c → consistent (domains.foldl (mark_pending now) c) := by
  induction domains with
  | nil => intro c h; exact h
  | cons d rest ih =>
    intro c h
    rw [List.foldl_cons]
    apply ih
    unfold mark_pending
    split
    · split
      · exact insertOrUpdate_consistent c d _ _ now h
      · exact h
    · exact h

/-- The verdict loop of `reportDomains` keeps the store consistent. -/
theorem handleArray_consistent (now : Int) (action : DomainAction) (items : List JsonItem) :
    ∀ c : RedisDNSCache, consistent c → consistent (handleArray now action c items).1 := by
  induction items with
  | nil => intro c h; exact h
  | cons item rest ih =>
    intro c h
    cases item with
    | str d =>
      rw [handleArray]
      exact ih _ (insertOrUpdate_consistent c d _ _ now h)
    | other =>
      rw [handleArray]
      exact h

/-- The method `reportDomains` keeps the store consistent, whatever the outcome
of the POST. -/
theorem reportDomains_consistent (c : RedisDNSCache) (domains : List String)
    (outcome : PostOutcome) (now : Int) (h : consistent c) :
    consistent (reportDomains c domains outcome now).1 := by
  unfold reportDomains
  split
  · exact h
  · cases outcome with
    | transport_error => exact h
    | response code body =>
      simp only
      split
      · exact h
      · have hm := foldl_mark_pending_consistent now domains c h
        cases body with
        | none => exact hm
        | some reply =>
          simp only
          have hp := handleArray_consistent now DomainAction.PERMIT reply.permitted _ hm
          cases hr : handleArray now DomainAction.PERMIT
              (domains.foldl (mark_pending now) c) reply.permitted with
          | mk c2 ok =>
            rw [hr] at hp
            cases ok with
            | false => exact hp
            | true => exact handleArray_consistent now DomainAction.DROP reply.dropped c2 hp

/-- The retry loop keeps the store consistent. -/
theorem retry_loop_consistent (filtered : List String) (max_retries retry_delay : Nat)
    (server : Nat → PostOutcome) (clock : Nat → Int) :
    ∀ (fuel : Nat) (s : RetryState), consistent s.cache →
      consistent (retry_loop filtered max_retries retry_delay server clock fuel s).cache := by
  intro fuel
  induction fuel with
  | zero => intro s h; exact h
  | succ fuel ih =>
    intro s h
    rw [retry_loop]
    split
    · simp only
      split
      · exact ih _ (reportDomains_consistent _ _ _ _ h)
      · exact ih _ (reportDomains_consistent _ _ _ _ h)
    · exact h

/-- The method `try_report_domains` keeps the store consistent. -/
theorem try_report_domains_consistent (c : RedisDNSCache) (max_retries retry_delay : Nat)
    (server : Nat → PostOutcome) (clock : Nat → Int) (h : consistent c) :
    consistent (try_report_domains c max_retries retry_delay server clock).cache := by
  unfold try_report_domains
  simp only
  have hstart : consistent
      (if (filtered_domains c).isEmpty then clearPendingReportDomains c else c) := by
    split
    · exact consistent_congr c _ rfl rfl rfl h
    · exact h
  have hloop := retry_loop_consistent (filtered_domains c) max_retries retry_delay server clock
    max_retries
    { cache := if (filtered_domains c).isEmpty then clearPendingReportDomains c else c,
      attempt := 0, success := false, trace := [] } hstart
  have hrun : ∀ s : RetryState, consistent s.cache →
      consistent (if s.success = true then
        ({ cache := clearPendingReportDomains s.cache, trace := s.trace } : ReportRun)
        else { cache := s.cache, trace := s.trace }).cache := by
    intro s hs
    split
    · exact consistent_congr s.cache _ rfl rfl rfl hs
    · exact hs
  exact hrun _ hloop

/-- The method `reportStats` keeps the store consistent: it resets the counter
of hashes that exist. -/
theorem reportStats_consistent (c : RedisDNSCache) (interval : Int) (outcome : PostOutcome)
    (h : consistent c) : consistent (reportStats c interval outcome) := by
  cases outcome with
  | transport_error => exact h
  | response code body =>
    by_cases h2xx : 200 ≤ code ∧ code < 300
    · obtain ⟨e1, e2, _, _, e5⟩ := reportStats_success c interval code body h2xx
      obtain ⟨h1, h2, h3, h4, h5⟩ := h
      have hcut : ∀ x, x ∈ (c.lru.map Prod.fst).map c_str → x ∈ c.lru.map Prod.fst := by
        intro x hx
        obtain ⟨m, hm, hmx⟩ := List.mem_map.mp hx
        rw [← hmx, h5 m hm]
        exact hm
      have hent : ∀ x hash, (reportStats c interval (PostOutcome.response code body)).entries x
          = some hash → ∃ h0, c.entries x = some h0 ∧
            (hash = h0 ∨ hash = { h0 with query_count := some 0 }) := by
        intro x hash hx
        rw [e1 x] at hx
        split at hx
        · rename_i hmem
          obtain ⟨h0, hh0⟩ := Option.isSome_iff_exists.mp (h3 x (hcut x hmem.1))
          rw [hh0] at hx
          injection hx with hx
          exact ⟨h0, hh0, Or.inr hx.symm⟩
        · exact ⟨hash, hx, Or.inl rfl⟩
      refine ⟨by rw [e5, h1], by rw [e2]; exact h2, ?_, ?_, by rw [e2]; exact h5⟩
      · intro d hd
        rw [e2] at hd
        rw [e1 d]
        split
        · rfl
        · exact h3 d hd
      · intro d hash hd
        obtain ⟨h0, hh0, hor⟩ := hent d hash hd
        obtain ⟨s, a, t, q, hfull, hm⟩ := h4 d h0 hh0
        rw [e2]
        rcases hor with hor | hor
        · exact ⟨s, a, t, q, by rw [hor, hfull], hm⟩
        · exact ⟨s, a, t, 0, by rw [hor, hfull]; rfl, hm⟩
    · unfold reportStats
      simp only
      rw [if_neg (by omega)]
      exact h

/-- Every reachable store is consistent. -/
theorem reachable_consistent (c : RedisDNSCache) (h : reachable c) : consistent c := by
  induction h with
  | empty max_size =>
    refine ⟨rfl, List.nodup_nil, ?_, ?_, ?_⟩
    · intro d hd; cases hd
    · intro d h hd; exact Option.noConfusion hd
    · intro d hd; cases hd
  | upsert c d s a now _ ih => exact insertOrUpdate_consistent c d s a now ih
  | removed c d _ ih => exact remove_consistent c d ih
  | reported c m delay server clock _ ih =>
    exact try_report_domains_consistent c m delay server clock ih
  | flushed c interval outcome _ ih => exact reportStats_consistent c interval outcome ih

/-- C29 (store consistency invariant): in every store state reachable from the
empty store by `insertOrUpdate`, `remove`, `try_report_domains` and
`reportStats`, a domain has an entry in the entry table if and only if it is a
member of the LRU index, and for every such domain the LRU score (there is only
one) equals its `last_accessed`, `last_accessed` equals `last_updated`, and its
ttl equals the TTL table value of its current `(status, action)`. -/
theorem store_consistency (c : RedisDNSCache) (hreach : reachable c) :
    (∀ d, (c.entries d).isSome = true ↔ d ∈ c.lru.map Prod.fst) ∧
      (∀ d h, c.entries d = some h →
        ∃ s a t, h.status = some s ∧ h.action = some a ∧
          h.last_accessed = some t ∧ h.last_updated = some t ∧
          h.ttl = some (ttl_table s a) ∧
          (d, t) ∈ c.lru ∧ ∀ score, (d, score) ∈ c.lru → score = t) := by
  obtain ⟨_, h2, h3, h4, _⟩ := reachable_consistent c hreach
  refine ⟨?_, ?_⟩
  · intro d
    constructor
    · intro hd
      obtain ⟨h, hh⟩ := Option.isSome_iff_exists.mp hd
      obtain ⟨s, a, t, q, _, hm⟩ := h4 d h hh
      exact List.mem_map.mpr ⟨(d, t), hm, rfl⟩
    · exact h3 d
  · intro d h hh
    obtain ⟨s, a, t, q, hfull, hm⟩ := h4 d h hh
    refine ⟨s, a, t, ?_, ?_, ?_, ?_, ?_, hm, ?_⟩
    · rw [hfull]; rfl
    · rw [hfull]; rfl
    · rw [hfull]; rfl
    · rw [hfull]; rfl
    · rw [hfull]; rfl
    · intro score hscore
      exact score_unique h2 hscore hm

/-- Witness for C29: the store after one observation of `d` in the empty store
of capacity 10. -/
theorem store_consistency_witness :
    ((insertOrUpdate (empty_cache 10) "d" DomainStatus.FAKE DomainAction.DROP 1).1.entries
        "d").isSome = true ↔
      "d" ∈ (insertOrUpdate (empty_cache 10) "d" DomainStatus.FAKE
        DomainAction.DROP 1).1.lru.map Prod.fst :=
  (store_consistency _
    (reachable.upsert (empty_cache 10) "d" DomainStatus.FAKE DomainAction.DROP 1
      (reachable.empty 10))).1 "d"

end DnsFilter
